import Mathlib

/-!
# gomon: the view-state reducer and the projection engine

A shallow embedding of `src/model.go`, `src/messages.go` and `src/keys.go`,
of `CollectProcesses` (`src/process.go`) and of `formatUptime` (`src/system.go`).

Conventions of the embedding.

* Go `int` and `int32` values are Lean `Int`; slice indices inside the sorting
  routines are `Nat` (they are never negative there). A Go `int` is 64 bits
  wide: an addition or subtraction of `model.go` whose exact result can leave
  the range from -2^63 to 2^63 - 1 is written with `wrapInt`, which wraps it
  around as the machine does. Where the operands bound the result (the length
  of a slice minus one, the column widths of a row) the operation is exact.
* A Go `string` is a Lean `String`, read as its sequence of code points.
  Comparison `<` of strings is lexicographic comparison of `String.data`.
* A `float64` is a value of `F64`: NaN, the two infinities, negative zero, or a
  finite value (a rational number).
* An `error` is `Option String`: `none` is `nil`, `some e` carries `e.Error()`.
* Library code the repository calls is taken as a parameter when the source
  does not fix it: the rune mapping `unicode.ToLower` (`lo`), the text-input
  widget of the bubbles library (`ti`), `Style.Render` of lipgloss (`render`),
  the float verbs of `fmt.Sprintf` (`fmtF`) and the process queries of gopsutil
  (`ProcessAPI`).
* `sort.SliceStable` is embedded from the Go standard library
  (`insertionSort_func`, `swapRange_func`, `rotate_func`, `symMerge_func`,
  `stable_func`). Loops whose trip count depends on the data carry a fuel
  argument that bounds the number of iterations.
-/

namespace Gomon

/-! ## keys.go -/

def keyQuit : String := "q"
def keyUp : String := "up"
def keyDown : String := "down"
def keyVimUp : String := "k"
def keyVimDown : String := "j"
def keyFilter : String := "/"
def keyEsc : String := "esc"
def keyTab : String := "tab"
def keyDel : String := "delete"
def keyKill : String := "K"
def keyConfirmY : String := "y"
def keyConfirmN : String := "n"
def keyEnter : String := "enter"
def keySortPID : String := "1"
def keySortName : String := "2"
def keySortCPU : String := "3"
def keySortMem : String := "4"
def keySortStatus : String := "5"
def keySortUser : String := "6"
def keyHelp : String := "?"

/-! ## messages.go -/

/-- The interaction mode, `AppMode`. -/
inductive AppMode
  | ModeNormal
  | ModeFilter
  | ModeConfirmKill
  | ModeHelp
  deriving DecidableEq, Repr

/-- The sort column, `SortColumn`, an `iota` enumeration 0..5. -/
inductive SortColumn
  | SortPID
  | SortName
  | SortCPU
  | SortMem
  | SortThreads
  | SortUser
  deriving DecidableEq, Repr

open AppMode SortColumn

/-- The integer value of a column, `int(col)`. -/
def SortColumn.toNat : SortColumn → Nat
  | SortPID => 0
  | SortName => 1
  | SortCPU => 2
  | SortMem => 3
  | SortThreads => 4
  | SortUser => 5

/-- The conversion `SortColumn(n)` for the values 0..5 the program produces. -/
def SortColumn.fromNat : Nat → SortColumn
  | 0 => SortPID
  | 1 => SortName
  | 2 => SortCPU
  | 3 => SortMem
  | 4 => SortThreads
  | _ => SortUser

/-- A `float64` value. A finite value is the rational number it denotes. -/
inductive F64
  | nan
  | negInf
  | negZero
  | fin (q : ℚ)
  | posInf
  deriving DecidableEq

/-- Whether the value is NaN, `math.IsNaN`. -/
def F64.isNaN : F64 → Bool
  | F64.nan => true
  | _ => false

/-- The class of a value on the extended line: -1 for -Inf, 1 for +Inf, else 0. -/
def F64.cls : F64 → Int
  | F64.negInf => -1
  | F64.posInf => 1
  | _ => 0

/-- The magnitude of a finite value (0 for the zeros, the infinities and NaN). -/
def F64.mag : F64 → ℚ
  | F64.fin q => q
  | _ => 0

/-- The comparison `a < b` of two `float64` values: false when either is NaN. -/
def F64.lt (a b : F64) : Bool :=
  !a.isNaN && !b.isNaN &&
    (decide (a.cls < b.cls) || (decide (a.cls = b.cls) && decide (a.mag < b.mag)))

/-- One process at one sampling instant, `ProcessRow`. -/
structure ProcessRow where
  PID : Int
  Name : String
  CPU : F64
  MemMB : F64
  Threads : Int
  User : String
  deriving DecidableEq

/-- Host statistics or a failure, `sysStatsMsg`. -/
structure sysStatsMsg where
  Hostname : String
  Uptime : String
  MemUsed : F64
  MemTotal : F64
  Err : Option String
  deriving DecidableEq

/-- A key press, `tea.KeyMsg`. The handlers of `model.go` read only
`msg.String()`, here `name`; the rest of the message is read by the text-input
widget alone and is kept as an uninterpreted code. -/
structure KeyMsg where
  name : String
  code : Nat
  deriving DecidableEq

/-- The events `Update` receives (`tea.Msg`). -/
inductive Msg
  | WindowSizeMsg (Width Height : Int)
  | tickMsg
  | sysStatsMsg (msg : sysStatsMsg)
  | processesMsg (Procs : List ProcessRow) (Err : Option String)
  | killResultMsg (PID : Int) (Err : Option String)
  | KeyMsg (msg : KeyMsg)
  | other

/-- The commands `Update` returns (`tea.Cmd`): `nil`, `tea.Quit`,
`textinput.Blink`, the batch `tea.Batch(tickCmd(), fetchSysStats(),
fetchProcesses())`, `killProcess(pid)`, or a command produced by the text-input
widget. The last constructor is no command: it marks a transition in which the
source indexes a slice out of range (a run-time failure of the program). -/
inductive Cmd
  | nil
  | Quit
  | Blink
  | Batch
  | killProcess (pid : Int)
  | input (c : Nat)
  | indexOutOfRange
  deriving DecidableEq

/-- The text-input widget `textinput.Model` of the bubbles library, over its
state type `τ`: the operations `model.go` calls. `New` is the widget as
`NewModel` configures it; `Update` returns the new widget and, possibly, a
command of its own. -/
structure TextInput (τ : Type) where
  New : τ
  Value : τ → String
  SetValue : τ → String → τ
  Focus : τ → τ
  Blur : τ → τ
  Update : τ → KeyMsg → τ × Option Nat

/-- The command `Update` passes on from the text-input widget. -/
def Cmd.ofInput : Option Nat → Cmd
  | none => Cmd.nil
  | some c => Cmd.input c

/-! ## Strings -/

/-- The function `strings.ToLower`: `lo` (for `unicode.ToLower`) applied to every rune. -/
def ToLower (lo : Char → Char) (s : String) : String :=
  String.mk (s.data.map lo)

/-- The function `strings.Contains(s, substr)`. -/
def Contains (s substr : String) : Bool :=
  decide (substr.data <:+: s.data)

/-- The smallest value of a Go `int`, `math.MinInt64`. -/
def minInt : Int := -9223372036854775808

/-- The largest value of a Go `int`, `math.MaxInt64`. -/
def maxInt : Int := 9223372036854775807

/-- The value of an `int` operation whose exact result is `x`: the result wraps
around at 64 bits (two's complement). -/
def wrapInt (x : Int) : Int :=
  (x + 9223372036854775808) % 18446744073709551616 - 9223372036854775808

/-- The index expression `xs[i]` for an `int` index: `none` when `i` is out of range. -/
def index {α : Type} (xs : List α) (i : Int) : Option α :=
  if 0 ≤ i then xs[i.toNat]? else none

/-- The verb `%d` of `fmt.Sprintf` on an integer. -/
def fmtD (n : Int) : String :=
  toString n

/-! ## sort.SliceStable (Go standard library, `sort/zsortfunc.go`) -/

section Sorting

variable {α : Type}

/-- The call `data.Less(i, j)` on the current content of the slice. -/
def lessAt (less : α → α → Bool) (data : List α) (i j : Nat) : Bool :=
  match data[i]?, data[j]? with
  | some x, some y => less x y
  | _, _ => false

/-- The call `data.Swap(i, j)`. -/
def swapAt (data : List α) (i j : Nat) : List α :=
  match data[i]?, data[j]? with
  | some x, some y => (data.set i y).set j x
  | _, _ => data

/-- Inner loop of `insertionSort_func`:
`for j := i; j > a && data.Less(j, j-1); j-- { data.Swap(j, j-1) }`. -/
def insertionInner (less : α → α → Bool) (a : Nat) : Nat → List α → List α
  | 0, data => data
  | j + 1, data =>
    if j + 1 > a ∧ lessAt less data (j + 1) j = true then
      insertionInner less a j (swapAt data (j + 1) j)
    else data

/-- Go `insertionSort_func(data, a, b)`: `for i := a + 1; i < b; i++ { inner loop }`. -/
def insertionSort_func (less : α → α → Bool) (data : List α) (a b : Nat) : List α :=
  (List.range' (a + 1) (b - (a + 1))).foldl (fun d i => insertionInner less a i d) data

/-- Go `swapRange_func(data, a, b, n)`: `for i := 0; i < n; i++ { data.Swap(a+i, b+i) }`. -/
def swapRange_func (data : List α) (a b n : Nat) : List α :=
  (List.range n).foldl (fun d i => swapAt d (a + i) (b + i)) data

/-- The loop of `rotate_func` with its final block swap:
`for i != j { if i > j { swapRange(m-i, m, j); i -= j } else { swapRange(m-i, m+j-i, i); j -= i } }`
followed by `swapRange(m-i, m, i)`. -/
def rotateLoop (m : Nat) : Nat → Nat → Nat → List α → List α
  | 0, _, _, data => data
  | fuel + 1, i, j, data =>
    if i ≠ j then
      if i > j then rotateLoop m fuel (i - j) j (swapRange_func data (m - i) m j)
      else rotateLoop m fuel i (j - i) (swapRange_func data (m - i) (m + j - i) i)
    else swapRange_func data (m - i) m i

/-- Go `rotate_func(data, a, m, b)`: turns `x u v y` into `x v u y`, where
`u = data[a:m]` and `v = data[m:b]`. -/
def rotate_func (data : List α) (a m b : Nat) : List α :=
  rotateLoop m (m - a + (b - m) + 1) (m - a) (b - m) data

/-- The binary-search loop
`for i < j { h := int(uint(i+j) >> 1); if pred(h) { i = h + 1 } else { j = h } }`;
the result is the final `i`. -/
def searchLoop (pred : Nat → Bool) : Nat → Nat → Nat → Nat
  | 0, i, _ => i
  | fuel + 1, i, j =>
    if i < j then
      if pred ((i + j) / 2) = true then searchLoop pred fuel ((i + j) / 2 + 1) j
      else searchLoop pred fuel i ((i + j) / 2)
    else i

/-- Go `symMerge_func(data, a, m, b)`: merges the sorted runs `data[a:m]` and
`data[m:b]`. The first argument bounds the recursion depth. -/
def symMerge_func (less : α → α → Bool) : Nat → List α → Nat → Nat → Nat → List α
  | 0, data, _, _, _ => data
  | fuel + 1, data, a, m, b =>
    if m - a = 1 then
      let i := searchLoop (fun h => lessAt less data h a) (b - m) m b
      (List.range' a (i - 1 - a)).foldl (fun d k => swapAt d k (k + 1)) data
    else if b - m = 1 then
      let i := searchLoop (fun h => !lessAt less data m h) (m - a) a m
      (List.range' (i + 1) (m - i)).reverse.foldl (fun d k => swapAt d k (k - 1)) data
    else
      let mid := (a + b) / 2
      let n := mid + m
      let start0 := if m > mid then n - b else a
      let r := if m > mid then mid else m
      let p := n - 1
      let start := searchLoop (fun c => !lessAt less data (p - c) c) (r - start0) start0 r
      let end_ := n - start
      let data1 := if start < m ∧ m < end_ then rotate_func data start m end_ else data
      let data2 := if a < start ∧ start < mid then symMerge_func less fuel data1 a start mid
        else data1
      if mid < end_ ∧ end_ < b then symMerge_func less fuel data2 mid end_ b else data2

/-- First loop of `stable_func`:
`for b <= n { insertionSort(data, a, b); a = b; b += blockSize }`; the result is
the slice and the final `a`. -/
def blockLoop (less : α → α → Bool) (blockSize n : Nat) :
    Nat → List α → Nat → Nat → List α × Nat
  | 0, data, a, _ => (data, a)
  | fuel + 1, data, a, b =>
    if b ≤ n then
      blockLoop less blockSize n fuel (insertionSort_func less data a b) b (b + blockSize)
    else (data, a)

/-- Inner loop of the merge phase of `stable_func`:
`for b <= n { symMerge(data, a, a+blockSize, b); a = b; b += 2 * blockSize }`. -/
def mergePass (less : α → α → Bool) (blockSize n : Nat) :
    Nat → List α → Nat → Nat → List α × Nat
  | 0, data, a, _ => (data, a)
  | fuel + 1, data, a, b =>
    if b ≤ n then
      mergePass less blockSize n fuel
        (symMerge_func less (b - a) data a (a + blockSize) b) b (b + 2 * blockSize)
    else (data, a)

/-- Outer loop of the merge phase of `stable_func`:
`for blockSize < n { a, b = 0, 2*blockSize; inner loop;
if m := a + blockSize; m < n { symMerge(data, a, m, n) }; blockSize *= 2 }`. -/
def mergeLoop (less : α → α → Bool) (n : Nat) : Nat → List α → Nat → List α
  | 0, data, _ => data
  | fuel + 1, data, blockSize =>
    if blockSize < n then
      let r := mergePass less blockSize n n data 0 (2 * blockSize)
      let data1 := if r.2 + blockSize < n then
          symMerge_func less (n - r.2) r.1 r.2 (r.2 + blockSize) n
        else r.1
      mergeLoop less n fuel data1 (blockSize * 2)
    else data

/-- Go `stable_func(data, n)` with `blockSize := 20`. -/
def stable_func (less : α → α → Bool) (data : List α) (n : Nat) : List α :=
  let r := blockLoop less 20 n n data 0 20
  mergeLoop less n n (insertionSort_func less r.1 r.2 n) 20

/-- Go `sort.SliceStable(x, less)`, with `less(i, j)` comparing the elements at
positions `i` and `j`. -/
def SliceStable (x : List α) (less : α → α → Bool) : List α :=
  stable_func less x x.length

end Sorting

/-! ## model.go -/

/-- The application state, `Model`, over the state type `τ` of the text input. -/
structure Model (τ : Type) where
  allProcs : List ProcessRow
  visibleProc : List ProcessRow
  sysStats : sysStatsMsg
  cursor : Int
  scrollOff : Int
  termWidth : Int
  termHeight : Int
  sortCol : SortColumn
  sortAsc : Bool
  mode : AppMode
  filterInput : τ
  filterText : String
  killTarget : Option ProcessRow
  statusMsg : String
  err : Option String

section Reducer

variable {τ : Type}

/-- The initial state, `NewModel()`. -/
def NewModel (ti : TextInput τ) : Model τ :=
  { allProcs := []
    visibleProc := []
    sysStats := { Hostname := "", Uptime := "", MemUsed := F64.fin 0, MemTotal := F64.fin 0,
                  Err := none }
    cursor := 0
    scrollOff := 0
    termWidth := 120
    termHeight := 30
    sortCol := SortCPU
    sortAsc := false
    mode := ModeNormal
    filterInput := ti.New
    filterText := ""
    killTarget := none
    statusMsg := ""
    err := none }

/-- The comparison `less` that `compareRows` selects by `m.sortCol`, before the
direction is applied. -/
def columnLess (lo : Char → Char) (col : SortColumn) (a b : ProcessRow) : Bool :=
  match col with
  | SortPID => decide (a.PID < b.PID)
  | SortName => decide ((ToLower lo a.Name).data < (ToLower lo b.Name).data)
  | SortCPU => F64.lt a.CPU b.CPU
  | SortMem => F64.lt a.MemMB b.MemMB
  | SortThreads => decide (a.Threads < b.Threads)
  | SortUser => decide ((ToLower lo a.User).data < (ToLower lo b.User).data)

/-- The method `compareRows`: `less` when `m.sortAsc`, else `!less`. -/
def compareRows (lo : Char → Char) (m : Model τ) (a b : ProcessRow) : Bool :=
  if m.sortAsc then columnLess lo m.sortCol a b else !columnLess lo m.sortCol a b

/-- The method `applyFilterAndSort`: filter `allProcs` by name, sort the result
with `sort.SliceStable` and store it in `visibleProc`. -/
def applyFilterAndSort (lo : Char → Char) (m : Model τ) : Model τ :=
  let filter := ToLower lo m.filterText
  let filtered := m.allProcs.filter
    (fun p => decide (filter = "") || Contains (ToLower lo p.Name) filter)
  { m with visibleProc := SliceStable filtered (compareRows lo m) }

/-- The method `tableHeight`: the number of data rows visible. -/
def tableHeight (m : Model τ) : Int :=
  let reserved := 8
  let h := wrapInt (m.termHeight - reserved)
  if h < 1 then 1 else h

/-- The method `adjustScroll`. -/
def adjustScroll (m : Model τ) : Model τ :=
  let h := tableHeight m
  let m1 := if m.cursor < m.scrollOff then { m with scrollOff := m.cursor } else m
  if m1.cursor ≥ wrapInt (m1.scrollOff + h) then
    { m1 with scrollOff := wrapInt (wrapInt (m1.cursor - h) + 1) }
  else m1

/-- The method `clampCursor`. -/
def clampCursor (m : Model τ) : Model τ :=
  if m.visibleProc.length = 0 then { m with cursor := 0, scrollOff := 0 }
  else
    let m1 := if m.cursor < 0 then { m with cursor := 0 } else m
    let m2 := if m1.cursor ≥ (m1.visibleProc.length : Int) then
        { m1 with cursor := (m1.visibleProc.length : Int) - 1 }
      else m1
    adjustScroll m2

/-- The method `moveCursor`. -/
def moveCursor (m : Model τ) (delta : Int) : Model τ :=
  if m.visibleProc.length = 0 then m
  else adjustScroll (clampCursor { m with cursor := wrapInt (m.cursor + delta) })

/-- The default direction of a column: ascending for PID, Name and User. -/
def defaultAsc (col : SortColumn) : Bool :=
  decide (col = SortPID ∨ col = SortName ∨ col = SortUser)

/-- The method `toggleSort`. -/
def toggleSort (lo : Char → Char) (m : Model τ) (col : SortColumn) : Model τ :=
  let m1 := if m.sortCol = col then { m with sortAsc := !m.sortAsc }
    else { m with sortCol := col, sortAsc := defaultAsc col }
  clampCursor (applyFilterAndSort lo m1)

/-- The method `handleNormalKey`. -/
def handleNormalKey (lo : Char → Char) (ti : TextInput τ) (m0 : Model τ) (msg : KeyMsg) :
    Model τ × Cmd :=
  let m := { m0 with statusMsg := "" }
  if msg.name = keyQuit ∨ msg.name = "ctrl+c" then (m, Cmd.Quit)
  else if msg.name = keyUp ∨ msg.name = keyVimUp then (moveCursor m (-1), Cmd.nil)
  else if msg.name = keyDown ∨ msg.name = keyVimDown then (moveCursor m 1, Cmd.nil)
  else if msg.name = keyFilter then
    ({ m with mode := ModeFilter, filterInput := ti.Focus m.filterInput }, Cmd.Blink)
  else if msg.name = keyEsc then
    if m.filterText ≠ "" then
      (clampCursor (applyFilterAndSort lo
        { m with filterText := "", filterInput := ti.SetValue m.filterInput "" }), Cmd.nil)
    else (m, Cmd.nil)
  else if msg.name = keyTab then
    let next := SortColumn.fromNat ((m.sortCol.toNat + 1) % 6)
    (clampCursor (applyFilterAndSort lo
      { m with sortCol := next,
               sortAsc := decide (next = SortPID ∨ next = SortName ∨ next = SortUser) }),
     Cmd.nil)
  else if msg.name = keySortPID then (toggleSort lo m SortPID, Cmd.nil)
  else if msg.name = keySortName then (toggleSort lo m SortName, Cmd.nil)
  else if msg.name = keySortCPU then (toggleSort lo m SortCPU, Cmd.nil)
  else if msg.name = keySortMem then (toggleSort lo m SortMem, Cmd.nil)
  else if msg.name = keySortStatus then (toggleSort lo m SortThreads, Cmd.nil)
  else if msg.name = keySortUser then (toggleSort lo m SortUser, Cmd.nil)
  else if msg.name = keyDel ∨ msg.name = keyKill then
    if m.visibleProc.length > 0 then
      match index m.visibleProc m.cursor with
      | some target => ({ m with killTarget := some target, mode := ModeConfirmKill }, Cmd.nil)
      | none => (m, Cmd.indexOutOfRange)
    else (m, Cmd.nil)
  else if msg.name = keyHelp then ({ m with mode := ModeHelp }, Cmd.nil)
  else (m, Cmd.nil)

/-- The method `handleHelpKey`. -/
def handleHelpKey (m : Model τ) (msg : KeyMsg) : Model τ × Cmd :=
  if msg.name = keyHelp ∨ msg.name = keyEsc ∨ msg.name = keyQuit then
    ({ m with mode := ModeNormal }, Cmd.nil)
  else (m, Cmd.nil)

/-- The method `handleFilterKey`. -/
def handleFilterKey (lo : Char → Char) (ti : TextInput τ) (m : Model τ) (msg : KeyMsg) :
    Model τ × Cmd :=
  if msg.name = keyEsc then
    (clampCursor (applyFilterAndSort lo
      { m with mode := ModeNormal, filterText := "",
               filterInput := ti.Blur (ti.SetValue m.filterInput "") }), Cmd.nil)
  else if msg.name = keyEnter then
    (clampCursor (applyFilterAndSort lo
      { m with filterText := ti.Value m.filterInput, mode := ModeNormal,
               filterInput := ti.Blur m.filterInput }), Cmd.nil)
  else
    let r := ti.Update m.filterInput msg
    (clampCursor (applyFilterAndSort lo
      { m with filterInput := r.1, filterText := ti.Value r.1 }), Cmd.ofInput r.2)

/-- The method `handleConfirmKey`. -/
def handleConfirmKey (m : Model τ) (msg : KeyMsg) : Model τ × Cmd :=
  if msg.name = keyConfirmY ∨ msg.name = keyEnter then
    match m.killTarget with
    | some t => (m, Cmd.killProcess t.PID)
    | none => ({ m with mode := ModeNormal }, Cmd.nil)
  else if msg.name = keyConfirmN ∨ msg.name = keyEsc then
    ({ m with mode := ModeNormal, killTarget := none }, Cmd.nil)
  else (m, Cmd.nil)

/-- The method `Update`: the state transition on one event. -/
def Update (lo : Char → Char) (ti : TextInput τ) (m : Model τ) : Msg → Model τ × Cmd
  | Msg.WindowSizeMsg w h => ({ m with termWidth := w, termHeight := h }, Cmd.nil)
  | Msg.tickMsg => (m, Cmd.Batch)
  | Msg.sysStatsMsg s =>
    let m1 := { m with sysStats := s }
    match s.Err with
    | some e => ({ m1 with err := some e }, Cmd.nil)
    | none => (m1, Cmd.nil)
  | Msg.processesMsg procs err =>
    match err with
    | some e => ({ m with err := some e }, Cmd.nil)
    | none => (clampCursor (applyFilterAndSort lo { m with allProcs := procs }), Cmd.nil)
  | Msg.killResultMsg pid err =>
    let m1 := { m with mode := ModeNormal, killTarget := none }
    match err with
    | some e => ({ m1 with statusMsg := "kill PID " ++ fmtD pid ++ " failed: " ++ e }, Cmd.nil)
    | none => ({ m1 with statusMsg := "killed PID " ++ fmtD pid }, Cmd.nil)
  | Msg.KeyMsg k =>
    match m.mode with
    | ModeNormal => handleNormalKey lo ti m k
    | ModeFilter => handleFilterKey lo ti m k
    | ModeConfirmKill => handleConfirmKey m k
    | ModeHelp => handleHelpKey m k
  | Msg.other => (m, Cmd.nil)

/-- The state after a sequence of events, starting from `m`. -/
def run (lo : Char → Char) (ti : TextInput τ) (m : Model τ) (msgs : List Msg) : Model τ :=
  msgs.foldl (fun s e => (Update lo ti s e).1) m

/-- The states reachable from `NewModel()` by a finite sequence of `Update` events. -/
inductive Reachable (lo : Char → Char) (ti : TextInput τ) : Model τ → Prop
  | init : Reachable lo ti (NewModel ti)
  | step (m : Model τ) (msg : Msg) :
      Reachable lo ti m → Reachable lo ti (Update lo ti m msg).1

end Reducer

/-! ## Concrete inputs used in the examples -/

/-- A minimal text input standing in for the library widget: the state is the
value and the focus flag; a focused widget appends a one-character key. -/
def lineInput : TextInput (String × Bool) where
  New := ("", false)
  Value s := s.1
  SetValue s v := (v, s.2)
  Focus s := (s.1, true)
  Blur s := (s.1, false)
  Update s msg :=
    if s.2 = true ∧ msg.name.length = 1 then ((s.1 ++ msg.name, s.2), none) else (s, none)

/-- A key press with the given `String()`. -/
def key (name : String) : Msg :=
  Msg.KeyMsg { name := name, code := 0 }

/-- A row with the given identifier, name and CPU value; the other fields are zero. -/
def row (pid : Int) (name : String) (cpu : ℚ) : ProcessRow :=
  { PID := pid, Name := name, CPU := F64.fin cpu, MemMB := F64.fin 0, Threads := 0, User := "" }

/-- The identifiers of the visible rows, in display order. -/
def visiblePIDs {τ : Type} (m : Model τ) : List Int :=
  m.visibleProc.map ProcessRow.PID

/-- The successor of a column in the cycle PID, Name, CPU, Memory, Threads,
User and back to PID, as the specification lists it. -/
def cycleSuccessor : SortColumn → SortColumn
  | SortPID => SortName
  | SortName => SortCPU
  | SortCPU => SortMem
  | SortMem => SortThreads
  | SortThreads => SortUser
  | SortUser => SortPID

/-- The cursor invariant: the cursor indexes a visible row, and is 0 when no
row is visible. -/
def CursorInRange {τ : Type} (m : Model τ) : Prop :=
  (m.visibleProc ≠ [] → 0 ≤ m.cursor ∧ m.cursor < (m.visibleProc.length : Int)) ∧
    (m.visibleProc = [] → m.cursor = 0)

/-- A summary of a state: its row set, filter text, sort selection, mode and
text-input widget, together with the fact that the visible list is the
projection of the state. -/
def StateIs {τ : Type} (lo : Char → Char) (m : Model τ) (rows : List ProcessRow)
    (f : String) (col : SortColumn) (asc : Bool) (mode : AppMode) (inp : τ) : Prop :=
  m.allProcs = rows ∧ m.filterText = f ∧ m.sortCol = col ∧ m.sortAsc = asc ∧
    m.mode = mode ∧ m.filterInput = inp ∧
    m.visibleProc = (applyFilterAndSort lo m).visibleProc

/-! ## Notions used to state the sortedness of `sort.SliceStable` -/

section SortNotions

variable {α : Type}

/-- The slice is ordered by `r` on the index range `[a, b)`. -/
def SortedOn (r : α → α → Prop) (data : List α) (a b : Nat) : Prop :=
  ∀ (i j : Nat) (x y : α), a ≤ i → i < j → j < b → data[i]? = some x → data[j]? = some y →
    r x y

/-- Every element of the slice satisfies `S`. -/
def AllIn (S : α → Prop) (data : List α) : Prop :=
  ∀ (k : Nat) (x : α), data[k]? = some x → S x

/-- The slice `new` differs from `old` only on the index range `[a, b)`, and
every element it holds there is an element `old` holds there. -/
def Within (a b : Nat) (old new : List α) : Prop :=
  new.length = old.length ∧ (∀ k, k < a ∨ b ≤ k → new[k]? = old[k]?) ∧
    (∀ k, a ≤ k → k < b → ∃ k1, a ≤ k1 ∧ k1 < b ∧ new[k]? = old[k1]?)

/-- The comparison `less` agrees with the transitive relation `r` on the
elements that satisfy `S`: `less x y` gives `r x y`, and its failure gives
`r y x`. -/
structure Consistent (less : α → α → Bool) (r : α → α → Prop) (S : α → Prop) : Prop where
  trans : ∀ x y z, r x y → r y z → r x z
  of_less : ∀ x y, S x → S y → less x y = true → r x y
  of_not_less : ∀ x y, S x → S y → less x y = false → r y x

/-- From index `s` on, the slice is ordered by `r` in consecutive blocks of
`blockSize` elements (the last one possibly shorter) up to index `n`. -/
inductive Blocks (r : α → α → Prop) (data : List α) (blockSize n : Nat) : Nat → Prop
  | done (s : Nat) (h : n ≤ s) : Blocks r data blockSize n s
  | cons (s : Nat) (h1 : SortedOn r data s (min (s + blockSize) n))
      (h2 : Blocks r data blockSize n (s + blockSize)) : Blocks r data blockSize n s

end SortNotions

section SortNotions2

variable {α : Type}

/-- Every element on the index range `[a, m)` is `r`-related to every element
on the index range `[m, b)`. -/
def CrossOn (r : α → α → Prop) (data : List α) (a m b : Nat) : Prop :=
  ∀ (p q : Nat) (x y : α), a ≤ p → p < m → m ≤ q → q < b →
    data[p]? = some x → data[q]? = some y → r x y

end SortNotions2

/-! ## The sort keys, as the specification words them -/

/-- The numeric order `a ≤ b` on `float64` values other than NaN: -Inf below
the finite values, +Inf above them, the two zeros equal. -/
def F64.le (a b : F64) : Prop :=
  a.cls < b.cls ∨ (a.cls = b.cls ∧ a.mag ≤ b.mag)

/-- The order of two rows by the key of a column: the numeric value for PID,
CPU, Memory and Threads, the lower-cased string compared lexicographically for
Name and User. -/
def keyLE (lo : Char → Char) (col : SortColumn) (a b : ProcessRow) : Prop :=
  match col with
  | SortPID => a.PID ≤ b.PID
  | SortName => (ToLower lo a.Name).data ≤ (ToLower lo b.Name).data
  | SortCPU => F64.le a.CPU b.CPU
  | SortMem => F64.le a.MemMB b.MemMB
  | SortThreads => a.Threads ≤ b.Threads
  | SortUser => (ToLower lo a.User).data ≤ (ToLower lo b.User).data

/-- Neither the CPU value nor the memory value of the row is NaN. -/
def NotNaN (p : ProcessRow) : Prop :=
  p.CPU.isNaN = false ∧ p.MemMB.isNaN = false

/-- The mode invariant: a kill target is present exactly in ConfirmKill mode,
and outside Normal mode the ephemeral status message is empty. -/
def ModeInv {τ : Type} (m : Model τ) : Prop :=
  (m.killTarget.isSome = true ↔ m.mode = ModeConfirmKill) ∧
    (m.mode ≠ ModeNormal → m.statusMsg = "")

/-! ## Layout: column constants, string utilities and the table body (model.go) -/

def colPID : Int := 7
def colCPU : Int := 8
def colMem : Int := 10
def colStatus : Int := 8
def colUser : Int := 12
def colSeparators : Int := 5 * 3
def colFixed : Int := colPID + colCPU + colMem + colStatus + colUser + colSeparators
def colNameMin : Int := 10
def colNameMax : Int := 40
def highCPUThresh : F64 := F64.fin 50

/-- The comparison `a >= b` of two `float64` values: false when either is NaN. -/
def F64.ge (a b : F64) : Bool :=
  !a.isNaN && !b.isNaN && !F64.lt a b

/-- The method `nameColWidth`: the dynamic width of the Name column. -/
def nameColWidth {τ : Type} (m : Model τ) : Int :=
  let w := wrapInt (wrapInt (m.termWidth - colFixed) - 2)
  let w1 := if w < colNameMin then colNameMin else w
  if w1 > colNameMax then colNameMax else w1

/-- The function `utf8.RuneCountInString`. -/
def RuneCountInString (s : String) : Int :=
  (s.data.length : Int)

/-- The function `strings.Repeat(s, count)`, for the non-negative counts it is
called with. -/
def Repeat (s : String) (count : Int) : String :=
  String.mk (List.replicate count.toNat s.data).flatten

/-- The function `padRight`. -/
def padRight (s : String) (width : Int) : String :=
  let n := RuneCountInString s
  if n ≥ width then s else s ++ Repeat " " (width - n)

/-- The function `padLeft`. -/
def padLeft (s : String) (width : Int) : String :=
  let n := RuneCountInString s
  if n ≥ width then s else Repeat " " (width - n) ++ s

/-- The function `truncate`, on the runes of `s`. The slice expression
`runes[:max]` fails for a negative `max`: the result is then `none`. -/
def truncate (s : String) (max : Int) : Option String :=
  let runes := s.data
  if (runes.length : Int) ≤ max then some s
  else if max ≤ 3 then
    if 0 ≤ max then some (String.mk (runes.take max.toNat)) else none
  else some (String.mk (runes.take (max - 3).toNat) ++ "...")

/-- The styles of `styles.go` that `renderTable` and `renderStatusBar` render with. -/
inductive StyleName
  | styleRowNormal
  | styleRowSelected
  | styleRowHighCPU
  | styleRowHighCPUSelected
  | styleCursor
  | styleBorder
  | styleStatusBar
  | styleStatusError
  deriving DecidableEq

/-- A style as the render methods use it: a declared style, possibly with
`.Width(w)` applied. -/
structure Style where
  name : StyleName
  width : Option Int
  deriving DecidableEq

/-- The text one iteration of the loop of `renderTable` writes for the row
index `idx`, `none` when an index or slice expression fails. `render` is
`Style.Render` of the lipgloss library and `fmtF p` is `fmt.Sprintf` with the
verb `%.pf`; both are parameters. -/
def tableLine {τ : Type} (render : Style → String → String) (fmtF : Nat → F64 → String)
    (m : Model τ) (nameW : Int) (idx : Int) : Option String :=
  if idx ≥ (m.visibleProc.length : Int) then some "\n"
  else
    match index m.visibleProc idx with
    | none => none
    | some row =>
      let selected := decide (idx = m.cursor)
      let cursor := if selected = true then render ⟨StyleName.styleCursor, none⟩ "▶" else " "
      let pid := padLeft (fmtD row.PID) colPID
      match truncate row.Name nameW with
      | none => none
      | some name0 =>
        let name := padRight name0 nameW
        let cpu := padLeft (fmtF 2 row.CPU) colCPU
        let memStr := padLeft (fmtF 1 row.MemMB) colMem
        let threads := padLeft (fmtD row.Threads) colStatus
        let user := padRight row.User colUser
        let sep := render ⟨StyleName.styleBorder, none⟩ " │ "
        let line := cursor ++ pid ++ sep ++ name ++ sep ++ cpu ++ sep ++ memStr ++ sep ++
          threads ++ sep ++ user
        let highCPU := F64.ge row.CPU highCPUThresh
        let styled :=
          if selected = true then
            if highCPU = true then
              render ⟨StyleName.styleRowHighCPUSelected, some m.termWidth⟩ line
            else render ⟨StyleName.styleRowSelected, some m.termWidth⟩ line
          else
            if highCPU = true then render ⟨StyleName.styleRowHighCPU, none⟩ line
            else render ⟨StyleName.styleRowNormal, none⟩ line
        some (styled ++ "\n")

/-- The method `renderTable`: `for i := 0; i < h; i++` over the rows from
`scrollOff` on, written one after the other. -/
def renderTable {τ : Type} (render : Style → String → String) (fmtF : Nat → F64 → String)
    (m : Model τ) : Option String :=
  (List.range (tableHeight m).toNat).foldl
    (fun (b : Option String) (i : Nat) =>
      match b, tableLine render fmtF m (nameColWidth m) (wrapInt (m.scrollOff + (i : Int))) with
      | some b, some l => some (b ++ l)
      | _, _ => none)
    (some "")

/-- The string holds no line break. -/
def NoLineBreak (s : String) : Prop :=
  '\n' ∉ s.data

/-- Styling that leaves the text as it is. -/
def plainRender : Style → String → String :=
  fun _ s => s

/-- A stand-in for the float verbs in the examples: it prints every value as "0.0". -/
def zeroFmtF : Nat → F64 → String :=
  fun _ _ => "0.0"

/-! ## The clamp of the layout rule, in the words of the specification -/

/-- The clamp of the specification: `x` limited to the interval from `lo` to `hi`. -/
def specClamp (x lo hi : Int) : Int :=
  max lo (min hi x)

/-! ## system.go -/

/-- The function `formatUptime`. Its argument is a `uint64`; the function only
divides it and takes remainders, so no operation leaves the range of the type.
The three `Sprintf` formats are written as concatenations of the `%d` fields
and the literal text between them. -/
def formatUptime (seconds : Nat) : String :=
  let days := seconds / 86400
  let seconds1 := seconds % 86400
  let hours := seconds1 / 3600
  let seconds2 := seconds1 % 3600
  let minutes := seconds2 / 60
  if days > 0 then
    fmtD (days : Int) ++ "d " ++ fmtD (hours : Int) ++ "h " ++ fmtD (minutes : Int) ++ "m"
  else if hours > 0 then
    fmtD (hours : Int) ++ "h " ++ fmtD (minutes : Int) ++ "m"
  else
    fmtD (minutes : Int) ++ "m"

/-! ## The kill overlay and the status bar (model.go) -/

/-- The condition `m.mode == ModeConfirmKill && m.killTarget != nil` under
which `View` draws the kill-confirmation overlay. -/
def showsKillOverlay {τ : Type} (m : Model τ) : Bool :=
  decide (m.mode = AppMode.ModeConfirmKill) && m.killTarget.isSome

/-- The constant `helpText` of keys.go. -/
def helpText : String :=
  "q quit  / filter  Tab sort  Del/K kill  j↓  k↑  1=PID 2=Name 3=CPU 4=Mem 5=Thrd 6=User  ? help"

/-- The method `renderStatusBar`. -/
def renderStatusBar {τ : Type} (render : Style → String → String) (m : Model τ) : String :=
  if m.statusMsg ≠ "" then
    render ⟨StyleName.styleStatusError, none⟩ ("  " ++ m.statusMsg)
  else
    match m.err with
    | some e => render ⟨StyleName.styleStatusError, none⟩ ("  Error: " ++ e)
    | none => render ⟨StyleName.styleStatusBar, none⟩ ("  " ++ helpText)

/-- Styling that only records which style was applied, in front of the text. -/
def tagRender : Style → String → String :=
  fun st s => (if st.name = StyleName.styleStatusError then "E" else "-") ++ s

/-! ## process.go

The operating-system queries of the gopsutil library are parameters. One
collection cycle asks them in the order of the identifier list; the answers may
differ from one iteration to the next, so every per-process query carries the
number `i` of the iteration of the row loop that asks it. -/

/-- Whether the value is an infinity, `math.IsInf(x, 0)`. -/
def F64.isInf : F64 → Bool
  | F64.negInf => true
  | F64.posInf => true
  | _ => false

/-- The queries `CollectProcesses` makes, over the type `H` of process handles
(`*process.Process`). A failed query is `none`. `MemoryInfo` answers with the
resident set size in bytes, or with `some none` for a nil result without an
error. -/
structure ProcessAPI (H : Type) where
  Getpid : Int
  Pids : Except String (List Int)
  NewProcess : Nat → Int → Option H
  Name : Nat → H → Option String
  Percent : Nat → H → Option F64
  MemoryInfo : Nat → H → Option (Option Nat)
  NumThreads : Nat → H → Option Int
  Username : Nat → H → Option String

/-- The map `procCache` as the list of its entries. -/
abbrev ProcCache (H : Type) : Type :=
  List (Int × H)

section Collector

variable {H : Type}

/-- The keys of the map. -/
def ProcCache.keys (c : ProcCache H) : List Int :=
  c.map Prod.fst

/-- The lookup `p, ok := procCache[pid]`. -/
def ProcCache.get (c : ProcCache H) (pid : Int) : Option H :=
  match c with
  | [] => none
  | (k, p) :: rest => if k = pid then some p else ProcCache.get rest pid

/-- The statement `delete(procCache, pid)`. -/
def ProcCache.delete (c : ProcCache H) (pid : Int) : ProcCache H :=
  c.filter (fun e => decide (e.1 ≠ pid))

/-- The assignment `procCache[pid] = p`. -/
def ProcCache.set (c : ProcCache H) (pid : Int) (p : H) : ProcCache H :=
  (pid, p) :: ProcCache.delete c pid

/-- The eviction loop: `for pid := range procCache`, deleting every key that is
not in the set `livePIDs`, which holds exactly the elements of `pids`. -/
def evictStale (pids : List Int) (c : ProcCache H) : ProcCache H :=
  (ProcCache.keys c).foldl
    (fun acc pid => if pid ∈ pids then acc else ProcCache.delete acc pid) c

/-- The loop `for i := len(username) - 1; i >= 0; i--` that strips a domain
prefix: `n` is `i + 1`. A backslash is one byte and no byte of a longer
UTF-8 sequence, so the byte the loop looks for is the rune `\`. -/
def stripDomainLoop (username : List Char) : Nat → List Char
  | 0 => username
  | i + 1 =>
    if username[i]? = some '\\' then username.drop (i + 1)
    else stripDomainLoop username i

/-- The lines of `CollectProcesses` that compute the field `User` from the
answer of `p.Username()`. -/
def userField (answer : Option String) : String :=
  let username :=
    match answer with
    | none => "N/A"
    | some u => if u = "" then "N/A" else u
  String.mk (stripDomainLoop username.data username.data.length)

/-- The lines of `CollectProcesses` that compute `cpuPct`. -/
def cpuField (answer : Option F64) : F64 :=
  match answer with
  | none => F64.fin 0
  | some c => if c.isNaN || c.isInf || F64.lt c (F64.fin 0) then F64.fin 0 else c

/-- The lines of `CollectProcesses` that compute `memMB`:
`float64(memInfo.RSS) / (1 << 20)`, as an exact quotient. -/
def memField (answer : Option (Option Nat)) : F64 :=
  match answer with
  | some (some rss) => F64.fin ((rss : ℚ) / 2 ^ 20)
  | _ => F64.fin 0

/-- The row loop `for _, pid := range pids` of `CollectProcesses`, from
iteration `i` on. -/
def collectLoop (api : ProcessAPI H) (selfPID : Int) :
    Nat → List Int → ProcCache H → List ProcessRow → ProcCache H × List ProcessRow
  | _, [], cache, rows => (cache, rows)
  | i, pid :: rest, cache, rows =>
    if pid = selfPID then collectLoop api selfPID (i + 1) rest cache rows
    else
      let handle : Option (H × ProcCache H) :=
        match ProcCache.get cache pid with
        | some p => some (p, cache)
        | none =>
          match api.NewProcess i pid with
          | none => none
          | some p => some (p, ProcCache.set cache pid p)
      match handle with
      | none => collectLoop api selfPID (i + 1) rest cache rows
      | some (p, cache1) =>
        match api.Name i p with
        | none => collectLoop api selfPID (i + 1) rest cache1 rows
        | some name =>
          if name = "" then collectLoop api selfPID (i + 1) rest cache1 rows
          else
            let cpuPct := cpuField (api.Percent i p)
            let memMB := memField (api.MemoryInfo i p)
            let threads :=
              match api.NumThreads i p with
              | none => 0
              | some t => t
            let username := userField (api.Username i p)
            collectLoop api selfPID (i + 1) rest cache1
              (rows ++ [{ PID := pid, Name := name, CPU := cpuPct, MemMB := memMB,
                          Threads := threads, User := username }])

/-- The function `CollectProcesses`: the cache after the call and the message
it returns. -/
def CollectProcesses (api : ProcessAPI H) (procCache : ProcCache H) :
    ProcCache H × Msg :=
  let selfPID := api.Getpid
  match api.Pids with
  | Except.error e => (procCache, Msg.processesMsg [] (some e))
  | Except.ok pids =>
    let cache1 := evictStale pids procCache
    let r := collectLoop api selfPID 0 pids cache1 []
    (r.1, Msg.processesMsg r.2 none)

/-- The rows of a `processesMsg`. -/
def Msg.procs : Msg → List ProcessRow
  | Msg.processesMsg procs _ => procs
  | _ => []

end Collector

/-- A system with three live processes for the examples: the monitor itself
(identifier 1), and two processes whose handle is their identifier, owned by
`CORP\alice` and by nobody known. -/
def demoAPI : ProcessAPI Nat where
  Getpid := 1
  Pids := Except.ok [1, 5, 9]
  NewProcess _ pid := some (pid.toNat + 100)
  Name _ p := some (if p = 7 then "shell" else "daemon")
  Percent _ _ := some (F64.fin 0)
  MemoryInfo _ _ := some (some 1048576)
  NumThreads _ _ := some 2
  Username _ p := if p = 7 then some "CORP\\alice" else none

/-! ## Frame of the cursor maintainer -/

section Frame

variable {τ : Type}

theorem adjustScroll_frame (m : Model τ) :
    ∃ s, adjustScroll m = { m with scrollOff := s } := by
  unfold adjustScroll
  dsimp only
  split_ifs <;> exact ⟨_, rfl⟩

theorem clampCursor_frame (m : Model τ) :
    ∃ c s, clampCursor m = { m with cursor := c, scrollOff := s } := by
  unfold clampCursor
  by_cases h : m.visibleProc.length = 0
  · rw [if_pos h]
    exact ⟨_, _, rfl⟩
  · rw [if_neg h]
    dsimp only
    have hc : ∃ c, (if (if m.cursor < 0 then { m with cursor := 0 } else m).cursor ≥
          ((if m.cursor < 0 then { m with cursor := 0 } else m).visibleProc.length : Int) then
          { (if m.cursor < 0 then { m with cursor := 0 } else m) with
            cursor := ((if m.cursor < 0 then { m with cursor := 0 }
              else m).visibleProc.length : Int) - 1 }
        else (if m.cursor < 0 then { m with cursor := 0 } else m)) =
        { m with cursor := c } := by
      split_ifs <;> exact ⟨_, rfl⟩
    obtain ⟨c, hc⟩ := hc
    rw [hc]
    obtain ⟨s, hs⟩ := adjustScroll_frame { m with cursor := c }
    rw [hs]
    exact ⟨c, s, rfl⟩

theorem clampCursor_allProcs (m : Model τ) : (clampCursor m).allProcs = m.allProcs := by
  obtain ⟨c, s, h⟩ := clampCursor_frame m
  rw [h]

theorem clampCursor_visibleProc (m : Model τ) : (clampCursor m).visibleProc = m.visibleProc := by
  obtain ⟨c, s, h⟩ := clampCursor_frame m
  rw [h]

theorem clampCursor_sysStats (m : Model τ) : (clampCursor m).sysStats = m.sysStats := by
  obtain ⟨c, s, h⟩ := clampCursor_frame m
  rw [h]

theorem clampCursor_termWidth (m : Model τ) : (clampCursor m).termWidth = m.termWidth := by
  obtain ⟨c, s, h⟩ := clampCursor_frame m
  rw [h]

theorem clampCursor_termHeight (m : Model τ) : (clampCursor m).termHeight = m.termHeight := by
  obtain ⟨c, s, h⟩ := clampCursor_frame m
  rw [h]

theorem clampCursor_sortCol (m : Model τ) : (clampCursor m).sortCol = m.sortCol := by
  obtain ⟨c, s, h⟩ := clampCursor_frame m
  rw [h]

theorem clampCursor_sortAsc (m : Model τ) : (clampCursor m).sortAsc = m.sortAsc := by
  obtain ⟨c, s, h⟩ := clampCursor_frame m
  rw [h]

theorem clampCursor_mode (m : Model τ) : (clampCursor m).mode = m.mode := by
  obtain ⟨c, s, h⟩ := clampCursor_frame m
  rw [h]

theorem clampCursor_filterInput (m : Model τ) : (clampCursor m).filterInput = m.filterInput := by
  obtain ⟨c, s, h⟩ := clampCursor_frame m
  rw [h]

theorem clampCursor_filterText (m : Model τ) : (clampCursor m).filterText = m.filterText := by
  obtain ⟨c, s, h⟩ := clampCursor_frame m
  rw [h]

theorem clampCursor_killTarget (m : Model τ) : (clampCursor m).killTarget = m.killTarget := by
  obtain ⟨c, s, h⟩ := clampCursor_frame m
  rw [h]

theorem clampCursor_statusMsg (m : Model τ) : (clampCursor m).statusMsg = m.statusMsg := by
  obtain ⟨c, s, h⟩ := clampCursor_frame m
  rw [h]

theorem clampCursor_err (m : Model τ) : (clampCursor m).err = m.err := by
  obtain ⟨c, s, h⟩ := clampCursor_frame m
  rw [h]

end Frame

/-! ## The shape of a transition

Every transition either ends in `clampCursor (applyFilterAndSort ..)`, or is a
cursor movement, or leaves the row set, the visible list, the cursor, the
scroll offset, the filter text and the sort selection as they were. -/

section Shape

variable {τ : Type}

theorem handleNormalKey_shape (lo : Char → Char) (ti : TextInput τ) (m : Model τ)
    (k : KeyMsg) :
    (∃ m1 : Model τ, (handleNormalKey lo ti m k).1 = clampCursor (applyFilterAndSort lo m1)) ∨
    (∃ d, (handleNormalKey lo ti m k).1 = moveCursor { m with statusMsg := "" } d) ∨
    ((handleNormalKey lo ti m k).1.allProcs = m.allProcs ∧
     (handleNormalKey lo ti m k).1.visibleProc = m.visibleProc ∧
     (handleNormalKey lo ti m k).1.cursor = m.cursor ∧
     (handleNormalKey lo ti m k).1.scrollOff = m.scrollOff ∧
     (handleNormalKey lo ti m k).1.filterText = m.filterText ∧
     (handleNormalKey lo ti m k).1.sortCol = m.sortCol ∧
     (handleNormalKey lo ti m k).1.sortAsc = m.sortAsc) := by
  unfold handleNormalKey toggleSort
  dsimp only
  by_cases h0 : k.name = keyQuit ∨ k.name = "ctrl+c"
  · rw [if_pos h0]
    exact Or.inr (Or.inr ⟨rfl, rfl, rfl, rfl, rfl, rfl, rfl⟩)
  rw [if_neg h0]
  by_cases h1 : k.name = keyUp ∨ k.name = keyVimUp
  · rw [if_pos h1]
    exact Or.inr (Or.inl ⟨_, rfl⟩)
  rw [if_neg h1]
  by_cases h2 : k.name = keyDown ∨ k.name = keyVimDown
  · rw [if_pos h2]
    exact Or.inr (Or.inl ⟨_, rfl⟩)
  rw [if_neg h2]
  by_cases h3 : k.name = keyFilter
  · rw [if_pos h3]
    exact Or.inr (Or.inr ⟨rfl, rfl, rfl, rfl, rfl, rfl, rfl⟩)
  rw [if_neg h3]
  by_cases h4 : k.name = keyEsc
  · rw [if_pos h4]
    by_cases he : m.filterText ≠ ""
    · rw [if_pos he]
      exact Or.inl ⟨_, rfl⟩
    · rw [if_neg he]
      exact Or.inr (Or.inr ⟨rfl, rfl, rfl, rfl, rfl, rfl, rfl⟩)
  rw [if_neg h4]
  by_cases h5 : k.name = keyTab
  · rw [if_pos h5]
    exact Or.inl ⟨_, rfl⟩
  rw [if_neg h5]
  by_cases h6 : k.name = keySortPID
  · rw [if_pos h6]
    exact Or.inl ⟨_, rfl⟩
  rw [if_neg h6]
  by_cases h7 : k.name = keySortName
  · rw [if_pos h7]
    exact Or.inl ⟨_, rfl⟩
  rw [if_neg h7]
  by_cases h8 : k.name = keySortCPU
  · rw [if_pos h8]
    exact Or.inl ⟨_, rfl⟩
  rw [if_neg h8]
  by_cases h9 : k.name = keySortMem
  · rw [if_pos h9]
    exact Or.inl ⟨_, rfl⟩
  rw [if_neg h9]
  by_cases h10 : k.name = keySortStatus
  · rw [if_pos h10]
    exact Or.inl ⟨_, rfl⟩
  rw [if_neg h10]
  by_cases h11 : k.name = keySortUser
  · rw [if_pos h11]
    exact Or.inl ⟨_, rfl⟩
  rw [if_neg h11]
  by_cases h12 : k.name = keyDel ∨ k.name = keyKill
  · rw [if_pos h12]
    by_cases hl : m.visibleProc.length > 0
    · rw [if_pos hl]
      split
      · exact Or.inr (Or.inr ⟨rfl, rfl, rfl, rfl, rfl, rfl, rfl⟩)
      · exact Or.inr (Or.inr ⟨rfl, rfl, rfl, rfl, rfl, rfl, rfl⟩)
    · rw [if_neg hl]
      exact Or.inr (Or.inr ⟨rfl, rfl, rfl, rfl, rfl, rfl, rfl⟩)
  rw [if_neg h12]
  by_cases h13 : k.name = keyHelp
  · rw [if_pos h13]
    exact Or.inr (Or.inr ⟨rfl, rfl, rfl, rfl, rfl, rfl, rfl⟩)
  rw [if_neg h13]
  exact Or.inr (Or.inr ⟨rfl, rfl, rfl, rfl, rfl, rfl, rfl⟩)

theorem handleFilterKey_shape (lo : Char → Char) (ti : TextInput τ) (m : Model τ)
    (k : KeyMsg) :
    ∃ m1 : Model τ, (handleFilterKey lo ti m k).1 = clampCursor (applyFilterAndSort lo m1) := by
  unfold handleFilterKey
  dsimp only
  by_cases h0 : k.name = keyEsc
  · rw [if_pos h0]
    exact ⟨_, rfl⟩
  rw [if_neg h0]
  by_cases h1 : k.name = keyEnter
  · rw [if_pos h1]
    exact ⟨_, rfl⟩
  rw [if_neg h1]
  exact ⟨_, rfl⟩

theorem Update_shape (lo : Char → Char) (ti : TextInput τ) (m : Model τ) (msg : Msg) :
    (∃ m1 : Model τ, (Update lo ti m msg).1 = clampCursor (applyFilterAndSort lo m1)) ∨
    (∃ d, (Update lo ti m msg).1 = moveCursor { m with statusMsg := "" } d) ∨
    ((Update lo ti m msg).1.allProcs = m.allProcs ∧
     (Update lo ti m msg).1.visibleProc = m.visibleProc ∧
     (Update lo ti m msg).1.cursor = m.cursor ∧
     (Update lo ti m msg).1.scrollOff = m.scrollOff ∧
     (Update lo ti m msg).1.filterText = m.filterText ∧
     (Update lo ti m msg).1.sortCol = m.sortCol ∧
     (Update lo ti m msg).1.sortAsc = m.sortAsc) := by
  cases msg with
  | WindowSizeMsg w ht => exact Or.inr (Or.inr ⟨rfl, rfl, rfl, rfl, rfl, rfl, rfl⟩)
  | tickMsg => exact Or.inr (Or.inr ⟨rfl, rfl, rfl, rfl, rfl, rfl, rfl⟩)
  | sysStatsMsg s =>
    unfold Update
    dsimp only
    split
    · exact Or.inr (Or.inr ⟨rfl, rfl, rfl, rfl, rfl, rfl, rfl⟩)
    · exact Or.inr (Or.inr ⟨rfl, rfl, rfl, rfl, rfl, rfl, rfl⟩)
  | processesMsg procs err =>
    unfold Update
    dsimp only
    split
    · exact Or.inr (Or.inr ⟨rfl, rfl, rfl, rfl, rfl, rfl, rfl⟩)
    · exact Or.inl ⟨_, rfl⟩
  | killResultMsg pid err =>
    unfold Update
    dsimp only
    split
    · exact Or.inr (Or.inr ⟨rfl, rfl, rfl, rfl, rfl, rfl, rfl⟩)
    · exact Or.inr (Or.inr ⟨rfl, rfl, rfl, rfl, rfl, rfl, rfl⟩)
  | KeyMsg k =>
    unfold Update
    dsimp only
    split
    · exact handleNormalKey_shape lo ti m k
    · exact Or.inl (handleFilterKey_shape lo ti m k)
    · unfold handleConfirmKey
      by_cases h0 : k.name = keyConfirmY ∨ k.name = keyEnter
      · rw [if_pos h0]
        split
        · exact Or.inr (Or.inr ⟨rfl, rfl, rfl, rfl, rfl, rfl, rfl⟩)
        · exact Or.inr (Or.inr ⟨rfl, rfl, rfl, rfl, rfl, rfl, rfl⟩)
      rw [if_neg h0]
      by_cases h1 : k.name = keyConfirmN ∨ k.name = keyEsc
      · rw [if_pos h1]
        exact Or.inr (Or.inr ⟨rfl, rfl, rfl, rfl, rfl, rfl, rfl⟩)
      rw [if_neg h1]
      exact Or.inr (Or.inr ⟨rfl, rfl, rfl, rfl, rfl, rfl, rfl⟩)
    · unfold handleHelpKey
      by_cases h0 : k.name = keyHelp ∨ k.name = keyEsc ∨ k.name = keyQuit
      · rw [if_pos h0]
        exact Or.inr (Or.inr ⟨rfl, rfl, rfl, rfl, rfl, rfl, rfl⟩)
      rw [if_neg h0]
      exact Or.inr (Or.inr ⟨rfl, rfl, rfl, rfl, rfl, rfl, rfl⟩)
  | other => exact Or.inr (Or.inr ⟨rfl, rfl, rfl, rfl, rfl, rfl, rfl⟩)

end Shape

/-! ## The cursor invariant -/

section Cursor

variable {τ : Type}

theorem adjustScroll_cursor (m : Model τ) :
    (adjustScroll m).cursor = m.cursor ∧ (adjustScroll m).visibleProc = m.visibleProc := by
  obtain ⟨s, h⟩ := adjustScroll_frame m
  rw [h]
  exact ⟨rfl, rfl⟩

theorem clampCursor_inRange (m : Model τ) : CursorInRange (clampCursor m) := by
  unfold CursorInRange
  rw [clampCursor_visibleProc]
  unfold clampCursor
  by_cases h : m.visibleProc.length = 0
  · rw [if_pos h]
    refine ⟨fun hne => ?_, fun _ => rfl⟩
    exact absurd (List.length_eq_zero.mp h) hne
  · rw [if_neg h]
    dsimp only
    rw [(adjustScroll_cursor _).1]
    have hpos : 0 < (m.visibleProc.length : Int) := by omega
    refine ⟨fun _ => ?_, fun he => ?_⟩
    · split_ifs <;> simp_all
      omega
    · exact absurd (by rw [he]; rfl) h

theorem moveCursor_inRange (m : Model τ) (d : Int) (h : CursorInRange m) :
    CursorInRange (moveCursor m d) := by
  unfold moveCursor
  split_ifs with h0
  · exact h
  · have h1 := clampCursor_inRange { m with cursor := wrapInt (m.cursor + d) }
    unfold CursorInRange at h1 ⊢
    rw [(adjustScroll_cursor _).1, (adjustScroll_cursor _).2]
    exact h1

theorem inRange_congr (m m1 : Model τ) (hv : m1.visibleProc = m.visibleProc)
    (hc : m1.cursor = m.cursor) (h : CursorInRange m) : CursorInRange m1 := by
  unfold CursorInRange at h ⊢
  rw [hv, hc]
  exact h

theorem Update_inRange (lo : Char → Char) (ti : TextInput τ) (m : Model τ) (msg : Msg)
    (h : CursorInRange m) : CursorInRange (Update lo ti m msg).1 := by
  rcases Update_shape lo ti m msg with ⟨m1, h1⟩ | ⟨d, h1⟩ | h1
  · rw [h1]
    exact clampCursor_inRange _
  · rw [h1]
    exact moveCursor_inRange _ _ (inRange_congr m _ rfl rfl h)
  · exact inRange_congr m _ h1.2.1 h1.2.2.1 h

/-- C1: in every state reachable from `NewModel()` by `Update` events, the
cursor satisfies `0 ≤ cursor < len(visibleProc)` when the visible list is
non-empty and is 0 when it is empty. -/
theorem reachable_cursor_in_range (lo : Char → Char) (ti : TextInput τ) (m : Model τ)
    (h : Reachable lo ti m) :
    (m.visibleProc ≠ [] → 0 ≤ m.cursor ∧ m.cursor < (m.visibleProc.length : Int)) ∧
      (m.visibleProc = [] → m.cursor = 0) := by
  induction h with
  | init => exact ⟨fun hne => absurd rfl hne, fun _ => rfl⟩
  | step m msg _ ih => exact Update_inRange lo ti m msg ih

theorem reachable_cursor_in_range_witness :
    0 ≤ (Update Char.toLower lineInput (NewModel lineInput)
        (Msg.processesMsg [row 1 "a" 10, row 2 "b" 90] none)).1.cursor ∧
      (Update Char.toLower lineInput (NewModel lineInput)
        (Msg.processesMsg [row 1 "a" 10, row 2 "b" 90] none)).1.cursor <
      ((Update Char.toLower lineInput (NewModel lineInput)
        (Msg.processesMsg [row 1 "a" 10, row 2 "b" 90] none)).1.visibleProc.length : Int) :=
  (reachable_cursor_in_range Char.toLower lineInput _
    (Reachable.step _ _ Reachable.init)).1 (by decide)

end Cursor

/-! ## The visible list is the projection of the state -/

section Projection

variable {τ : Type}

theorem compareRows_congr (lo : Char → Char) (m m1 : Model τ)
    (hc : m1.sortCol = m.sortCol) (ha : m1.sortAsc = m.sortAsc) :
    compareRows lo m1 = compareRows lo m := by
  funext a b
  unfold compareRows
  rw [hc, ha]

theorem project_congr (lo : Char → Char) (m m1 : Model τ)
    (hp : m1.allProcs = m.allProcs) (hf : m1.filterText = m.filterText)
    (hc : m1.sortCol = m.sortCol) (ha : m1.sortAsc = m.sortAsc) :
    (applyFilterAndSort lo m1).visibleProc = (applyFilterAndSort lo m).visibleProc := by
  unfold applyFilterAndSort
  dsimp only
  rw [compareRows_congr lo m m1 hc ha, hp, hf]

theorem projected_clamp (lo : Char → Char) (m : Model τ) :
    (clampCursor (applyFilterAndSort lo m)).visibleProc =
      (applyFilterAndSort lo (clampCursor (applyFilterAndSort lo m))).visibleProc := by
  rw [clampCursor_visibleProc]
  refine (project_congr lo m _ ?_ ?_ ?_ ?_).symm
  · rw [clampCursor_allProcs]; rfl
  · rw [clampCursor_filterText]; rfl
  · rw [clampCursor_sortCol]; rfl
  · rw [clampCursor_sortAsc]; rfl

theorem moveCursor_frame (m : Model τ) (d : Int) :
    ∃ c s, moveCursor m d = { m with cursor := c, scrollOff := s } := by
  unfold moveCursor
  by_cases h : m.visibleProc.length = 0
  · rw [if_pos h]
    exact ⟨_, _, rfl⟩
  · rw [if_neg h]
    obtain ⟨c, s, h1⟩ := clampCursor_frame { m with cursor := wrapInt (m.cursor + d) }
    rw [h1]
    obtain ⟨s2, h2⟩ := adjustScroll_frame
      ({ ({ m with cursor := wrapInt (m.cursor + d) } : Model τ) with
        cursor := c, scrollOff := s })
    rw [h2]
    exact ⟨c, s2, rfl⟩

theorem projected_congr (lo : Char → Char) (m m1 : Model τ)
    (hp : m1.allProcs = m.allProcs) (hv : m1.visibleProc = m.visibleProc)
    (hf : m1.filterText = m.filterText)
    (hc : m1.sortCol = m.sortCol) (ha : m1.sortAsc = m.sortAsc)
    (h : m.visibleProc = (applyFilterAndSort lo m).visibleProc) :
    m1.visibleProc = (applyFilterAndSort lo m1).visibleProc := by
  rw [hv, h]
  exact (project_congr lo m m1 hp hf hc ha).symm

theorem Update_projected (lo : Char → Char) (ti : TextInput τ) (m : Model τ) (msg : Msg)
    (h : m.visibleProc = (applyFilterAndSort lo m).visibleProc) :
    (Update lo ti m msg).1.visibleProc =
      (applyFilterAndSort lo (Update lo ti m msg).1).visibleProc := by
  rcases Update_shape lo ti m msg with ⟨m1, h1⟩ | ⟨d, h1⟩ | h1
  · rw [h1]
    exact projected_clamp lo m1
  · rw [h1]
    obtain ⟨c, s, h2⟩ := moveCursor_frame { m with statusMsg := "" } d
    rw [h2]
    exact projected_congr lo m _ rfl rfl rfl rfl rfl h
  · exact projected_congr lo m _ h1.1 h1.2.1 h1.2.2.2.2.1 h1.2.2.2.2.2.1 h1.2.2.2.2.2.2 h

/-- C4: in every state reachable from `NewModel()` by `Update` events,
`visibleProc` is the list `applyFilterAndSort` computes from the current
`allProcs`, `filterText`, `sortCol` and `sortAsc`. -/
theorem reachable_visible_is_projection (lo : Char → Char) (ti : TextInput τ)
    (m : Model τ) (h : Reachable lo ti m) :
    m.visibleProc = (applyFilterAndSort lo m).visibleProc := by
  induction h with
  | init => rfl
  | step m msg _ ih => exact Update_projected lo ti m msg ih

theorem reachable_visible_is_projection_witness :
    (run Char.toLower lineInput (NewModel lineInput)
      [Msg.processesMsg [row 1 "a" 10, row 2 "b" 90] none, key "2"]).visibleProc =
    (applyFilterAndSort Char.toLower (run Char.toLower lineInput (NewModel lineInput)
      [Msg.processesMsg [row 1 "a" 10, row 2 "b" 90] none, key "2"])).visibleProc :=
  reachable_visible_is_projection Char.toLower lineInput _
    (Reachable.step _ _ (Reachable.step _ _ Reachable.init))

end Projection

/-! ## Sort column selection -/

section SortKeys

variable {τ : Type}

theorem toggleSort_sortCol (lo : Char → Char) (m : Model τ) (c : SortColumn) :
    (toggleSort lo m c).sortCol = c ∧
      (toggleSort lo m c).sortAsc = if m.sortCol = c then !m.sortAsc else defaultAsc c := by
  unfold toggleSort
  simp only []
  rw [clampCursor_sortCol, clampCursor_sortAsc]
  unfold applyFilterAndSort
  by_cases h : m.sortCol = c <;> simp [h]

/-- C9: toggling the active column twice restores sort column and direction;
toggling another column selects it with its default direction (ascending for
PID, Name and User, descending for CPU, Memory and Threads). -/
theorem toggleSort_twice_or_default (lo : Char → Char) (m : Model τ) (c : SortColumn) :
    (m.sortCol = c →
      (toggleSort lo (toggleSort lo m c) c).sortCol = m.sortCol ∧
      (toggleSort lo (toggleSort lo m c) c).sortAsc = m.sortAsc) ∧
    (m.sortCol ≠ c →
      (toggleSort lo m c).sortCol = c ∧
      (toggleSort lo m c).sortAsc = defaultAsc c ∧
      defaultAsc c = match c with
        | SortPID => true
        | SortName => true
        | SortCPU => false
        | SortMem => false
        | SortThreads => false
        | SortUser => true) := by
  refine ⟨fun h => ?_, fun h => ?_⟩
  · have h1 := toggleSort_sortCol lo m c
    have h2 := toggleSort_sortCol lo (toggleSort lo m c) c
    rw [h2.1, h2.2, h1.1, h1.2]
    simp [h]
  · have h1 := toggleSort_sortCol lo m c
    refine ⟨h1.1, ?_, ?_⟩
    · rw [h1.2]; simp [h]
    · cases c <;> rfl

theorem toggleSort_twice_or_default_witness :
    ((toggleSort Char.toLower (toggleSort Char.toLower (NewModel lineInput) SortCPU)
        SortCPU).sortCol = SortCPU ∧
      (toggleSort Char.toLower (toggleSort Char.toLower (NewModel lineInput) SortCPU)
        SortCPU).sortAsc = false) ∧
    ((toggleSort Char.toLower (NewModel lineInput) SortName).sortCol = SortName ∧
      (toggleSort Char.toLower (NewModel lineInput) SortName).sortAsc = true) :=
  ⟨(toggleSort_twice_or_default Char.toLower (NewModel lineInput) SortCPU).1 rfl,
   ((toggleSort_twice_or_default Char.toLower (NewModel lineInput) SortName).2
      (by decide)).1,
   ((toggleSort_twice_or_default Char.toLower (NewModel lineInput) SortName).2
      (by decide)).2.1⟩

theorem fromNat_succ_mod (c : SortColumn) :
    SortColumn.fromNat ((c.toNat + 1) % 6) = cycleSuccessor c := by
  cases c <;> rfl

theorem tab_state (lo : Char → Char) (ti : TextInput τ) (m : Model τ) (k : KeyMsg)
    (hm : m.mode = ModeNormal) (hk : k.name = keyTab) :
    (Update lo ti m (Msg.KeyMsg k)).1.sortCol = cycleSuccessor m.sortCol ∧
    (Update lo ti m (Msg.KeyMsg k)).1.sortAsc = defaultAsc (cycleSuccessor m.sortCol) ∧
    (Update lo ti m (Msg.KeyMsg k)).1.mode = ModeNormal := by
  have hU : Update lo ti m (Msg.KeyMsg k) =
      (clampCursor (applyFilterAndSort lo
        { m with statusMsg := "", sortCol := cycleSuccessor m.sortCol,
                 sortAsc := defaultAsc (cycleSuccessor m.sortCol) }), Cmd.nil) := by
    simp [Update, hm, handleNormalKey, hk, keyTab, keyQuit, keyUp, keyVimUp, keyDown,
      keyVimDown, keyFilter, keyEsc, fromNat_succ_mod, defaultAsc]
  rw [hU]
  obtain ⟨c, s, h⟩ := clampCursor_frame (applyFilterAndSort lo
        { m with statusMsg := "", sortCol := cycleSuccessor m.sortCol,
                 sortAsc := defaultAsc (cycleSuccessor m.sortCol) })
  rw [h]
  exact ⟨rfl, rfl, hm⟩

theorem cycleSuccessor_six (c : SortColumn) :
    cycleSuccessor (cycleSuccessor (cycleSuccessor (cycleSuccessor (cycleSuccessor
      (cycleSuccessor c))))) = c := by
  cases c <;> rfl

/-- C10: in Normal mode the tab key moves the sort column to its successor in
the cycle PID, Name, CPU, Memory, Threads, User, PID and sets the direction to
the new column's default (ascending for PID, Name, User; descending for CPU,
Memory, Threads); six presses in a row return to the starting column. -/
theorem tab_cycles_sort_column (lo : Char → Char) (ti : TextInput τ) (m : Model τ)
    (k : KeyMsg) (hm : m.mode = ModeNormal) (hk : k.name = keyTab) :
    (Update lo ti m (Msg.KeyMsg k)).1.sortCol = cycleSuccessor m.sortCol ∧
    (Update lo ti m (Msg.KeyMsg k)).1.sortAsc =
      (match cycleSuccessor m.sortCol with
        | SortPID => true
        | SortName => true
        | SortCPU => false
        | SortMem => false
        | SortThreads => false
        | SortUser => true) ∧
    (run lo ti m (List.replicate 6 (Msg.KeyMsg k))).sortCol = m.sortCol := by
  have h1 := tab_state lo ti m k hm hk
  refine ⟨h1.1, ?_, ?_⟩
  · rw [h1.2.1]
    cases cycleSuccessor m.sortCol <;> rfl
  · have h2 := tab_state lo ti _ k h1.2.2 hk
    have h3 := tab_state lo ti _ k h2.2.2 hk
    have h4 := tab_state lo ti _ k h3.2.2 hk
    have h5 := tab_state lo ti _ k h4.2.2 hk
    have h6 := tab_state lo ti _ k h5.2.2 hk
    simp only [run, List.replicate, List.foldl]
    rw [h6.1, h5.1, h4.1, h3.1, h2.1, h1.1]
    exact cycleSuccessor_six m.sortCol

theorem tab_cycles_sort_column_witness :
    (Update Char.toLower lineInput (NewModel lineInput) (key "tab")).1.sortCol = SortMem ∧
    (Update Char.toLower lineInput (NewModel lineInput) (key "tab")).1.sortAsc = false ∧
    (run Char.toLower lineInput (NewModel lineInput)
      (List.replicate 6 (key "tab"))).sortCol = SortCPU :=
  tab_cycles_sort_column Char.toLower lineInput (NewModel lineInput)
    { name := "tab", code := 0 } rfl rfl

end SortKeys

/-! ## Single transitions and the end-to-end scenario -/

section Scenario

variable {τ : Type}

theorem Update_key_filter (lo : Char → Char) (ti : TextInput τ) (m : Model τ) (k : KeyMsg)
    (hm : m.mode = ModeNormal) (hk : k.name = keyFilter) :
    Update lo ti m (Msg.KeyMsg k) =
      ({ m with statusMsg := "", mode := ModeFilter, filterInput := ti.Focus m.filterInput },
        Cmd.Blink) := by
  simp [Update, hm, handleNormalKey, hk, keyFilter, keyQuit, keyUp, keyVimUp, keyDown,
    keyVimDown]

theorem Update_filter_type (lo : Char → Char) (ti : TextInput τ) (m : Model τ) (k : KeyMsg)
    (hm : m.mode = ModeFilter) (h1 : k.name ≠ keyEsc) (h2 : k.name ≠ keyEnter) :
    Update lo ti m (Msg.KeyMsg k) =
      (clampCursor (applyFilterAndSort lo
        { m with filterInput := (ti.Update m.filterInput k).1,
                 filterText := ti.Value (ti.Update m.filterInput k).1 }),
        Cmd.ofInput (ti.Update m.filterInput k).2) := by
  simp [Update, hm, handleFilterKey, h1, h2]

theorem Update_filter_enter (lo : Char → Char) (ti : TextInput τ) (m : Model τ) (k : KeyMsg)
    (hm : m.mode = ModeFilter) (hk : k.name = keyEnter) :
    Update lo ti m (Msg.KeyMsg k) =
      (clampCursor (applyFilterAndSort lo
        { m with filterText := ti.Value m.filterInput, mode := ModeNormal,
                 filterInput := ti.Blur m.filterInput }), Cmd.nil) := by
  simp [Update, hm, handleFilterKey, hk, keyEnter, keyEsc]

theorem Update_key_sortName (lo : Char → Char) (ti : TextInput τ) (m : Model τ) (k : KeyMsg)
    (hm : m.mode = ModeNormal) (hk : k.name = keySortName) :
    Update lo ti m (Msg.KeyMsg k) =
      (toggleSort lo { m with statusMsg := "" } SortName, Cmd.nil) := by
  simp [Update, hm, handleNormalKey, hk, keySortName, keyFilter, keyQuit, keyUp, keyVimUp,
    keyDown, keyVimDown, keyEsc, keyTab, keySortPID]

theorem Update_key_esc (lo : Char → Char) (ti : TextInput τ) (m : Model τ) (k : KeyMsg)
    (hm : m.mode = ModeNormal) (hk : k.name = keyEsc) :
    Update lo ti m (Msg.KeyMsg k) =
      (if m.filterText ≠ "" then
        clampCursor (applyFilterAndSort lo
          { m with statusMsg := "", filterText := "",
                   filterInput := ti.SetValue m.filterInput "" })
       else { m with statusMsg := "" }, Cmd.nil) := by
  by_cases h : m.filterText = "" <;>
  simp [Update, hm, handleNormalKey, hk, keyFilter, keyQuit, keyUp, keyVimUp, keyDown,
    keyVimDown, keyEsc, h]

theorem StateIs_snapshot (lo : Char → Char) (ti : TextInput τ) (rows : List ProcessRow) :
    StateIs lo (Update lo ti (NewModel ti) (Msg.processesMsg rows none)).1 rows ""
      SortCPU false ModeNormal ti.New := by
  refine ⟨?_, ?_, ?_, ?_, ?_, ?_, Update_projected lo ti _ _ rfl⟩
  · exact (clampCursor_allProcs _).trans rfl
  · exact (clampCursor_filterText _).trans rfl
  · exact (clampCursor_sortCol _).trans rfl
  · exact (clampCursor_sortAsc _).trans rfl
  · exact (clampCursor_mode _).trans rfl
  · exact (clampCursor_filterInput _).trans rfl

theorem StateIs_filterKey (lo : Char → Char) (ti : TextInput τ) (m : Model τ) (k : KeyMsg)
    (rows : List ProcessRow) (f : String) (col : SortColumn) (asc : Bool) (inp : τ)
    (h : StateIs lo m rows f col asc ModeNormal inp) (hk : k.name = keyFilter) :
    StateIs lo (Update lo ti m (Msg.KeyMsg k)).1 rows f col asc ModeFilter (ti.Focus inp) := by
  obtain ⟨h1, h2, h3, h4, h5, h6, h7⟩ := h
  have e := Update_key_filter lo ti m k h5 hk
  exact ⟨(congrArg (fun r => r.1.allProcs) e).trans h1,
    (congrArg (fun r => r.1.filterText) e).trans h2,
    (congrArg (fun r => r.1.sortCol) e).trans h3,
    (congrArg (fun r => r.1.sortAsc) e).trans h4,
    (congrArg (fun r => r.1.mode) e).trans rfl,
    (congrArg (fun r => r.1.filterInput) e).trans (congrArg ti.Focus h6),
    Update_projected lo ti _ _ h7⟩

theorem StateIs_type (lo : Char → Char) (ti : TextInput τ) (m : Model τ) (k : KeyMsg)
    (rows : List ProcessRow) (f : String) (col : SortColumn) (asc : Bool) (inp : τ)
    (h : StateIs lo m rows f col asc ModeFilter inp)
    (hk1 : k.name ≠ keyEsc) (hk2 : k.name ≠ keyEnter) :
    StateIs lo (Update lo ti m (Msg.KeyMsg k)).1 rows (ti.Value (ti.Update inp k).1)
      col asc ModeFilter (ti.Update inp k).1 := by
  obtain ⟨h1, h2, h3, h4, h5, h6, h7⟩ := h
  have e := Update_filter_type lo ti m k h5 hk1 hk2
  subst h6
  exact ⟨(by rw [e, clampCursor_allProcs]; exact h1),
    (by rw [e, clampCursor_filterText]; exact rfl),
    (by rw [e, clampCursor_sortCol]; exact h3),
    (by rw [e, clampCursor_sortAsc]; exact h4),
    (by rw [e, clampCursor_mode]; exact h5),
    (by rw [e, clampCursor_filterInput]; exact rfl),
    Update_projected lo ti _ _ h7⟩

theorem StateIs_enter (lo : Char → Char) (ti : TextInput τ) (m : Model τ) (k : KeyMsg)
    (rows : List ProcessRow) (f : String) (col : SortColumn) (asc : Bool) (inp : τ)
    (h : StateIs lo m rows f col asc ModeFilter inp) (hk : k.name = keyEnter) :
    StateIs lo (Update lo ti m (Msg.KeyMsg k)).1 rows (ti.Value inp)
      col asc ModeNormal (ti.Blur inp) := by
  obtain ⟨h1, h2, h3, h4, h5, h6, h7⟩ := h
  have e := Update_filter_enter lo ti m k h5 hk
  subst h6
  exact ⟨(by rw [e, clampCursor_allProcs]; exact h1),
    (by rw [e, clampCursor_filterText]; exact rfl),
    (by rw [e, clampCursor_sortCol]; exact h3),
    (by rw [e, clampCursor_sortAsc]; exact h4),
    (by rw [e, clampCursor_mode]; exact rfl),
    (by rw [e, clampCursor_filterInput]; exact rfl),
    Update_projected lo ti _ _ h7⟩

theorem toggleSort_frame (lo : Char → Char) (m : Model τ) (c : SortColumn) :
    (toggleSort lo m c).allProcs = m.allProcs ∧
    (toggleSort lo m c).filterText = m.filterText ∧
    (toggleSort lo m c).mode = m.mode ∧
    (toggleSort lo m c).filterInput = m.filterInput ∧
    (toggleSort lo m c).killTarget = m.killTarget ∧
    (toggleSort lo m c).statusMsg = m.statusMsg ∧
    (toggleSort lo m c).err = m.err := by
  unfold toggleSort
  dsimp only
  rw [clampCursor_allProcs, clampCursor_filterText, clampCursor_mode, clampCursor_filterInput,
    clampCursor_killTarget, clampCursor_statusMsg, clampCursor_err]
  unfold applyFilterAndSort
  by_cases h : m.sortCol = c
  · rw [if_pos h]
    exact ⟨rfl, rfl, rfl, rfl, rfl, rfl, rfl⟩
  · rw [if_neg h]
    exact ⟨rfl, rfl, rfl, rfl, rfl, rfl, rfl⟩

theorem StateIs_sortName (lo : Char → Char) (ti : TextInput τ) (m : Model τ) (k : KeyMsg)
    (rows : List ProcessRow) (f : String) (col : SortColumn) (asc : Bool) (inp : τ)
    (h : StateIs lo m rows f col asc ModeNormal inp) (hk : k.name = keySortName) :
    StateIs lo (Update lo ti m (Msg.KeyMsg k)).1 rows f SortName
      (if col = SortName then !asc else defaultAsc SortName) ModeNormal inp := by
  obtain ⟨h1, h2, h3, h4, h5, h6, h7⟩ := h
  have ht := toggleSort_sortCol lo { m with statusMsg := "" } SortName
  have hf := toggleSort_frame lo { m with statusMsg := "" } SortName
  have e := Update_key_sortName lo ti m k h5 hk
  subst h3 h4
  exact ⟨(congrArg (fun r => r.1.allProcs) e).trans (hf.1.trans h1),
    (congrArg (fun r => r.1.filterText) e).trans (hf.2.1.trans h2),
    (congrArg (fun r => r.1.sortCol) e).trans ht.1,
    (congrArg (fun r => r.1.sortAsc) e).trans ht.2,
    (congrArg (fun r => r.1.mode) e).trans (hf.2.2.1.trans h5),
    (congrArg (fun r => r.1.filterInput) e).trans (hf.2.2.2.1.trans h6),
    Update_projected lo ti _ _ h7⟩

theorem StateIs_esc (lo : Char → Char) (ti : TextInput τ) (m : Model τ) (k : KeyMsg)
    (rows : List ProcessRow) (f : String) (col : SortColumn) (asc : Bool) (inp : τ)
    (h : StateIs lo m rows f col asc ModeNormal inp) (hk : k.name = keyEsc) :
    ∃ inp1, StateIs lo (Update lo ti m (Msg.KeyMsg k)).1 rows "" col asc ModeNormal inp1 := by
  obtain ⟨h1, h2, h3, h4, h5, h6, h7⟩ := h
  have e := Update_key_esc lo ti m k h5 hk
  have hp := Update_projected lo ti m (Msg.KeyMsg k) h7
  by_cases hf : m.filterText ≠ ""
  · rw [if_pos hf] at e
    exact ⟨_, (by rw [e, clampCursor_allProcs]; exact h1),
      (by rw [e, clampCursor_filterText]; exact rfl),
      (by rw [e, clampCursor_sortCol]; exact h3),
      (by rw [e, clampCursor_sortAsc]; exact h4),
      (by rw [e, clampCursor_mode]; exact h5),
      rfl, hp⟩
  · rw [if_neg hf] at e
    exact ⟨_, (congrArg (fun r => r.1.allProcs) e).trans h1,
      (congrArg (fun r => r.1.filterText) e).trans (not_not.mp hf),
      (congrArg (fun r => r.1.sortCol) e).trans h3,
      (congrArg (fun r => r.1.sortAsc) e).trans h4,
      (congrArg (fun r => r.1.mode) e).trans h5,
      rfl, hp⟩

theorem StateIs_visible (lo : Char → Char) (m : Model τ)
    (rows : List ProcessRow) (f : String) (col : SortColumn) (asc : Bool) (mode : AppMode)
    (inp : τ) (h : StateIs lo m rows f col asc mode inp) :
    m.visibleProc = SliceStable
      (rows.filter (fun p => decide (ToLower lo f = "") || Contains (ToLower lo p.Name)
        (ToLower lo f)))
      (fun a b => if asc = true then columnLess lo col a b else !columnLess lo col a b) := by
  obtain ⟨h1, h2, h3, h4, _, _, h7⟩ := h
  rw [h7]
  unfold applyFilterAndSort
  dsimp only
  rw [h1, h2]
  congr 1
  funext a b
  unfold compareRows
  rw [h3, h4]

theorem SliceStable_single {α : Type} (less : α → α → Bool) (x : α) :
    SliceStable [x] less = [x] := by
  simp [SliceStable, stable_func, blockLoop, insertionSort_func, mergeLoop]

theorem SliceStable_pair {α : Type} (less : α → α → Bool) (x y : α) :
    SliceStable [x, y] less = if less y x = true then [y, x] else [x, y] := by
  by_cases h : less y x = true <;>
  simp [SliceStable, stable_func, blockLoop, insertionSort_func, mergeLoop, insertionInner,
    lessAt, swapAt, h]

/-- C8 (amended): from `NewModel()` (sort CPU descending), after a snapshot
with the rows pid 1 "a" cpu 10 and pid 2 "b" cpu 90 the visible order is pid 2,
pid 1; after the filter key, typing a and enter it is pid 1; after the
Name-sort key it is still pid 1; after escape in Normal mode it is pid 1,
pid 2, the order by name. The text input is any widget in which typing a
into the focused empty input gives the value "a". -/
theorem scenario_orders (lo : Char → Char) (ti : TextInput τ) (r1 r2 : ProcessRow)
    (kSlash ka kEnter k2 kEsc : KeyMsg)
    (hla : lo 'a' = 'a') (hlb : lo 'b' = 'b')
    (h11 : r1.PID = 1) (h12 : r1.Name = "a") (h13 : r1.CPU = F64.fin 10)
    (h21 : r2.PID = 2) (h22 : r2.Name = "b") (h23 : r2.CPU = F64.fin 90)
    (hk1 : kSlash.name = keyFilter) (hk2 : ka.name = "a") (hk3 : kEnter.name = keyEnter)
    (hk4 : k2.name = keySortName) (hk5 : kEsc.name = keyEsc)
    (hti : ti.Value (ti.Update (ti.Focus ti.New) ka).1 = "a") :
    visiblePIDs (run lo ti (NewModel ti) [Msg.processesMsg [r1, r2] none]) = [2, 1] ∧
    visiblePIDs (run lo ti (NewModel ti) [Msg.processesMsg [r1, r2] none,
      Msg.KeyMsg kSlash, Msg.KeyMsg ka, Msg.KeyMsg kEnter]) = [1] ∧
    visiblePIDs (run lo ti (NewModel ti) [Msg.processesMsg [r1, r2] none,
      Msg.KeyMsg kSlash, Msg.KeyMsg ka, Msg.KeyMsg kEnter, Msg.KeyMsg k2]) = [1] ∧
    visiblePIDs (run lo ti (NewModel ti) [Msg.processesMsg [r1, r2] none,
      Msg.KeyMsg kSlash, Msg.KeyMsg ka, Msg.KeyMsg kEnter, Msg.KeyMsg k2,
      Msg.KeyMsg kEsc]) = [1, 2] := by
  have s1 := StateIs_snapshot lo ti [r1, r2]
  have s2 := StateIs_filterKey lo ti _ kSlash _ _ _ _ _ s1 hk1
  have s3 := StateIs_type lo ti _ ka _ _ _ _ _ s2
    (by rw [hk2]; decide) (by rw [hk2]; decide)
  have s4 := StateIs_enter lo ti _ kEnter _ _ _ _ _ s3 hk3
  have s5 := StateIs_sortName lo ti _ k2 _ _ _ _ _ s4 hk4
  obtain ⟨inp, s6⟩ := StateIs_esc lo ti _ kEsc _ _ _ _ _ s5 hk5
  have v1 := StateIs_visible lo _ _ _ _ _ _ _ s1
  have v4 := StateIs_visible lo _ _ _ _ _ _ _ s4
  have v5 := StateIs_visible lo _ _ _ _ _ _ _ s5
  have v6 := StateIs_visible lo _ _ _ _ _ _ _ s6
  have hfa : [r1, r2].filter (fun p => decide (ToLower lo "a" = "") ||
      Contains (ToLower lo p.Name) (ToLower lo "a")) = [r1] := by
    have hne : ¬ (['a'] <:+: ['b']) := by decide
    simp [ToLower, Contains, h12, h22, hla, hlb, hne]
  have hfe : [r1, r2].filter (fun p => decide (ToLower lo "" = "") ||
      Contains (ToLower lo p.Name) (ToLower lo "")) = [r1, r2] := by
    simp [ToLower]
  refine ⟨?_, ?_, ?_, ?_⟩
  · show List.map ProcessRow.PID _ = _
    simp only [run, List.foldl]
    rw [v1, hfe, SliceStable_pair]
    simp [columnLess, F64.lt, F64.isNaN, F64.cls, F64.mag, h13, h23]
    norm_num
    exact ⟨h21, h11⟩
  · show List.map ProcessRow.PID _ = _
    simp only [run, List.foldl]
    rw [v4, hti, hfa, SliceStable_single]
    simp [h11]
  · show List.map ProcessRow.PID _ = _
    simp only [run, List.foldl]
    rw [v5, hti, hfa, SliceStable_single]
    simp [h11]
  · show List.map ProcessRow.PID _ = _
    simp only [run, List.foldl]
    rw [v6, hfe, SliceStable_pair]
    have hlt : ¬ (['b'] < ['a']) := by decide
    simp [columnLess, ToLower, defaultAsc, h12, h22, hla, hlb, h11, h21, hlt]

theorem scenario_orders_witness :
    visiblePIDs (run Char.toLower lineInput (NewModel lineInput)
      [Msg.processesMsg [row 1 "a" 10, row 2 "b" 90] none]) = [2, 1] ∧
    visiblePIDs (run Char.toLower lineInput (NewModel lineInput)
      [Msg.processesMsg [row 1 "a" 10, row 2 "b" 90] none,
       key "/", key "a", key "enter"]) = [1] ∧
    visiblePIDs (run Char.toLower lineInput (NewModel lineInput)
      [Msg.processesMsg [row 1 "a" 10, row 2 "b" 90] none,
       key "/", key "a", key "enter", key "2"]) = [1] ∧
    visiblePIDs (run Char.toLower lineInput (NewModel lineInput)
      [Msg.processesMsg [row 1 "a" 10, row 2 "b" 90] none,
       key "/", key "a", key "enter", key "2", key "esc"]) = [1, 2] :=
  scenario_orders Char.toLower lineInput (row 1 "a" 10) (row 2 "b" 90)
    { name := "/", code := 0 } { name := "a", code := 0 } { name := "enter", code := 0 }
    { name := "2", code := 0 } { name := "esc", code := 0 }
    (by decide) (by decide) rfl rfl rfl rfl rfl rfl rfl rfl rfl rfl rfl (by decide)

end Scenario


/-! ## Evaluations at concrete inputs -/

/-- C2: after a snapshot of three rows, two presses of the down key and a
resize to height 10, the visible list is non-empty, the cursor is 2, the scroll
offset is 0 and the table height is 2, so the cursor lies below the window
`scrollOff .. scrollOff + tableHeight - 1`. -/
theorem resize_leaves_cursor_outside_window :
    (run Char.toLower lineInput (NewModel lineInput)
      [Msg.processesMsg [row 1 "a" 30, row 2 "b" 20, row 3 "c" 10] none,
       key "down", key "down", Msg.WindowSizeMsg 120 10]).visibleProc ≠ [] ∧
    (run Char.toLower lineInput (NewModel lineInput)
      [Msg.processesMsg [row 1 "a" 30, row 2 "b" 20, row 3 "c" 10] none,
       key "down", key "down", Msg.WindowSizeMsg 120 10]).cursor = 2 ∧
    (run Char.toLower lineInput (NewModel lineInput)
      [Msg.processesMsg [row 1 "a" 30, row 2 "b" 20, row 3 "c" 10] none,
       key "down", key "down", Msg.WindowSizeMsg 120 10]).scrollOff = 0 ∧
    tableHeight (run Char.toLower lineInput (NewModel lineInput)
      [Msg.processesMsg [row 1 "a" 30, row 2 "b" 20, row 3 "c" 10] none,
       key "down", key "down", Msg.WindowSizeMsg 120 10]) = 2 ∧
    ¬ ((run Char.toLower lineInput (NewModel lineInput)
      [Msg.processesMsg [row 1 "a" 30, row 2 "b" 20, row 3 "c" 10] none,
       key "down", key "down", Msg.WindowSizeMsg 120 10]).cursor ≤
      (run Char.toLower lineInput (NewModel lineInput)
        [Msg.processesMsg [row 1 "a" 30, row 2 "b" 20, row 3 "c" 10] none,
         key "down", key "down", Msg.WindowSizeMsg 120 10]).scrollOff +
      tableHeight (run Char.toLower lineInput (NewModel lineInput)
        [Msg.processesMsg [row 1 "a" 30, row 2 "b" 20, row 3 "c" 10] none,
         key "down", key "down", Msg.WindowSizeMsg 120 10]) - 1) := by
  decide

/-- C3: with the default sort (CPU, descending) and an empty filter, two rows
with the same CPU value come out of `applyFilterAndSort` in the reverse of
their order in `allProcs`. -/
theorem descending_sort_reverses_ties :
    (applyFilterAndSort Char.toLower
      { NewModel lineInput with allProcs := [row 1 "a" 0, row 2 "b" 0] }).visibleProc =
      [row 2 "b" 0, row 1 "a" 0] := by
  decide

/-- C7: with the default sort (CPU, descending) and an empty filter, projecting
the projection of two rows of equal CPU value gives the rows back in their
first order, which is not the projection itself. -/
theorem projection_twice_differs :
    (applyFilterAndSort Char.toLower
      { NewModel lineInput with allProcs := [row 1 "a" 0, row 2 "b" 0] }).visibleProc =
      [row 2 "b" 0, row 1 "a" 0] ∧
    (applyFilterAndSort Char.toLower
      { NewModel lineInput with allProcs :=
          (applyFilterAndSort Char.toLower
            { NewModel lineInput with
              allProcs := [row 1 "a" 0, row 2 "b" 0] }).visibleProc }).visibleProc =
      [row 1 "a" 0, row 2 "b" 0] := by
  decide

/-- C8: in the scenario of the specification the visible order after clearing
the filter is pid 1, pid 2 (the Name sort selected before is still active), not
pid 2, pid 1. -/
theorem scenario_final_order_is_by_name :
    visiblePIDs (run Char.toLower lineInput (NewModel lineInput)
      [Msg.processesMsg [row 1 "a" 10, row 2 "b" 90] none,
       key "/", key "a", key "enter", key "2", key "esc"]) = [1, 2] ∧
    visiblePIDs (run Char.toLower lineInput (NewModel lineInput)
      [Msg.processesMsg [row 1 "a" 10, row 2 "b" 90] none,
       key "/", key "a", key "enter", key "2", key "esc"]) ≠ [2, 1] := by
  decide

/-! ## sort.SliceStable permutes the slice -/

section SortPerm

variable {α : Type}

theorem swapAt_length (data : List α) (i j : Nat) :
    (swapAt data i j).length = data.length := by
  unfold swapAt
  split <;> simp

theorem swapAt_getElem? (data : List α) (i j k : Nat) (hi : i < data.length)
    (hj : j < data.length) :
    (swapAt data i j)[k]? =
      if k = j then data[i]? else if k = i then data[j]? else data[k]? := by
  unfold swapAt
  rw [List.getElem?_eq_getElem hi, List.getElem?_eq_getElem hj]
  simp only [List.getElem?_set, List.length_set]
  by_cases h1 : k = j
  · subst h1
    simp [hj]
  · by_cases h2 : k = i
    · subst h2
      simp [h1, hi, Ne.symm h1]
    · simp [h1, h2, Ne.symm h1, Ne.symm h2]

theorem count_set_set [DecidableEq α] (data : List α) (i j : Nat) (hi : i < data.length)
    (hj : j < data.length) (a : α) :
    List.count a ((data.set i data[j]).set j data[i]) = List.count a data := by
  rw [List.count_set _ _ _ _ (by simpa using hj), List.count_set _ _ _ _ hi]
  rw [List.getElem_set]
  have hpos : ∀ (k : Nat) (hk : k < data.length), data[k] = a → 0 < List.count a data :=
    fun k hk h => List.count_pos_iff.mpr (h ▸ List.getElem_mem _)
  by_cases hij : i = j
  · subst hij
    by_cases hya : data[i] = a
    · have := hpos i hi hya
      simp [hya]
      omega
    · simp [hya]
  · by_cases hxa : data[i] = a <;> by_cases hya : data[j] = a
    · have := hpos i hi hxa
      simp [hxa, hya, hij]
      omega
    · have := hpos i hi hxa
      simp [hxa, hya, hij]
      omega
    · simp [hxa, hya, hij]
    · simp [hxa, hya, hij]

theorem swapAt_perm [DecidableEq α] (data : List α) (i j : Nat) :
    (swapAt data i j).Perm data := by
  unfold swapAt
  split
  · rename_i x y hx hy
    obtain ⟨hi, hxi⟩ := List.getElem?_eq_some.mp hx
    obtain ⟨hj, hyj⟩ := List.getElem?_eq_some.mp hy
    subst hxi hyj
    rw [List.perm_iff_count]
    exact count_set_set data i j hi hj
  · exact List.Perm.refl _

theorem foldl_perm {β : Type} (f : List α → β → List α) (hf : ∀ d b, (f d b).Perm d)
    (l : List β) (d : List α) : (l.foldl f d).Perm d := by
  induction l generalizing d with
  | nil => exact List.Perm.refl _
  | cons b l ih => exact (ih (f d b)).trans (hf d b)

theorem insertionInner_perm [DecidableEq α] (less : α → α → Bool) (a j : Nat)
    (data : List α) : (insertionInner less a j data).Perm data := by
  induction j generalizing data with
  | zero => exact List.Perm.refl _
  | succ j ih =>
    unfold insertionInner
    split_ifs
    · exact (ih _).trans (swapAt_perm _ _ _)
    · exact List.Perm.refl _

theorem insertionSort_func_perm [DecidableEq α] (less : α → α → Bool) (data : List α)
    (a b : Nat) : (insertionSort_func less data a b).Perm data :=
  foldl_perm _ (fun d i => insertionInner_perm less a i d) _ _

theorem swapRange_func_perm [DecidableEq α] (data : List α) (a b n : Nat) :
    (swapRange_func data a b n).Perm data :=
  foldl_perm _ (fun d _ => swapAt_perm d _ _) _ _

theorem rotateLoop_perm [DecidableEq α] (m fuel i j : Nat) (data : List α) :
    (rotateLoop m fuel i j data).Perm data := by
  induction fuel generalizing i j data with
  | zero => exact List.Perm.refl _
  | succ fuel ih =>
    unfold rotateLoop
    split_ifs
    · exact (ih _ _ _).trans (swapRange_func_perm _ _ _ _)
    · exact (ih _ _ _).trans (swapRange_func_perm _ _ _ _)
    · exact swapRange_func_perm _ _ _ _

theorem rotate_func_perm [DecidableEq α] (data : List α) (a m b : Nat) :
    (rotate_func data a m b).Perm data :=
  rotateLoop_perm _ _ _ _ _

theorem symMerge_func_perm [DecidableEq α] (less : α → α → Bool) (fuel : Nat)
    (data : List α) (a m b : Nat) : (symMerge_func less fuel data a m b).Perm data := by
  induction fuel generalizing data a m b with
  | zero => exact List.Perm.refl _
  | succ fuel ih =>
    unfold symMerge_func
    by_cases h1 : m - a = 1
    · rw [if_pos h1]
      exact foldl_perm _ (fun d _ => swapAt_perm d _ _) _ _
    rw [if_neg h1]
    by_cases h2 : b - m = 1
    · rw [if_pos h2]
      exact foldl_perm _ (fun d _ => swapAt_perm d _ _) _ _
    rw [if_neg h2]
    dsimp only
    have hrot : ∀ (c : Prop) [Decidable c] (s e : Nat),
        (if c then rotate_func data s m e else data).Perm data := by
      intro c _ s e
      split_ifs
      · exact rotate_func_perm _ _ _ _
      · exact List.Perm.refl _
    have hrec : ∀ (c : Prop) [Decidable c] (d : List α) (x y z : Nat),
        (if c then symMerge_func less fuel d x y z else d).Perm d := by
      intro c _ d x y z
      split_ifs
      · exact ih _ _ _ _
      · exact List.Perm.refl _
    exact (hrec _ _ _ _ _).trans ((hrec _ _ _ _ _).trans (hrot _ _ _))

theorem blockLoop_perm [DecidableEq α] (less : α → α → Bool) (blockSize n fuel : Nat)
    (data : List α) (a b : Nat) : (blockLoop less blockSize n fuel data a b).1.Perm data := by
  induction fuel generalizing data a b with
  | zero => exact List.Perm.refl _
  | succ fuel ih =>
    unfold blockLoop
    split_ifs
    · exact (ih _ _ _).trans (insertionSort_func_perm _ _ _ _)
    · exact List.Perm.refl _

theorem mergePass_perm [DecidableEq α] (less : α → α → Bool) (blockSize n fuel : Nat)
    (data : List α) (a b : Nat) : (mergePass less blockSize n fuel data a b).1.Perm data := by
  induction fuel generalizing data a b with
  | zero => exact List.Perm.refl _
  | succ fuel ih =>
    unfold mergePass
    split_ifs
    · exact (ih _ _ _).trans (symMerge_func_perm _ _ _ _ _ _)
    · exact List.Perm.refl _

theorem mergeLoop_perm [DecidableEq α] (less : α → α → Bool) (n fuel : Nat)
    (data : List α) (blockSize : Nat) : (mergeLoop less n fuel data blockSize).Perm data := by
  induction fuel generalizing data blockSize with
  | zero => exact List.Perm.refl _
  | succ fuel ih =>
    unfold mergeLoop
    by_cases h1 : blockSize < n
    · rw [if_pos h1]
      dsimp only
      refine (ih _ _).trans ?_
      by_cases h2 : (mergePass less blockSize n n data 0 (2 * blockSize)).2 + blockSize < n
      · rw [if_pos h2]
        exact (symMerge_func_perm _ _ _ _ _ _).trans (mergePass_perm _ _ _ _ _ _ _)
      · rw [if_neg h2]
        exact mergePass_perm _ _ _ _ _ _ _
    · rw [if_neg h1]

theorem stable_func_perm [DecidableEq α] (less : α → α → Bool) (data : List α) (n : Nat) :
    (stable_func less data n).Perm data :=
  (mergeLoop_perm _ _ _ _ _).trans
    ((insertionSort_func_perm _ _ _ _).trans (blockLoop_perm _ _ _ _ _ _ _))

theorem SliceStable_perm [DecidableEq α] (x : List α) (less : α → α → Bool) :
    (SliceStable x less).Perm x :=
  stable_func_perm less x x.length

end SortPerm

section FilterPerm

variable {τ : Type}

theorem Contains_empty (s t : String) (h : t = "") : Contains s t = true := by
  subst h
  simp [Contains]

theorem ToLower_eq_empty (lo : Char → Char) (s : String) :
    ToLower lo s = "" ↔ s = "" := by
  unfold ToLower
  constructor
  · intro h
    have h1 : (String.mk (List.map lo s.data)).data = ("" : String).data := by rw [h]
    have h2 : s.data = [] := by simpa using h1
    exact String.ext h2
  · intro h
    rw [h]
    rfl

/-- C5: the list `applyFilterAndSort` produces is a permutation of the rows of
`allProcs` whose lower-cased name contains the lower-cased filter text; with an
empty filter text it has the length of `allProcs`. -/
theorem visible_is_perm_of_filtered (lo : Char → Char) (m : Model τ) :
    (applyFilterAndSort lo m).visibleProc.Perm
      (m.allProcs.filter
        (fun p => Contains (ToLower lo p.Name) (ToLower lo m.filterText))) ∧
    (m.filterText = "" →
      (applyFilterAndSort lo m).visibleProc.length = m.allProcs.length) := by
  have hf : (fun p : ProcessRow => decide (ToLower lo m.filterText = "") ||
      Contains (ToLower lo p.Name) (ToLower lo m.filterText)) =
      (fun p => Contains (ToLower lo p.Name) (ToLower lo m.filterText)) := by
    funext p
    by_cases h : ToLower lo m.filterText = ""
    · rw [Contains_empty _ _ h]
      simp [h]
    · simp [h]
  have hp : (applyFilterAndSort lo m).visibleProc.Perm
      (m.allProcs.filter
        (fun p => Contains (ToLower lo p.Name) (ToLower lo m.filterText))) := by
    unfold applyFilterAndSort
    dsimp only
    rw [hf]
    exact SliceStable_perm _ _
  refine ⟨hp, fun he => ?_⟩
  rw [hp.length_eq]
  have hall : ∀ p ∈ m.allProcs,
      Contains (ToLower lo p.Name) (ToLower lo m.filterText) = true :=
    fun p _ => Contains_empty _ _ ((ToLower_eq_empty lo _).mpr he)
  rw [List.filter_eq_self.mpr hall]

theorem visible_is_perm_of_filtered_witness :
    (applyFilterAndSort Char.toLower
      { NewModel lineInput with allProcs := [row 1 "a" 10, row 2 "b" 90] }).visibleProc.length
      = 2 :=
  (visible_is_perm_of_filtered Char.toLower
    { NewModel lineInput with allProcs := [row 1 "a" 10, row 2 "b" 90] }).2 rfl

end FilterPerm

/-! ## Index-level facts about slices -/

section SortBasics

variable {α : Type}

theorem getElem?_some_of_lt (data : List α) (k : Nat) (h : k < data.length) :
    ∃ x, data[k]? = some x :=
  ⟨data[k], List.getElem?_eq_getElem h⟩

theorem lt_of_getElem?_some (data : List α) (k : Nat) (x : α) (h : data[k]? = some x) :
    k < data.length :=
  (List.getElem?_eq_some.mp h).1

theorem lessAt_eq (less : α → α → Bool) (data : List α) (i j : Nat) (x y : α)
    (hx : data[i]? = some x) (hy : data[j]? = some y) :
    lessAt less data i j = less x y := by
  unfold lessAt
  rw [hx, hy]

theorem Within.refl (a b : Nat) (data : List α) : Within a b data data :=
  ⟨rfl, fun _ _ => rfl, fun k h1 h2 => ⟨k, h1, h2, rfl⟩⟩

theorem Within.trans {a b : Nat} {d0 d1 d2 : List α} (h1 : Within a b d0 d1)
    (h2 : Within a b d1 d2) : Within a b d0 d2 := by
  refine ⟨h2.1.trans h1.1, fun k hk => (h2.2.1 k hk).trans (h1.2.1 k hk), fun k ha hb => ?_⟩
  obtain ⟨k1, ha1, hb1, e1⟩ := h2.2.2 k ha hb
  obtain ⟨k2, ha2, hb2, e2⟩ := h1.2.2 k1 ha1 hb1
  exact ⟨k2, ha2, hb2, e1.trans e2⟩

theorem Within.mono {a b a1 b1 : Nat} {d0 d1 : List α} (h : Within a b d0 d1)
    (ha : a1 ≤ a) (hb : b ≤ b1) : Within a1 b1 d0 d1 := by
  refine ⟨h.1, fun k hk => h.2.1 k (by omega), fun k hka hkb => ?_⟩
  by_cases hin : a ≤ k ∧ k < b
  · obtain ⟨k1, h1, h2, e⟩ := h.2.2 k hin.1 hin.2
    exact ⟨k1, by omega, by omega, e⟩
  · exact ⟨k, hka, hkb, h.2.1 k (by omega)⟩

theorem Within.allIn {a b : Nat} {d0 d1 : List α} (S : α → Prop) (h : Within a b d0 d1)
    (hS : AllIn S d0) : AllIn S d1 := by
  unfold AllIn at hS ⊢
  intro k x hx
  by_cases hin : a ≤ k ∧ k < b
  · obtain ⟨k1, _, _, e⟩ := h.2.2 k hin.1 hin.2
    exact hS k1 x (e ▸ hx)
  · exact hS k x ((h.2.1 k (by omega)) ▸ hx)

theorem Within.sortedOn_outside {a b c d : Nat} {d0 d1 : List α} (r : α → α → Prop)
    (h : Within a b d0 d1) (hs : SortedOn r d0 c d) (hout : d ≤ a ∨ b ≤ c) :
    SortedOn r d1 c d := by
  intro i j x y hi hij hj hx hy
  have ei := h.2.1 i (by omega)
  have ej := h.2.1 j (by omega)
  exact hs i j x y hi hij hj (ei ▸ hx) (ej ▸ hy)

theorem within_of_reindex (a b : Nat) (old new : List α) (f : Nat → Nat)
    (hlen : new.length = old.length) (hf : ∀ k, new[k]? = old[f k]?)
    (hin : ∀ k, a ≤ k → k < b → a ≤ f k ∧ f k < b)
    (hout : ∀ k, k < a ∨ b ≤ k → f k = k) : Within a b old new := by
  refine ⟨hlen, fun k hk => ?_, fun k ha hb => ?_⟩
  · rw [hf k, hout k hk]
  · exact ⟨f k, (hin k ha hb).1, (hin k ha hb).2, hf k⟩

theorem swapAt_within (data : List α) (a b i j : Nat) (hai : a ≤ i) (hib : i < b)
    (haj : a ≤ j) (hjb : j < b) (hb : b ≤ data.length) :
    Within a b data (swapAt data i j) := by
  refine within_of_reindex a b data _ (fun k => if k = j then i else if k = i then j else k)
    (swapAt_length _ _ _) (fun k => ?_) (fun k h1 h2 => ?_) (fun k hk => ?_)
  · rw [swapAt_getElem? data i j k (by omega) (by omega)]
    dsimp only
    split_ifs <;> rfl
  · dsimp only
    split_ifs <;> omega
  · dsimp only
    split_ifs <;> omega

theorem foldl_within {β : Type} (a b : Nat) (f : List α → β → List α) (l : List β)
    (P : β → Prop) (hP : ∀ x ∈ l, P x)
    (hf : ∀ d x, P x → b ≤ d.length → Within a b d (f d x)) (data : List α)
    (hb : b ≤ data.length) : Within a b data (l.foldl f data) := by
  induction l generalizing data with
  | nil => exact Within.refl _ _ _
  | cons x l ih =>
    have h1 := hf data x (hP x (List.mem_cons_self _ _)) hb
    have h2 := ih (fun y hy => hP y (List.mem_cons_of_mem _ hy)) (f data x)
      (by rw [h1.1]; exact hb)
    exact h1.trans h2

end SortBasics

/-! ## The binary searches -/

section Search

theorem searchLoop_spec (P : Nat → Bool) (i0 j0 : Nat) (fuel : Nat) :
    ∀ i j, i0 ≤ i → i ≤ j → j ≤ j0 → j - i ≤ fuel →
      (i = i0 ∨ P (i - 1) = true) → (j = j0 ∨ P j = false) →
      i ≤ searchLoop P fuel i j ∧ searchLoop P fuel i j ≤ j ∧
      (searchLoop P fuel i j = i0 ∨ P (searchLoop P fuel i j - 1) = true) ∧
      (searchLoop P fuel i j = j0 ∨ P (searchLoop P fuel i j) = false) := by
  induction fuel with
  | zero =>
    intro i j h0 hij hj hf hl hr
    have e : i = j := by omega
    subst e
    exact ⟨le_refl _, le_refl _, hl, hr⟩
  | succ fuel ih =>
    intro i j h0 hij hj hf hl hr
    unfold searchLoop
    by_cases hlt : i < j
    · rw [if_pos hlt]
      have hh1 : i ≤ (i + j) / 2 := by omega
      have hh2 : (i + j) / 2 < j := by omega
      by_cases hp : P ((i + j) / 2) = true
      · rw [if_pos hp]
        have := ih ((i + j) / 2 + 1) j (by omega) (by omega) hj (by omega)
          (Or.inr (by simpa using hp)) hr
        exact ⟨by omega, this.2.1, this.2.2⟩
      · rw [if_neg hp]
        have := ih i ((i + j) / 2) h0 hh1 (by omega) (by omega) hl
          (Or.inr (by simpa using hp))
        exact ⟨this.1, by omega, this.2.2⟩
    · rw [if_neg hlt]
      have e : i = j := by omega
      subst e
      exact ⟨le_refl _, le_refl _, hl, hr⟩

end Search

/-! ## Insertion sort of a block -/

section Insertion

variable {α : Type} {less : α → α → Bool} {r : α → α → Prop} {S : α → Prop}

theorem sortedOn_join (htr : ∀ x y z, r x y → r y z → r x z) (data : List α)
    (a J e : Nat) (h1 : SortedOn r data a J) (h2 : SortedOn r data J e)
    (hx : ∀ (p q : Nat) (x y : α), a ≤ p → p < J → J < q → q < e →
      data[p]? = some x → data[q]? = some y → r x y)
    (hJ : J = a ∨ ∀ (x y : α), data[J - 1]? = some x → data[J]? = some y → r x y) :
    SortedOn r data a e := by
  intro i j x y hi hij hj hxi hyj
  by_cases c1 : j < J
  · exact h1 i j x y hi hij c1 hxi hyj
  by_cases c2 : J ≤ i
  · exact h2 i j x y c2 hij hj hxi hyj
  by_cases c3 : J < j
  · exact hx i j x y hi (by omega) c3 hj hxi hyj
  have e1 : j = J := by omega
  subst e1
  rcases hJ with hJ | hJ
  · omega
  by_cases c4 : i = j - 1
  · subst c4
    exact hJ x y hxi hyj
  · have hlen := lt_of_getElem?_some data j y hyj
    obtain ⟨z, hz⟩ := getElem?_some_of_lt data (j - 1) (by omega)
    exact htr x z y (h1 i (j - 1) x z hi (by omega) (by omega) hxi hz) (hJ z y hz hyj)

theorem sortedOn_trivial (r : α → α → Prop) (data : List α) (a b : Nat) (h : b ≤ a + 1) :
    SortedOn r data a b := by
  intro i j x y hi hij hj _ _
  omega

theorem insertionInner_spec (hc : Consistent less r S) (a i : Nat) (j : Nat) :
    ∀ data : List α, a ≤ j → j ≤ i → i < data.length → AllIn S data →
      SortedOn r data a j → SortedOn r data j (i + 1) →
      (∀ (p q : Nat) (x y : α), a ≤ p → p < j → j < q → q < i + 1 →
        data[p]? = some x → data[q]? = some y → r x y) →
      Within a (i + 1) data (insertionInner less a j data) ∧
        SortedOn r (insertionInner less a j data) a (i + 1) := by
  induction j with
  | zero =>
    intro data ha _ _ _ _ h2 _
    have e : a = 0 := by omega
    subst e
    exact ⟨Within.refl _ _ _, h2⟩
  | succ j ih =>
    intro data ha hji hlen hS h1 h2 hx
    unfold insertionInner
    obtain ⟨u, hu⟩ := getElem?_some_of_lt data j (by omega)
    obtain ⟨v, hv⟩ := getElem?_some_of_lt data (j + 1) (by omega)
    have hless := lessAt_eq less data (j + 1) j v u hv hu
    by_cases hcond : j + 1 > a ∧ lessAt less data (j + 1) j = true
    · rw [if_pos hcond]
      have hvu : r v u := hc.of_less v u (hS _ _ hv) (hS _ _ hu) (hless ▸ hcond.2)
      have hw := swapAt_within data a (i + 1) (j + 1) j (by omega) (by omega) (by omega)
        (by omega) (by omega)
      have hg : ∀ k, (swapAt data (j + 1) j)[k]? =
          if k = j then data[j + 1]? else if k = j + 1 then data[j]? else data[k]? :=
        fun k => swapAt_getElem? data (j + 1) j k (by omega) (by omega)
      have hrec := ih (swapAt data (j + 1) j) (by omega) (by omega)
        (by rw [hw.1]; exact hlen) (hw.allIn S hS) ?_ ?_ ?_
      · exact ⟨hw.trans hrec.1, hrec.2⟩
      · intro p q x y hp hpq hq hxp hyq
        rw [hg p, if_neg (by omega), if_neg (by omega)] at hxp
        rw [hg q, if_neg (by omega), if_neg (by omega)] at hyq
        exact h1 p q x y hp hpq (by omega) hxp hyq
      · intro p q x y hp hpq hq hxp hyq
        rw [hg p] at hxp
        rw [hg q, if_neg (by omega)] at hyq
        by_cases c1 : p = j
        · rw [if_pos c1] at hxp
          have ex : x = v := Option.some.inj (hxp.symm.trans hv)
          by_cases c2 : q = j + 1
          · rw [if_pos c2] at hyq
            have ey : y = u := Option.some.inj (hyq.symm.trans hu)
            rw [ex, ey]
            exact hvu
          · rw [if_neg c2] at hyq
            exact h2 (j + 1) q x y (le_refl _) (by omega) hq hxp hyq
        · rw [if_neg c1] at hxp
          by_cases c3 : p = j + 1
          · rw [if_pos c3] at hxp
            rw [if_neg (by omega)] at hyq
            exact hx j q x y (by omega) (by omega) (by omega) hq hxp hyq
          · rw [if_neg c3] at hxp
            rw [if_neg (by omega)] at hyq
            exact h2 p q x y (by omega) hpq hq hxp hyq
      · intro p q x y hp hpj hjq hq hxp hyq
        rw [hg p, if_neg (by omega), if_neg (by omega)] at hxp
        rw [hg q, if_neg (by omega)] at hyq
        by_cases c2 : q = j + 1
        · rw [if_pos c2] at hyq
          exact h1 p j x y hp hpj (by omega) hxp hyq
        · rw [if_neg c2] at hyq
          exact hx p q x y hp (by omega) (by omega) hq hxp hyq
    · rw [if_neg hcond]
      refine ⟨Within.refl _ _ _, ?_⟩
      refine sortedOn_join hc.trans data a (j + 1) (i + 1) h1 h2 hx ?_
      by_cases ca : j + 1 = a
      · exact Or.inl ca
      · right
        intro x y hx1 hy1
        have ex : x = u := Option.some.inj (hx1.symm.trans hu)
        have ey : y = v := Option.some.inj (hy1.symm.trans hv)
        rw [ex, ey]
        have hf : less v u = false := by
          have : ¬ (lessAt less data (j + 1) j = true) := fun h => hcond ⟨by omega, h⟩
          rw [hless] at this
          simpa using this
        exact hc.of_not_less v u (hS _ _ hv) (hS _ _ hu) hf

theorem insertion_fold_spec (hc : Consistent less r S) (a : Nat) (cnt : Nat) :
    ∀ (s : Nat) (data : List α), a < s → s + cnt ≤ data.length → AllIn S data →
      SortedOn r data a s →
      Within a (s + cnt) data
          ((List.range' s cnt).foldl (fun d i => insertionInner less a i d) data) ∧
        SortedOn r
          ((List.range' s cnt).foldl (fun d i => insertionInner less a i d) data)
          a (s + cnt) := by
  induction cnt with
  | zero =>
    intro s data _ _ _ h1
    exact ⟨Within.refl _ _ _, h1⟩
  | succ cnt ih =>
    intro s data has hlen hS h1
    rw [List.range'_succ, List.foldl_cons]
    have h0 := insertionInner_spec hc a s s data (by omega) (le_refl _) (by omega) hS h1
      (sortedOn_trivial r data s (s + 1) (le_refl _))
      (fun p q x y _ _ h3 h4 _ _ => by omega)
    have h2 := ih (s + 1) (insertionInner less a s data) (by omega)
      (by rw [h0.1.1]; omega) (h0.1.allIn S hS) h0.2
    have e : s + 1 + cnt = s + (cnt + 1) := by omega
    rw [e] at h2
    exact ⟨(h0.1.mono (le_refl _) (by omega)).trans h2.1, h2.2⟩

theorem insertionSort_func_spec (hc : Consistent less r S) (data : List α) (a b : Nat)
    (hb : b ≤ data.length) (hS : AllIn S data) :
    Within a b data (insertionSort_func less data a b) ∧
      SortedOn r (insertionSort_func less data a b) a b := by
  unfold insertionSort_func
  by_cases h : b ≤ a + 1
  · have e : b - (a + 1) = 0 := by omega
    rw [e]
    exact ⟨Within.refl _ _ _, sortedOn_trivial r _ a b h⟩
  · have h2 := insertion_fold_spec hc a (b - (a + 1)) (a + 1) data (by omega) (by omega) hS
      (sortedOn_trivial r data a (a + 1) (le_refl _))
    have e : a + 1 + (b - (a + 1)) = b := by omega
    rw [e] at h2
    exact h2

end Insertion

/-! ## Block swaps and rotation, by index -/

section Rotation

variable {α : Type}

theorem swapRange_func_spec (data : List α) (a b : Nat) (n : Nat) (hab : a + n ≤ b)
    (hb : b + n ≤ data.length) :
    (swapRange_func data a b n).length = data.length ∧
    ∀ k, (swapRange_func data a b n)[k]? =
      data[if a ≤ k ∧ k < a + n then k + (b - a)
        else if b ≤ k ∧ k < b + n then k - (b - a) else k]? := by
  induction n with
  | zero =>
    refine ⟨rfl, fun k => ?_⟩
    rw [if_neg (by omega), if_neg (by omega)]
    rfl
  | succ n ih =>
    have h := ih (by omega) (by omega)
    have e : swapRange_func data a b (n + 1) =
        swapAt (swapRange_func data a b n) (a + n) (b + n) := by
      unfold swapRange_func
      rw [List.range_succ, List.foldl_append]
      rfl
    rw [e]
    refine ⟨(swapAt_length _ _ _).trans h.1, fun k => ?_⟩
    rw [swapAt_getElem? _ _ _ _ (by rw [h.1]; omega) (by rw [h.1]; omega)]
    rw [h.2 (a + n), h.2 (b + n), h.2 k]
    split_ifs <;> first | rfl | (congr 1; omega)

theorem rotateLoop_spec (m : Nat) (fuel : Nat) :
    ∀ (i j : Nat) (data : List α), 0 < i → 0 < j → i ≤ m → m + j ≤ data.length →
      i + j ≤ fuel →
      (rotateLoop m fuel i j data).length = data.length ∧
      ∀ k, (rotateLoop m fuel i j data)[k]? =
        data[if m - i ≤ k ∧ k < m - i + j then k + i
          else if m - i + j ≤ k ∧ k < m + j then k - j else k]? := by
  induction fuel with
  | zero =>
    intro i j data hi hj _ _ hf
    omega
  | succ fuel ih =>
    intro i j data hi hj him hlen hf
    unfold rotateLoop
    by_cases hne : i ≠ j
    · rw [if_pos hne]
      by_cases hgt : i > j
      · rw [if_pos hgt]
        have h1 := swapRange_func_spec data (m - i) m j (by omega) (by omega)
        have h2 := ih (i - j) j (swapRange_func data (m - i) m j) (by omega) hj (by omega)
          (by rw [h1.1]; exact hlen) (by omega)
        refine ⟨h2.1.trans h1.1, fun k => ?_⟩
        rw [h2.2 k, h1.2]
        split_ifs <;> first | rfl | (congr 1; omega)
      · rw [if_neg hgt]
        have h1 := swapRange_func_spec data (m - i) (m + j - i) i (by omega) (by omega)
        have h2 := ih i (j - i) (swapRange_func data (m - i) (m + j - i) i) hi (by omega) him
          (by rw [h1.1]; omega) (by omega)
        refine ⟨h2.1.trans h1.1, fun k => ?_⟩
        rw [h2.2 k, h1.2]
        split_ifs <;> first | rfl | (congr 1; omega)
    · rw [if_neg hne]
      have e : i = j := by omega
      subst e
      have h1 := swapRange_func_spec data (m - i) m i (by omega) (by omega)
      refine ⟨h1.1, fun k => ?_⟩
      rw [h1.2 k]
      split_ifs <;> first | rfl | (congr 1; omega)

theorem rotate_func_spec (data : List α) (a m b : Nat) (ham : a < m) (hmb : m < b)
    (hb : b ≤ data.length) :
    (rotate_func data a m b).length = data.length ∧
    ∀ k, (rotate_func data a m b)[k]? =
      data[if a ≤ k ∧ k < a + (b - m) then k + (m - a)
        else if a + (b - m) ≤ k ∧ k < b then k - (b - m) else k]? := by
  unfold rotate_func
  have h := rotateLoop_spec m (m - a + (b - m) + 1) (m - a) (b - m) data (by omega) (by omega)
    (by omega) (by omega) (by omega)
  refine ⟨h.1, fun k => ?_⟩
  rw [h.2 k]
  split_ifs <;> first | rfl | (congr 1; omega)

theorem shiftUp_spec (data : List α) (a : Nat) (cnt : Nat) (hlen : a + cnt < data.length) :
    ((List.range' a cnt).foldl (fun d k => swapAt d k (k + 1)) data).length = data.length ∧
    ∀ k, ((List.range' a cnt).foldl (fun d k => swapAt d k (k + 1)) data)[k]? =
      data[if a ≤ k ∧ k < a + cnt then k + 1 else if k = a + cnt then a else k]? := by
  induction cnt with
  | zero =>
    refine ⟨rfl, fun k => ?_⟩
    rw [if_neg (by omega)]
    split_ifs with h
    · rw [h]; rfl
    · rfl
  | succ cnt ih =>
    have h := ih (by omega)
    rw [List.range'_concat, List.foldl_append]
    simp only [List.foldl_cons, List.foldl_nil, Nat.one_mul]
    refine ⟨(swapAt_length _ _ _).trans h.1, fun k => ?_⟩
    rw [swapAt_getElem? _ _ _ _ (by rw [h.1]; omega) (by rw [h.1]; omega)]
    rw [h.2 (a + cnt), h.2 (a + cnt + 1), h.2 k]
    split_ifs <;> first | rfl | (congr 1; omega)

theorem shiftDown_spec (i : Nat) (cnt : Nat) :
    ∀ data : List α, i + cnt < data.length →
    ((List.range' (i + 1) cnt).reverse.foldl (fun d k => swapAt d k (k - 1)) data).length =
      data.length ∧
    ∀ k, ((List.range' (i + 1) cnt).reverse.foldl (fun d k => swapAt d k (k - 1)) data)[k]? =
      data[if k = i then i + cnt else if i < k ∧ k ≤ i + cnt then k - 1 else k]? := by
  induction cnt with
  | zero =>
    intro data _
    refine ⟨rfl, fun k => ?_⟩
    simp only [List.range'_zero, List.reverse_nil, List.foldl_nil]
    split_ifs <;> first | rfl | (congr 1 <;> omega)
  | succ cnt ih =>
    intro data hlen
    rw [List.range'_concat, List.reverse_append]
    simp only [List.reverse_cons, List.reverse_nil, List.nil_append, List.singleton_append,
      List.foldl_cons, Nat.one_mul]
    have e : i + 1 + cnt - 1 = i + cnt := by omega
    rw [e]
    have h := ih (swapAt data (i + 1 + cnt) (i + cnt)) (by rw [swapAt_length]; omega)
    refine ⟨h.1.trans (swapAt_length _ _ _), fun k => ?_⟩
    rw [h.2 k, swapAt_getElem? _ _ _ _ (by omega) (by omega)]
    split_ifs <;> first | rfl | (congr 1; omega)

end Rotation

/-! ## The symmetric merge -/

section SymMerge

variable {α : Type} {less : α → α → Bool} {r : α → α → Prop} {S : α → Prop}

theorem sortedOn_reindex (r : α → α → Prop) (old new : List α) (g : Nat → Nat)
    (c d c1 d1 : Nat) (hg : ∀ k, new[k]? = old[g k]?)
    (hmono : ∀ i j, c ≤ i → i < j → j < d → c1 ≤ g i ∧ g i < g j ∧ g j < d1)
    (hs : SortedOn r old c1 d1) : SortedOn r new c d := by
  intro i j x y hi hij hj hx hy
  have h := hmono i j hi hij hj
  rw [hg i] at hx
  rw [hg j] at hy
  exact hs (g i) (g j) x y h.1 h.2.1 h.2.2 hx hy

theorem cross_of_pivot (htr : ∀ x y z, r x y → r y z → r x z) (data : List α)
    (c1 d1 c2 d2 i0 j0 : Nat) (h1 : SortedOn r data c1 d1) (h2 : SortedOn r data c2 d2)
    (u v : α) (hu : data[i0]? = some u) (hv : data[j0]? = some v) (huv : r u v)
    (hi0 : i0 < d1) (hj0 : c2 ≤ j0) :
    ∀ (p q : Nat) (x y : α), c1 ≤ p → p ≤ i0 → j0 ≤ q → q < d2 →
      data[p]? = some x → data[q]? = some y → r x y := by
  intro p q x y hp hpi hjq hq hx hy
  have hxu : r x v := by
    by_cases e : p = i0
    · subst e
      have : x = u := Option.some.inj (hx.symm.trans hu)
      rw [this]
      exact huv
    · exact htr x u v (h1 p i0 x u hp (by omega) hi0 hx hu) huv
  by_cases e : q = j0
  · subst e
    have : y = v := Option.some.inj (hy.symm.trans hv)
    rw [this]
    exact hxu
  · exact htr x v y hxu (h2 j0 q v y hj0 (by omega) hq hv hy)

theorem sortedOn_of_cross (r : α → α → Prop) (data : List α) (a m b : Nat)
    (h1 : SortedOn r data a m) (h2 : SortedOn r data m b) (hx : CrossOn r data a m b) :
    SortedOn r data a b := by
  intro i j x y hi hij hj hxi hyj
  by_cases c1 : j < m
  · exact h1 i j x y hi hij c1 hxi hyj
  by_cases c2 : m ≤ i
  · exact h2 i j x y c2 hij hj hxi hyj
  exact hx i j x y hi (by omega) (by omega) hj hxi hyj

theorem CrossOn.within_left {a m b : Nat} {d0 d1 : List α} (r : α → α → Prop)
    (hx : CrossOn r d0 a m b) (hw : Within a m d0 d1) : CrossOn r d1 a m b := by
  intro p q x y hp hpm hmq hq hxp hyq
  obtain ⟨p1, h1, h2, e⟩ := hw.2.2 p hp hpm
  rw [e] at hxp
  rw [hw.2.1 q (by omega)] at hyq
  exact hx p1 q x y h1 h2 hmq hq hxp hyq

theorem CrossOn.within_right {a m b : Nat} {d0 d1 : List α} (r : α → α → Prop)
    (hx : CrossOn r d0 a m b) (hw : Within m b d0 d1) : CrossOn r d1 a m b := by
  intro p q x y hp hpm hmq hq hxp hyq
  obtain ⟨q1, h1, h2, e⟩ := hw.2.2 q hmq hq
  rw [e] at hyq
  rw [hw.2.1 p (by omega)] at hxp
  exact hx p q1 x y hp hpm h1 h2 hxp hyq

theorem symMerge_insert_first (hc : Consistent less r S) (data : List α) (a m b : Nat)
    (ham : m = a + 1) (hmb : m < b) (hb : b ≤ data.length) (hS : AllIn S data)
    (h2 : SortedOn r data m b) :
    Within a b data
      ((List.range' a (searchLoop (fun h => lessAt less data h a) (b - m) m b - 1 - a)).foldl
        (fun d k => swapAt d k (k + 1)) data) ∧
    SortedOn r
      ((List.range' a (searchLoop (fun h => lessAt less data h a) (b - m) m b - 1 - a)).foldl
        (fun d k => swapAt d k (k + 1)) data) a b := by
  have hsp := searchLoop_spec (fun h => lessAt less data h a) m b (b - m) m b (le_refl _)
    (by omega) (le_refl _) (le_refl _) (Or.inl rfl) (Or.inl rfl)
  generalize searchLoop (fun h => lessAt less data h a) (b - m) m b = s at hsp ⊢
  obtain ⟨hs1, hs2, hA, hB⟩ := hsp
  obtain ⟨va, hva⟩ := getElem?_some_of_lt data a (by omega)
  have hsh := shiftUp_spec data a (s - 1 - a) (by omega)
  generalize (List.range' a (s - 1 - a)).foldl (fun d k => swapAt d k (k + 1)) data = new
    at hsh ⊢
  have h1 : SortedOn r data a m := sortedOn_trivial r data a m (by omega)
  -- elements of [m, s) are below data[a]
  have F1 : ∀ (k : Nat) (z : α), m ≤ k → k < s → data[k]? = some z → r z va := by
    intro k z hk1 hk2 hz
    rcases hA with hA | hA
    · omega
    · obtain ⟨w, hw⟩ := getElem?_some_of_lt data (s - 1) (by omega)
      have hlt : less w va = true := by
        rw [← lessAt_eq less data (s - 1) a w va hw hva]
        exact hA
      exact cross_of_pivot hc.trans data m b a m (s - 1) a h2 h1 w va hw hva
        (hc.of_less w va (hS _ _ hw) (hS _ _ hva) hlt) (by omega) (le_refl _)
        k a z va hk1 (by omega) (le_refl _) (by omega) hz hva
  -- data[a] is below the elements of [s, b)
  have F2 : ∀ (k : Nat) (z : α), s ≤ k → k < b → data[k]? = some z → r va z := by
    intro k z hk1 hk2 hz
    rcases hB with hB | hB
    · omega
    · obtain ⟨w, hw⟩ := getElem?_some_of_lt data s (by omega)
      have hlt : less w va = false := by
        rw [← lessAt_eq less data s a w va hw hva]
        exact hB
      exact cross_of_pivot hc.trans data a m m b a s h1 h2 va w hva hw
        (hc.of_not_less w va (hS _ _ hw) (hS _ _ hva) hlt) (by omega) (by omega)
        a k va z (le_refl _) (le_refl _) hk1 hk2 hva hz
  constructor
  · refine within_of_reindex a b data new _ hsh.1 hsh.2 (fun k h3 h4 => ?_) (fun k hk => ?_)
    · dsimp only
      split_ifs <;> omega
    · dsimp only
      split_ifs <;> omega
  · intro p q x y hp hpq hq hx hy
    rw [hsh.2 p] at hx
    rw [hsh.2 q] at hy
    by_cases cq : q < s - 1
    · rw [if_pos (by omega)] at hx hy
      exact h2 (p + 1) (q + 1) x y (by omega) (by omega) (by omega) hx hy
    by_cases cq2 : q = s - 1
    · rw [if_pos (by omega)] at hx
      rw [if_neg (by omega), if_pos (by omega)] at hy
      have : y = va := Option.some.inj (hy.symm.trans hva)
      rw [this]
      exact F1 (p + 1) x (by omega) (by omega) hx
    rw [if_neg (by omega), if_neg (by omega)] at hy
    by_cases cp : p < s - 1
    · rw [if_pos (by omega)] at hx
      exact h2 (p + 1) q x y (by omega) (by omega) hq hx hy
    by_cases cp2 : p = s - 1
    · rw [if_neg (by omega), if_pos (by omega)] at hx
      have : x = va := Option.some.inj (hx.symm.trans hva)
      rw [this]
      exact F2 q y (by omega) hq hy
    rw [if_neg (by omega), if_neg (by omega)] at hx
    exact h2 p q x y (by omega) hpq hq hx hy

theorem symMerge_insert_last (hc : Consistent less r S) (data : List α) (a m b : Nat)
    (ham : a < m) (hmb : b = m + 1) (hb : b ≤ data.length) (hS : AllIn S data)
    (h1 : SortedOn r data a m) :
    Within a b data
      ((List.range' (searchLoop (fun h => !lessAt less data m h) (m - a) a m + 1)
          (m - searchLoop (fun h => !lessAt less data m h) (m - a) a m)).reverse.foldl
        (fun d k => swapAt d k (k - 1)) data) ∧
    SortedOn r
      ((List.range' (searchLoop (fun h => !lessAt less data m h) (m - a) a m + 1)
          (m - searchLoop (fun h => !lessAt less data m h) (m - a) a m)).reverse.foldl
        (fun d k => swapAt d k (k - 1)) data) a b := by
  have hsp := searchLoop_spec (fun h => !lessAt less data m h) a m (m - a) a m (le_refl _)
    (by omega) (le_refl _) (le_refl _) (Or.inl rfl) (Or.inl rfl)
  generalize searchLoop (fun h => !lessAt less data m h) (m - a) a m = s at hsp ⊢
  obtain ⟨hs1, hs2, hA, hB⟩ := hsp
  obtain ⟨vm, hvm⟩ := getElem?_some_of_lt data m (by omega)
  have hsh := shiftDown_spec s (m - s) data (by omega)
  generalize (List.range' (s + 1) (m - s)).reverse.foldl (fun d k => swapAt d k (k - 1)) data
    = new at hsh ⊢
  have h2 : SortedOn r data m b := sortedOn_trivial r data m b (by omega)
  -- elements of [a, s) are below data[m]
  have G1 : ∀ (k : Nat) (z : α), a ≤ k → k < s → data[k]? = some z → r z vm := by
    intro k z hk1 hk2 hz
    rcases hA with hA | hA
    · omega
    · obtain ⟨w, hw⟩ := getElem?_some_of_lt data (s - 1) (by omega)
      have hlt : less vm w = false := by
        rw [← lessAt_eq less data m (s - 1) vm w hvm hw]
        simpa using hA
      exact cross_of_pivot hc.trans data a m m b (s - 1) m h1 h2 w vm hw hvm
        (hc.of_not_less vm w (hS _ _ hvm) (hS _ _ hw) hlt) (by omega) (le_refl _)
        k m z vm hk1 (by omega) (le_refl _) (by omega) hz hvm
  -- data[m] is below the elements of [s, m)
  have G2 : ∀ (k : Nat) (z : α), s ≤ k → k < m → data[k]? = some z → r vm z := by
    intro k z hk1 hk2 hz
    rcases hB with hB | hB
    · omega
    · obtain ⟨w, hw⟩ := getElem?_some_of_lt data s (by omega)
      have hlt : less vm w = true := by
        rw [← lessAt_eq less data m s vm w hvm hw]
        simpa using hB
      exact cross_of_pivot hc.trans data m b a m m s h2 h1 vm w hvm hw
        (hc.of_less vm w (hS _ _ hvm) (hS _ _ hw) hlt) (by omega) (by omega)
        m k vm z (le_refl _) (le_refl _) hk1 hk2 hvm hz
  constructor
  · refine within_of_reindex a b data new _ hsh.1 hsh.2 (fun k h3 h4 => ?_) (fun k hk => ?_)
    · dsimp only
      split_ifs <;> omega
    · dsimp only
      split_ifs <;> omega
  · intro p q x y hp hpq hq hx hy
    rw [hsh.2 p] at hx
    rw [hsh.2 q] at hy
    by_cases cq : q < s
    · rw [if_neg (by omega), if_neg (by omega)] at hx hy
      exact h1 p q x y hp hpq (by omega) hx hy
    by_cases cq2 : q = s
    · rw [if_neg (by omega), if_neg (by omega)] at hx
      rw [if_pos cq2] at hy
      have e : s + (m - s) = m := by omega
      rw [e] at hy
      have : y = vm := Option.some.inj (hy.symm.trans hvm)
      rw [this]
      exact G1 p x hp (by omega) hx
    rw [if_neg cq2, if_pos (by omega)] at hy
    by_cases cp : p < s
    · rw [if_neg (by omega), if_neg (by omega)] at hx
      exact h1 p (q - 1) x y hp (by omega) (by omega) hx hy
    by_cases cp2 : p = s
    · rw [if_pos cp2] at hx
      have e : s + (m - s) = m := by omega
      rw [e] at hx
      have : x = vm := Option.some.inj (hx.symm.trans hvm)
      rw [this]
      exact G2 (q - 1) y (by omega) (by omega) hy
    rw [if_neg cp2, if_pos (by omega)] at hx
    exact h1 (p - 1) (q - 1) x y (by omega) (by omega) (by omega) hx hy

theorem symMerge_rotate_spec (htr : ∀ x y z, r x y → r y z → r x z) (data : List α)
    (a m b mid s : Nat) (hb : b ≤ data.length)
    (hmid1 : a < mid) (hmid2 : mid < b) (hsa : a ≤ s) (hsm : s ≤ m) (hsmid : s ≤ mid)
    (hmb : m < b) (hse : mid + m - s ≤ b)
    (h1 : SortedOn r data a m) (h2 : SortedOn r data m b)
    (hA : s = a ∨ mid + m - s = b ∨
      ∀ (u v : α), data[s - 1]? = some u → data[mid + m - s]? = some v → r u v)
    (hB : s = mid ∨ s = m ∨
      ∀ (u v : α), data[mid + m - s - 1]? = some u → data[s]? = some v → r u v) :
    Within a b data
        (if s < m ∧ m < mid + m - s then rotate_func data s m (mid + m - s) else data) ∧
      SortedOn r
        (if s < m ∧ m < mid + m - s then rotate_func data s m (mid + m - s) else data)
        a s ∧
      SortedOn r
        (if s < m ∧ m < mid + m - s then rotate_func data s m (mid + m - s) else data)
        s mid ∧
      SortedOn r
        (if s < m ∧ m < mid + m - s then rotate_func data s m (mid + m - s) else data)
        mid (mid + m - s) ∧
      SortedOn r
        (if s < m ∧ m < mid + m - s then rotate_func data s m (mid + m - s) else data)
        (mid + m - s) b ∧
      CrossOn r
        (if s < m ∧ m < mid + m - s then rotate_func data s m (mid + m - s) else data)
        a mid b := by
  have hg : (if s < m ∧ m < mid + m - s then rotate_func data s m (mid + m - s)
        else data).length = data.length ∧
      ∀ k, (if s < m ∧ m < mid + m - s then rotate_func data s m (mid + m - s)
        else data)[k]? =
        data[if s ≤ k ∧ k < s + (mid + m - s - m) then k + (m - s)
          else if s + (mid + m - s - m) ≤ k ∧ k < mid + m - s then k - (mid + m - s - m)
          else k]? := by
    by_cases hrot : s < m ∧ m < mid + m - s
    · rw [if_pos hrot]
      exact rotate_func_spec data s m (mid + m - s) hrot.1 hrot.2 (le_trans hse hb)
    · rw [if_neg hrot]
      refine ⟨rfl, fun k => ?_⟩
      split_ifs <;> first | rfl | (congr 1; omega)
  generalize (if s < m ∧ m < mid + m - s then rotate_func data s m (mid + m - s)
    else data) = data1 at hg ⊢
  obtain ⟨hlen, hg⟩ := hg
  refine ⟨?_, ?_, ?_, ?_, ?_, ?_⟩
  · refine within_of_reindex a b data data1 _ hlen hg (fun k h3 h4 => ?_) (fun k hk => ?_)
    · dsimp only
      split_ifs <;> omega
    · dsimp only
      split_ifs <;> omega
  · refine sortedOn_reindex r data data1 _ a s a m hg (fun i j h3 h4 h5 => ?_) h1
    dsimp only
    split_ifs <;> omega
  · refine sortedOn_reindex r data data1 _ s mid m b hg (fun i j h3 h4 h5 => ?_) h2
    dsimp only
    split_ifs <;> omega
  · refine sortedOn_reindex r data data1 _ mid (mid + m - s) a m hg
      (fun i j h3 h4 h5 => ?_) h1
    dsimp only
    split_ifs <;> omega
  · refine sortedOn_reindex r data data1 _ (mid + m - s) b m b hg
      (fun i j h3 h4 h5 => ?_) h2
    dsimp only
    split_ifs <;> omega
  · intro p q x y hp hpm hmq hq hx hy
    rw [hg p] at hx
    rw [hg q] at hy
    by_cases cp : p < s
    · rw [if_neg (by omega), if_neg (by omega)] at hx
      by_cases cq : q < mid + m - s
      · rw [if_neg (by omega), if_pos (by omega)] at hy
        exact h1 p (q - (mid + m - s - m)) x y hp (by omega) (by omega) hx hy
      · rw [if_neg (by omega), if_neg (by omega)] at hy
        rcases hA with hA | hA | hA
        · omega
        · omega
        · obtain ⟨u, hu⟩ := getElem?_some_of_lt data (s - 1) (by omega)
          obtain ⟨v, hv⟩ := getElem?_some_of_lt data (mid + m - s) (by omega)
          exact cross_of_pivot htr data a m m b (s - 1) (mid + m - s) h1 h2 u v hu hv
            (hA u v hu hv) (by omega) (by omega) p q x y hp (by omega) (by omega) hq hx hy
    · rw [if_pos (by omega)] at hx
      by_cases cq : q < mid + m - s
      · rw [if_neg (by omega), if_pos (by omega)] at hy
        rcases hB with hB | hB | hB
        · omega
        · omega
        · obtain ⟨u, hu⟩ := getElem?_some_of_lt data (mid + m - s - 1) (by omega)
          obtain ⟨v, hv⟩ := getElem?_some_of_lt data s (by omega)
          exact cross_of_pivot htr data m b a m (mid + m - s - 1) s h2 h1 u v hu hv
            (hB u v hu hv) (by omega) (by omega) (p + (m - s)) (q - (mid + m - s - m)) x y
            (by omega) (by omega) (by omega) (by omega) hx hy
      · rw [if_neg (by omega), if_neg (by omega)] at hy
        exact h2 (p + (m - s)) q x y (by omega) (by omega) hq hx hy

end SymMerge

section SymMergeMain

variable {α : Type} {less : α → α → Bool} {r : α → α → Prop} {S : α → Prop}

theorem symMerge_func_spec (hc : Consistent less r S) (fuel : Nat) :
    ∀ (data : List α) (a m b : Nat), a < m → m < b → b ≤ data.length → b - a ≤ fuel →
      AllIn S data → SortedOn r data a m → SortedOn r data m b →
      Within a b data (symMerge_func less fuel data a m b) ∧
        SortedOn r (symMerge_func less fuel data a m b) a b := by
  induction fuel with
  | zero =>
    intro data a m b ham hmb _ hf _ _ _
    omega
  | succ fuel ih =>
    intro data a m b ham hmb hb hf hS h1 h2
    unfold symMerge_func
    by_cases c1 : m - a = 1
    · rw [if_pos c1]
      exact symMerge_insert_first hc data a m b (by omega) hmb hb hS h2
    rw [if_neg c1]
    by_cases c2 : b - m = 1
    · rw [if_pos c2]
      exact symMerge_insert_last hc data a m b ham (by omega) hb hS h1
    rw [if_neg c2]
    dsimp only
    have hmid1 : a < (a + b) / 2 := by omega
    have hmid2 : (a + b) / 2 < b := by omega
    have hmid3 : 2 * ((a + b) / 2) ≤ a + b := by omega
    have hmid4 : a + b < 2 * ((a + b) / 2) + 2 := by omega
    generalize (a + b) / 2 = mid at hmid1 hmid2 hmid3 hmid4 ⊢
    have hst : a ≤ (if m > mid then mid + m - b else a) ∧
        (if m > mid then mid + m - b else a) ≤ (if m > mid then mid else m) ∧
        (if m > mid then mid else m) ≤ m ∧ (if m > mid then mid else m) ≤ mid ∧
        mid + m - (if m > mid then mid + m - b else a) ≤ b ∧
        ((if m > mid then mid + m - b else a) = a ∨
          mid + m - (if m > mid then mid + m - b else a) = b) ∧
        ((if m > mid then mid else m) = mid ∨ (if m > mid then mid else m) = m) := by
      by_cases hm : m > mid
      · rw [if_pos hm, if_pos hm]
        exact ⟨by omega, by omega, by omega, le_refl _, by omega, Or.inr (by omega),
          Or.inl rfl⟩
      · rw [if_neg hm, if_neg hm]
        exact ⟨le_refl _, by omega, le_refl _, by omega, by omega, Or.inl rfl, Or.inr rfl⟩
    generalize (if m > mid then mid + m - b else a) = start0 at hst ⊢
    generalize (if m > mid then mid else m) = r0 at hst ⊢
    obtain ⟨hs0a, hs0r, hr0m, hr0mid, hs0e, hs0, hr0⟩ := hst
    have hsp := searchLoop_spec (fun c => !lessAt less data (mid + m - 1 - c) c) start0 r0
      (r0 - start0) start0 r0 (le_refl _) hs0r (le_refl _) (le_refl _) (Or.inl rfl)
      (Or.inl rfl)
    generalize searchLoop (fun c => !lessAt less data (mid + m - 1 - c) c) (r0 - start0)
      start0 r0 = s at hsp ⊢
    obtain ⟨hs1, hs2, hA, hB⟩ := hsp
    have hA1 : s = a ∨ mid + m - s = b ∨
        ∀ (u v : α), data[s - 1]? = some u → data[mid + m - s]? = some v → r u v := by
      rcases hA with hA | hA
      · rcases hs0 with h | h
        · exact Or.inl (hA.trans h)
        · exact Or.inr (Or.inl (by rw [hA]; exact h))
      · by_cases hz : s = start0
        · rcases hs0 with h | h
          · exact Or.inl (hz.trans h)
          · exact Or.inr (Or.inl (by rw [hz]; exact h))
        · right; right
          intro u v hu hv
          have e : mid + m - 1 - (s - 1) = mid + m - s := by omega
          dsimp only at hA
          rw [e] at hA
          have hl : less v u = false := by
            rw [← lessAt_eq less data (mid + m - s) (s - 1) v u hv hu]
            simpa using hA
          exact hc.of_not_less v u (hS _ _ hv) (hS _ _ hu) hl
    have hB1 : s = mid ∨ s = m ∨
        ∀ (u v : α), data[mid + m - s - 1]? = some u → data[s]? = some v → r u v := by
      rcases hB with hB | hB
      · rcases hr0 with h | h
        · exact Or.inl (hB.trans h)
        · exact Or.inr (Or.inl (hB.trans h))
      · right; right
        intro u v hu hv
        have e : mid + m - 1 - s = mid + m - s - 1 := by omega
        dsimp only at hB
        rw [e] at hB
        have hl : less u v = true := by
          rw [← lessAt_eq less data (mid + m - s - 1) s u v hu hv]
          simpa using hB
        exact hc.of_less u v (hS _ _ hu) (hS _ _ hv) hl
    have hrot := symMerge_rotate_spec hc.trans data a m b mid s hb hmid1 hmid2 (by omega)
      (by omega) (by omega) hmb (by omega) h1 h2 hA1 hB1
    generalize (if s < m ∧ m < mid + m - s then rotate_func data s m (mid + m - s)
      else data) = data1 at hrot ⊢
    obtain ⟨hw1, p1, p2, p3, p4, p5⟩ := hrot
    have hS1 : AllIn S data1 := hw1.allIn S hS
    have hlen1 : b ≤ data1.length := by rw [hw1.1]; exact hb
    have hstep2 : Within a mid data1
          (if a < s ∧ s < mid then symMerge_func less fuel data1 a s mid else data1) ∧
        SortedOn r
          (if a < s ∧ s < mid then symMerge_func less fuel data1 a s mid else data1)
          a mid := by
      by_cases hcnd : a < s ∧ s < mid
      · rw [if_pos hcnd]
        exact ih data1 a s mid hcnd.1 hcnd.2 (by omega) (by omega) hS1 p1 p2
      · rw [if_neg hcnd]
        refine ⟨Within.refl _ _ _, ?_⟩
        by_cases hsa : s = a
        · rw [hsa] at p2
          exact p2
        · have : s = mid := by omega
          rw [this] at p1
          exact p1
    generalize (if a < s ∧ s < mid then symMerge_func less fuel data1 a s mid else data1)
      = data2 at hstep2 ⊢
    obtain ⟨hw2, q1⟩ := hstep2
    have hS2 : AllIn S data2 := hw2.allIn S hS1
    have hlen2 : b ≤ data2.length := by rw [hw2.1]; exact hlen1
    have q3 : SortedOn r data2 mid (mid + m - s) :=
      hw2.sortedOn_outside r p3 (Or.inr (le_refl _))
    have q4 : SortedOn r data2 (mid + m - s) b :=
      hw2.sortedOn_outside r p4 (Or.inr (by omega))
    have q5 : CrossOn r data2 a mid b := p5.within_left r hw2
    have hstep3 : Within mid b data2
          (if mid < mid + m - s ∧ mid + m - s < b then
            symMerge_func less fuel data2 mid (mid + m - s) b else data2) ∧
        SortedOn r
          (if mid < mid + m - s ∧ mid + m - s < b then
            symMerge_func less fuel data2 mid (mid + m - s) b else data2)
          mid b := by
      by_cases hcnd : mid < mid + m - s ∧ mid + m - s < b
      · rw [if_pos hcnd]
        exact ih data2 mid (mid + m - s) b hcnd.1 hcnd.2 hlen2 (by omega) hS2 q3 q4
      · rw [if_neg hcnd]
        refine ⟨Within.refl _ _ _, ?_⟩
        by_cases hsa : mid + m - s = mid
        · rw [hsa] at q4
          exact q4
        · have : mid + m - s = b := by omega
          rw [this] at q3
          exact q3
    generalize (if mid < mid + m - s ∧ mid + m - s < b then
      symMerge_func less fuel data2 mid (mid + m - s) b else data2) = data3 at hstep3 ⊢
    obtain ⟨hw3, t2⟩ := hstep3
    have t1 : SortedOn r data3 a mid := hw3.sortedOn_outside r q1 (Or.inl (le_refl _))
    have t5 : CrossOn r data3 a mid b := q5.within_right r hw3
    refine ⟨?_, sortedOn_of_cross r data3 a mid b t1 t2 t5⟩
    exact hw1.trans ((hw2.mono (le_refl _) (by omega)).trans (hw3.mono (by omega) (le_refl _)))

end SymMergeMain

/-! ## The block phases of `stable_func` -/

section Stable

variable {α : Type} {less : α → α → Bool} {r : α → α → Prop} {S : α → Prop}

theorem Blocks.head {data : List α} {bs n s : Nat} (h : Blocks r data bs n s) :
    SortedOn r data s (min (s + bs) n) := by
  cases h with
  | done _ h => exact sortedOn_trivial r data s _ (by omega)
  | cons _ h1 _ => exact h1

theorem Blocks.tail {data : List α} {bs n s : Nat} (h : Blocks r data bs n s) :
    Blocks r data bs n (s + bs) := by
  cases h with
  | done _ h => exact Blocks.done _ (by omega)
  | cons _ _ h2 => exact h2

theorem Blocks.within_outside {a b bs n : Nat} {d0 d1 : List α} (hw : Within a b d0 d1)
    (s : Nat) (h : Blocks r d0 bs n s) (hs : b ≤ s) : Blocks r d1 bs n s := by
  induction h with
  | done s h => exact Blocks.done _ h
  | cons s h1 _ ih =>
    exact Blocks.cons _ (hw.sortedOn_outside r h1 (Or.inr hs)) (ih (by omega))

theorem blockLoop_spec (hc : Consistent less r S) (bs n : Nat) (hbs : 0 < bs) (fuel : Nat) :
    ∀ (data : List α) (a b : Nat), b = a + bs → n ≤ data.length → AllIn S data →
      n - a ≤ fuel →
      Within a n data
        (insertionSort_func less (blockLoop less bs n fuel data a b).1
          (blockLoop less bs n fuel data a b).2 n) ∧
      Blocks r
        (insertionSort_func less (blockLoop less bs n fuel data a b).1
          (blockLoop less bs n fuel data a b).2 n) bs n a := by
  induction fuel with
  | zero =>
    intro data a b _ hlen hS hf
    unfold blockLoop
    dsimp only
    have h := insertionSort_func_spec hc data a n hlen hS
    exact ⟨h.1, Blocks.done _ (by omega)⟩
  | succ fuel ih =>
    intro data a b hb hlen hS hf
    subst hb
    unfold blockLoop
    by_cases hcnd : a + bs ≤ n
    · rw [if_pos hcnd]
      have h1 := insertionSort_func_spec (r := r) hc data a (a + bs) (by omega) hS
      have h2 := ih (insertionSort_func less data a (a + bs)) (a + bs) (a + bs + bs) rfl
        (by rw [h1.1.1]; exact hlen) (h1.1.allIn S hS) (by omega)
      refine ⟨(h1.1.mono (le_refl _) hcnd).trans (h2.1.mono (by omega) (le_refl _)), ?_⟩
      refine Blocks.cons _ ?_ h2.2
      rw [Nat.min_eq_left hcnd]
      exact h2.1.sortedOn_outside r h1.2 (Or.inl (le_refl _))
    · rw [if_neg hcnd]
      dsimp only
      have h := insertionSort_func_spec (r := r) hc data a n hlen hS
      refine ⟨h.1, Blocks.cons _ ?_ (Blocks.done _ (by omega))⟩
      rw [Nat.min_eq_right (by omega)]
      exact h.2

theorem mergePass_spec (hc : Consistent less r S) (bs n : Nat) (hbs : 0 < bs) (fuel : Nat) :
    ∀ (data : List α) (a b : Nat), b = a + 2 * bs → n ≤ data.length → AllIn S data →
      n - a ≤ fuel → Blocks r data bs n a →
      Within a n data
        (if (mergePass less bs n fuel data a b).2 + bs < n then
          symMerge_func less (n - (mergePass less bs n fuel data a b).2)
            (mergePass less bs n fuel data a b).1 (mergePass less bs n fuel data a b).2
            ((mergePass less bs n fuel data a b).2 + bs) n
         else (mergePass less bs n fuel data a b).1) ∧
      Blocks r
        (if (mergePass less bs n fuel data a b).2 + bs < n then
          symMerge_func less (n - (mergePass less bs n fuel data a b).2)
            (mergePass less bs n fuel data a b).1 (mergePass less bs n fuel data a b).2
            ((mergePass less bs n fuel data a b).2 + bs) n
         else (mergePass less bs n fuel data a b).1) (2 * bs) n a := by
  have tailCase : ∀ (data : List α) (a : Nat), n ≤ data.length → AllIn S data →
      n < a + 2 * bs → Blocks r data bs n a →
      Within a n data
        (if a + bs < n then symMerge_func less (n - a) data a (a + bs) n else data) ∧
      Blocks r
        (if a + bs < n then symMerge_func less (n - a) data a (a + bs) n else data)
        (2 * bs) n a := by
    intro data a hlen hS hn hB
    by_cases hcnd : a + bs < n
    · rw [if_pos hcnd]
      have s1 : SortedOn r data a (a + bs) := by
        have := hB.head
        rwa [Nat.min_eq_left (by omega)] at this
      have s2 : SortedOn r data (a + bs) n := by
        have := hB.tail.head
        rwa [Nat.min_eq_right (by omega)] at this
      have h := symMerge_func_spec hc (n - a) data a (a + bs) n (by omega) hcnd hlen
        (le_refl _) hS s1 s2
      refine ⟨h.1, Blocks.cons _ ?_ (Blocks.done _ (by omega))⟩
      rw [Nat.min_eq_right (by omega)]
      exact h.2
    · rw [if_neg hcnd]
      refine ⟨Within.refl _ _ _, Blocks.cons _ ?_ (Blocks.done _ (by omega))⟩
      have := hB.head
      rw [Nat.min_eq_right (by omega)] at this ⊢
      exact this
  induction fuel with
  | zero =>
    intro data a b _ hlen hS hf hB
    unfold mergePass
    dsimp only
    exact tailCase data a hlen hS (by omega) hB
  | succ fuel ih =>
    intro data a b hb hlen hS hf hB
    unfold mergePass
    by_cases hcnd : b ≤ n
    · rw [if_pos hcnd]
      have s1 : SortedOn r data a (a + bs) := by
        have := hB.head
        rwa [Nat.min_eq_left (by omega)] at this
      have s2 : SortedOn r data (a + bs) b := by
        have := hB.tail.head
        rw [Nat.min_eq_left (by omega)] at this
        have e : a + bs + bs = b := by omega
        rwa [e] at this
      have h1 := symMerge_func_spec hc (b - a) data a (a + bs) b (by omega) (by omega)
        (by omega) (le_refl _) hS s1 s2
      have hB1 : Blocks r (symMerge_func less (b - a) data a (a + bs) b) bs n b := by
        have hBt := hB.tail.tail
        have e : a + bs + bs = b := by omega
        rw [e] at hBt
        exact Blocks.within_outside h1.1 b hBt (le_refl _)
      have h2 := ih (symMerge_func less (b - a) data a (a + bs) b) b (b + 2 * bs) rfl
        (by rw [h1.1.1]; exact hlen) (h1.1.allIn S hS) (by omega) hB1
      refine ⟨(h1.1.mono (le_refl _) hcnd).trans (h2.1.mono (by omega) (le_refl _)), ?_⟩
      refine Blocks.cons _ ?_ ?_
      · rw [Nat.min_eq_left (by omega)]
        have e : a + 2 * bs = b := by omega
        rw [e]
        exact h2.1.sortedOn_outside r h1.2 (Or.inl (le_refl _))
      · have e : a + 2 * bs = b := by omega
        rw [e]
        exact h2.2
    · rw [if_neg hcnd]
      dsimp only
      exact tailCase data a hlen hS (by omega) hB

theorem mergeLoop_spec (hc : Consistent less r S) (n : Nat) (fuel : Nat) :
    ∀ (data : List α) (bs : Nat), 0 < bs → n ≤ data.length → AllIn S data →
      n - bs ≤ fuel → Blocks r data bs n 0 →
      Within 0 n data (mergeLoop less n fuel data bs) ∧
        SortedOn r (mergeLoop less n fuel data bs) 0 n := by
  have base : ∀ (data : List α) (bs : Nat), n ≤ bs → Blocks r data bs n 0 →
      SortedOn r data 0 n := by
    intro data bs h hB
    have := hB.head
    rwa [Nat.zero_add, Nat.min_eq_right h] at this
  induction fuel with
  | zero =>
    intro data bs hbs hlen hS hf hB
    unfold mergeLoop
    exact ⟨Within.refl _ _ _, base data bs (by omega) hB⟩
  | succ fuel ih =>
    intro data bs hbs hlen hS hf hB
    unfold mergeLoop
    by_cases hcnd : bs < n
    · rw [if_pos hcnd]
      dsimp only
      have h1 := mergePass_spec hc bs n hbs n data 0 (2 * bs) (by omega) hlen hS (by omega) hB
      generalize (if (mergePass less bs n n data 0 (2 * bs)).2 + bs < n then
          symMerge_func less (n - (mergePass less bs n n data 0 (2 * bs)).2)
            (mergePass less bs n n data 0 (2 * bs)).1 (mergePass less bs n n data 0 (2 * bs)).2
            ((mergePass less bs n n data 0 (2 * bs)).2 + bs) n
         else (mergePass less bs n n data 0 (2 * bs)).1) = data1 at h1 ⊢
      have hB1 : Blocks r data1 (bs * 2) n 0 := by
        rw [Nat.mul_comm]
        exact h1.2
      have h2 := ih data1 (bs * 2) (by omega) (by rw [h1.1.1]; exact hlen)
        (h1.1.allIn S hS) (by omega) hB1
      exact ⟨h1.1.trans h2.1, h2.2⟩
    · rw [if_neg hcnd]
      exact ⟨Within.refl _ _ _, base data bs (by omega) hB⟩

theorem stable_func_sorted (hc : Consistent less r S) (data : List α) (n : Nat)
    (hlen : n ≤ data.length) (hS : AllIn S data) :
    (stable_func less data n).length = data.length ∧
      SortedOn r (stable_func less data n) 0 n := by
  unfold stable_func
  dsimp only
  have h1 := blockLoop_spec (r := r) hc 20 n (by omega) n data 0 20 rfl hlen hS (by omega)
  generalize insertionSort_func less (blockLoop less 20 n n data 0 20).1
    (blockLoop less 20 n n data 0 20).2 n = d1 at h1 ⊢
  have h2 := mergeLoop_spec hc n n d1 20 (by omega) (by rw [h1.1.1]; exact hlen)
    (h1.1.allIn S hS) (by omega) h1.2
  exact ⟨h2.1.1.trans h1.1.1, h2.2⟩

theorem SliceStable_pairwise (hc : Consistent less r S) (x : List α)
    (hS : ∀ e ∈ x, S e) : (SliceStable x less).Pairwise r := by
  have hAll : AllIn S x := by
    intro k e he
    obtain ⟨hk, rfl⟩ := List.getElem?_eq_some.mp he
    exact hS _ (List.getElem_mem _)
  have h := stable_func_sorted hc x x.length (le_refl _) hAll
  rw [List.pairwise_iff_getElem]
  intro i j hi hj hij
  have hj1 : j < x.length := by
    have : (SliceStable x less).length = x.length := h.1
    omega
  exact h.2 i j _ _ (Nat.zero_le _) hij hj1
    (List.getElem?_eq_getElem hi) (List.getElem?_eq_getElem hj)

end Stable

/-! ## The visible list is ordered by the selected key -/

section KeyOrder

variable {τ : Type}

theorem F64_le_trans (a b c : F64) (h1 : F64.le a b) (h2 : F64.le b c) : F64.le a c := by
  unfold F64.le at *
  rcases h1 with h1 | ⟨h1, h1m⟩ <;> rcases h2 with h2 | ⟨h2, h2m⟩
  · exact Or.inl (by omega)
  · exact Or.inl (by omega)
  · exact Or.inl (by omega)
  · exact Or.inr ⟨by omega, le_trans h1m h2m⟩

theorem F64_le_of_lt (a b : F64) (h : F64.lt a b = true) : F64.le a b := by
  unfold F64.lt at h
  unfold F64.le
  simp only [Bool.and_eq_true, Bool.or_eq_true, decide_eq_true_eq] at h
  rcases h.2 with h1 | ⟨h1, h2⟩
  · exact Or.inl h1
  · exact Or.inr ⟨h1, le_of_lt h2⟩

theorem F64_le_of_not_lt (a b : F64) (ha : a.isNaN = false) (hb : b.isNaN = false)
    (h : F64.lt a b = false) : F64.le b a := by
  unfold F64.lt at h
  unfold F64.le
  simp only [ha, hb, Bool.not_false, Bool.true_and, Bool.or_eq_false_iff,
    Bool.and_eq_false_iff, decide_eq_false_iff_not] at h
  obtain ⟨h1, h2⟩ := h
  by_cases hc : b.cls < a.cls
  · exact Or.inl hc
  · have e : a.cls = b.cls := by omega
    rcases h2 with h2 | h2
    · exact absurd e h2
    · exact Or.inr ⟨e.symm, not_lt.mp h2⟩

theorem keyLE_trans (lo : Char → Char) (col : SortColumn) (x y z : ProcessRow)
    (h1 : keyLE lo col x y) (h2 : keyLE lo col y z) : keyLE lo col x z := by
  cases col <;> simp only [keyLE] at *
  · exact le_trans h1 h2
  · exact le_trans h1 h2
  · exact F64_le_trans _ _ _ h1 h2
  · exact F64_le_trans _ _ _ h1 h2
  · exact le_trans h1 h2
  · exact le_trans h1 h2

theorem keyLE_of_less (lo : Char → Char) (col : SortColumn) (x y : ProcessRow)
    (h : columnLess lo col x y = true) : keyLE lo col x y := by
  cases col <;> simp only [keyLE, columnLess, decide_eq_true_eq] at *
  · exact le_of_lt h
  · exact le_of_lt h
  · exact F64_le_of_lt _ _ h
  · exact F64_le_of_lt _ _ h
  · exact le_of_lt h
  · exact le_of_lt h

theorem keyLE_of_not_less (lo : Char → Char) (col : SortColumn) (x y : ProcessRow)
    (hx : NotNaN x) (hy : NotNaN y) (h : columnLess lo col x y = false) :
    keyLE lo col y x := by
  cases col <;> simp only [keyLE, columnLess, decide_eq_false_iff_not] at *
  · exact not_lt.mp h
  · exact not_lt.mp h
  · exact F64_le_of_not_lt _ _ hx.1 hy.1 h
  · exact F64_le_of_not_lt _ _ hx.2 hy.2 h
  · exact not_lt.mp h
  · exact not_lt.mp h

theorem consistent_ascending (lo : Char → Char) (col : SortColumn) :
    Consistent (columnLess lo col) (keyLE lo col) NotNaN :=
  { trans := keyLE_trans lo col
    of_less := fun x y _ _ h => keyLE_of_less lo col x y h
    of_not_less := fun x y hx hy h => keyLE_of_not_less lo col x y hx hy h }

theorem consistent_descending (lo : Char → Char) (col : SortColumn) :
    Consistent (fun a b => !columnLess lo col a b) (fun a b => keyLE lo col b a) NotNaN :=
  { trans := fun x y z h1 h2 => keyLE_trans lo col z y x h2 h1
    of_less := fun x y hx hy h =>
      keyLE_of_not_less lo col x y hx hy (by simpa using h)
    of_not_less := fun x y _ _ h => keyLE_of_less lo col x y (by simpa using h) }

/-- C6: when no row has a NaN CPU or memory value, the list `applyFilterAndSort`
produces is ordered by the key of the selected column: every pair of rows, and
so every adjacent pair, is non-decreasing when `sortAsc` is true and
non-increasing when it is false. The key is the numeric value for PID, CPU,
Memory and Threads and the lower-cased string for Name and User. -/
theorem visible_sorted_by_key (lo : Char → Char) (m : Model τ)
    (hnan : ∀ p ∈ m.allProcs, p.CPU.isNaN = false ∧ p.MemMB.isNaN = false) :
    (m.sortAsc = true →
      (applyFilterAndSort lo m).visibleProc.Pairwise (keyLE lo m.sortCol) ∧
      (applyFilterAndSort lo m).visibleProc.Chain' (keyLE lo m.sortCol)) ∧
    (m.sortAsc = false →
      (applyFilterAndSort lo m).visibleProc.Pairwise (fun a b => keyLE lo m.sortCol b a) ∧
      (applyFilterAndSort lo m).visibleProc.Chain' (fun a b => keyLE lo m.sortCol b a)) := by
  have hS : ∀ e ∈ m.allProcs.filter (fun p => decide (ToLower lo m.filterText = "") ||
      Contains (ToLower lo p.Name) (ToLower lo m.filterText)), NotNaN e :=
    fun e he => hnan e (List.mem_filter.mp he).1
  constructor
  · intro hasc
    have hcmp : compareRows lo m = columnLess lo m.sortCol := by
      funext a b
      simp [compareRows, hasc]
    have hp : (applyFilterAndSort lo m).visibleProc.Pairwise (keyLE lo m.sortCol) := by
      unfold applyFilterAndSort
      dsimp only
      rw [hcmp]
      exact SliceStable_pairwise (consistent_ascending lo m.sortCol) _ hS
    exact ⟨hp, hp.chain'⟩
  · intro hdesc
    have hcmp : compareRows lo m = fun a b => !columnLess lo m.sortCol a b := by
      funext a b
      simp [compareRows, hdesc]
    have hp : (applyFilterAndSort lo m).visibleProc.Pairwise
        (fun a b => keyLE lo m.sortCol b a) := by
      unfold applyFilterAndSort
      dsimp only
      rw [hcmp]
      exact SliceStable_pairwise (consistent_descending lo m.sortCol) _ hS
    exact ⟨hp, hp.chain'⟩

theorem visible_sorted_by_key_witness :
    (applyFilterAndSort Char.toLower
      { NewModel lineInput with
        allProcs := [row 1 "a" 10, row 2 "b" 90, row 3 "c" 90] }).visibleProc.Chain'
      (fun a b => keyLE Char.toLower SortCPU b a) :=
  ((visible_sorted_by_key Char.toLower
    { NewModel lineInput with allProcs := [row 1 "a" 10, row 2 "b" 90, row 3 "c" 90] }
    (by decide)).2 rfl).2

end KeyOrder

/-! ## Mode, kill target and status message -/

section ModeFacts

variable {τ : Type}

theorem moveCursor_modeFields (m : Model τ) (d : Int) :
    (moveCursor m d).mode = m.mode ∧ (moveCursor m d).killTarget = m.killTarget ∧
      (moveCursor m d).statusMsg = m.statusMsg := by
  obtain ⟨c, s, h⟩ := moveCursor_frame m d
  rw [h]
  exact ⟨rfl, rfl, rfl⟩

theorem project_modeFields (lo : Char → Char) (m : Model τ) :
    (clampCursor (applyFilterAndSort lo m)).mode = m.mode ∧
      (clampCursor (applyFilterAndSort lo m)).killTarget = m.killTarget ∧
      (clampCursor (applyFilterAndSort lo m)).statusMsg = m.statusMsg := by
  rw [clampCursor_mode, clampCursor_killTarget, clampCursor_statusMsg]
  exact ⟨rfl, rfl, rfl⟩

theorem toggleSort_modeFields (lo : Char → Char) (m : Model τ) (c : SortColumn) :
    (toggleSort lo m c).mode = m.mode ∧ (toggleSort lo m c).killTarget = m.killTarget ∧
      (toggleSort lo m c).statusMsg = m.statusMsg :=
  ⟨(toggleSort_frame lo m c).2.2.1, (toggleSort_frame lo m c).2.2.2.2.1,
    (toggleSort_frame lo m c).2.2.2.2.2.1⟩

theorem handleNormalKey_modeFields (lo : Char → Char) (ti : TextInput τ) (m : Model τ)
    (k : KeyMsg) :
    (handleNormalKey lo ti m k).1.statusMsg = "" ∧
    (((handleNormalKey lo ti m k).1.mode = m.mode ∧
        (handleNormalKey lo ti m k).1.killTarget = m.killTarget) ∨
      ((handleNormalKey lo ti m k).1.mode = ModeFilter ∧
        (handleNormalKey lo ti m k).1.killTarget = m.killTarget) ∨
      ((handleNormalKey lo ti m k).1.mode = ModeHelp ∧
        (handleNormalKey lo ti m k).1.killTarget = m.killTarget) ∨
      ((handleNormalKey lo ti m k).1.mode = ModeConfirmKill ∧
        ∃ t, (handleNormalKey lo ti m k).1.killTarget = some t)) := by
  have same : ∀ r : Model τ, r.mode = m.mode ∧ r.killTarget = m.killTarget ∧
      r.statusMsg = "" →
      r.statusMsg = "" ∧
      ((r.mode = m.mode ∧ r.killTarget = m.killTarget) ∨
        (r.mode = ModeFilter ∧ r.killTarget = m.killTarget) ∨
        (r.mode = ModeHelp ∧ r.killTarget = m.killTarget) ∨
        (r.mode = ModeConfirmKill ∧ ∃ t, r.killTarget = some t)) :=
    fun r h => ⟨h.2.2, Or.inl ⟨h.1, h.2.1⟩⟩
  have hmove : ∀ d, (moveCursor { m with statusMsg := "" } d).mode = m.mode ∧
      (moveCursor { m with statusMsg := "" } d).killTarget = m.killTarget ∧
      (moveCursor { m with statusMsg := "" } d).statusMsg = "" :=
    fun d => moveCursor_modeFields { m with statusMsg := "" } d
  have htog : ∀ c, (toggleSort lo { m with statusMsg := "" } c).mode = m.mode ∧
      (toggleSort lo { m with statusMsg := "" } c).killTarget = m.killTarget ∧
      (toggleSort lo { m with statusMsg := "" } c).statusMsg = "" :=
    fun c => toggleSort_modeFields lo { m with statusMsg := "" } c
  unfold handleNormalKey
  dsimp only
  by_cases h0 : k.name = keyQuit ∨ k.name = "ctrl+c"
  · rw [if_pos h0]
    exact same _ ⟨rfl, rfl, rfl⟩
  rw [if_neg h0]
  by_cases h1 : k.name = keyUp ∨ k.name = keyVimUp
  · rw [if_pos h1]
    exact same _ (hmove _)
  rw [if_neg h1]
  by_cases h2 : k.name = keyDown ∨ k.name = keyVimDown
  · rw [if_pos h2]
    exact same _ (hmove _)
  rw [if_neg h2]
  by_cases h3 : k.name = keyFilter
  · rw [if_pos h3]
    exact ⟨rfl, Or.inr (Or.inl ⟨rfl, rfl⟩)⟩
  rw [if_neg h3]
  by_cases h4 : k.name = keyEsc
  · rw [if_pos h4]
    by_cases he : m.filterText ≠ ""
    · rw [if_pos he]
      exact same _ (project_modeFields lo _)
    · rw [if_neg he]
      exact same _ ⟨rfl, rfl, rfl⟩
  rw [if_neg h4]
  by_cases h5 : k.name = keyTab
  · rw [if_pos h5]
    exact same _ (project_modeFields lo _)
  rw [if_neg h5]
  by_cases h6 : k.name = keySortPID
  · rw [if_pos h6]
    exact same _ (htog _)
  rw [if_neg h6]
  by_cases h7 : k.name = keySortName
  · rw [if_pos h7]
    exact same _ (htog _)
  rw [if_neg h7]
  by_cases h8 : k.name = keySortCPU
  · rw [if_pos h8]
    exact same _ (htog _)
  rw [if_neg h8]
  by_cases h9 : k.name = keySortMem
  · rw [if_pos h9]
    exact same _ (htog _)
  rw [if_neg h9]
  by_cases h10 : k.name = keySortStatus
  · rw [if_pos h10]
    exact same _ (htog _)
  rw [if_neg h10]
  by_cases h11 : k.name = keySortUser
  · rw [if_pos h11]
    exact same _ (htog _)
  rw [if_neg h11]
  by_cases h12 : k.name = keyDel ∨ k.name = keyKill
  · rw [if_pos h12]
    by_cases hl : m.visibleProc.length > 0
    · rw [if_pos hl]
      split
      · exact ⟨rfl, Or.inr (Or.inr (Or.inr ⟨rfl, _, rfl⟩))⟩
      · exact same _ ⟨rfl, rfl, rfl⟩
    · rw [if_neg hl]
      exact same _ ⟨rfl, rfl, rfl⟩
  rw [if_neg h12]
  by_cases h13 : k.name = keyHelp
  · rw [if_pos h13]
    exact ⟨rfl, Or.inr (Or.inr (Or.inl ⟨rfl, rfl⟩))⟩
  rw [if_neg h13]
  exact same _ ⟨rfl, rfl, rfl⟩

theorem handleFilterKey_modeFields (lo : Char → Char) (ti : TextInput τ) (m : Model τ)
    (k : KeyMsg) :
    (handleFilterKey lo ti m k).1.statusMsg = m.statusMsg ∧
    (handleFilterKey lo ti m k).1.killTarget = m.killTarget ∧
    ((handleFilterKey lo ti m k).1.mode = ModeNormal ∨
      (handleFilterKey lo ti m k).1.mode = m.mode) := by
  unfold handleFilterKey
  dsimp only
  by_cases h0 : k.name = keyEsc
  · rw [if_pos h0]
    exact ⟨(project_modeFields lo _).2.2, (project_modeFields lo _).2.1,
      Or.inl (project_modeFields lo _).1⟩
  rw [if_neg h0]
  by_cases h1 : k.name = keyEnter
  · rw [if_pos h1]
    exact ⟨(project_modeFields lo _).2.2, (project_modeFields lo _).2.1,
      Or.inl (project_modeFields lo _).1⟩
  rw [if_neg h1]
  exact ⟨(project_modeFields lo _).2.2, (project_modeFields lo _).2.1,
    Or.inr (project_modeFields lo _).1⟩

theorem Update_modeInv (lo : Char → Char) (ti : TextInput τ) (m : Model τ) (msg : Msg)
    (h : ModeInv m) : ModeInv (Update lo ti m msg).1 := by
  have keep : ∀ r : Model τ, r.mode = m.mode → r.killTarget = m.killTarget →
      r.statusMsg = m.statusMsg → ModeInv r := by
    intro r h1 h2 h3
    unfold ModeInv at h ⊢
    rw [h1, h2, h3]
    exact h
  cases msg with
  | WindowSizeMsg w ht => exact keep _ rfl rfl rfl
  | tickMsg => exact h
  | sysStatsMsg s =>
    unfold Update
    dsimp only
    split <;> exact keep _ rfl rfl rfl
  | processesMsg procs err =>
    unfold Update
    dsimp only
    split
    · exact keep _ rfl rfl rfl
    · exact keep _ (project_modeFields lo _).1 (project_modeFields lo _).2.1
        (project_modeFields lo _).2.2
  | killResultMsg pid err =>
    unfold Update
    dsimp only
    split <;> exact ⟨by simp, fun hne => absurd rfl hne⟩
  | KeyMsg k =>
    unfold Update
    dsimp only
    split
    · rename_i hm
      have hf := handleNormalKey_modeFields lo ti m k
      have hnone : m.killTarget = none := by
        cases hkt : m.killTarget with
        | none => rfl
        | some t =>
          have := h.1.mp (by rw [hkt]; rfl)
          rw [hm] at this
          exact absurd this (by decide)
      unfold ModeInv
      refine ⟨?_, fun _ => hf.1⟩
      rcases hf.2 with ⟨h1, h2⟩ | ⟨h1, h2⟩ | ⟨h1, h2⟩ | ⟨h1, t, h2⟩
      · rw [h1, h2, hm, hnone]
        simp
      · rw [h1, h2, hnone]
        simp
      · rw [h1, h2, hnone]
        simp
      · rw [h1, h2]
        simp
    · rename_i hm
      have hf := handleFilterKey_modeFields lo ti m k
      have hs : m.statusMsg = "" := h.2 (by rw [hm]; decide)
      have hnone : m.killTarget.isSome = true ↔ False := by
        rw [h.1, hm]
        decide
      unfold ModeInv
      rw [hf.1, hf.2.1, hs]
      refine ⟨?_, fun _ => rfl⟩
      rcases hf.2.2 with h1 | h1
      · rw [h1, hnone]
        decide
      · rw [h1, hm, hnone]
        decide
    · rename_i hm
      have hs : m.statusMsg = "" := h.2 (by rw [hm]; decide)
      unfold handleConfirmKey
      by_cases h0 : k.name = keyConfirmY ∨ k.name = keyEnter
      · rw [if_pos h0]
        split
        · exact h
        · rename_i hkt
          exact ⟨by simp [hkt], fun _ => hs⟩
      rw [if_neg h0]
      by_cases h1 : k.name = keyConfirmN ∨ k.name = keyEsc
      · rw [if_pos h1]
        exact ⟨by simp, fun _ => hs⟩
      rw [if_neg h1]
      exact h
    · rename_i hm
      have hs : m.statusMsg = "" := h.2 (by rw [hm]; decide)
      have hnone : m.killTarget.isSome = true ↔ False := by
        rw [h.1, hm]
        decide
      unfold handleHelpKey
      by_cases h0 : k.name = keyHelp ∨ k.name = keyEsc ∨ k.name = keyQuit
      · rw [if_pos h0]
        exact ⟨by rw [hnone]; simp, fun _ => hs⟩
      rw [if_neg h0]
      exact h
  | other => exact h

theorem Reachable.modeInv (lo : Char → Char) (ti : TextInput τ) (m : Model τ)
    (h : Reachable lo ti m) : ModeInv m := by
  induction h with
  | init => exact ⟨by simp [NewModel], fun hne => absurd rfl hne⟩
  | step m msg _ ih => exact Update_modeInv lo ti m msg ih

theorem Reachable.inRange (lo : Char → Char) (ti : TextInput τ) (m : Model τ)
    (h : Reachable lo ti m) : CursorInRange m := by
  induction h with
  | init => exact ⟨fun hne => absurd rfl hne, fun _ => rfl⟩
  | step m msg _ ih => exact Update_inRange lo ti m msg ih

end ModeFacts

/-! ## The kill flow -/

section KillFlow

variable {τ : Type}

theorem index_of_inRange {α : Type} (xs : List α) (i : Int) (h0 : 0 ≤ i)
    (h1 : i < (xs.length : Int)) :
    ∃ t, index xs i = some t ∧ xs[i.toNat]? = some t := by
  have hlt : i.toNat < xs.length := by omega
  refine ⟨xs[i.toNat], ?_, List.getElem?_eq_getElem hlt⟩
  unfold index
  rw [if_pos h0]
  exact List.getElem?_eq_getElem hlt

theorem Update_key_kill (lo : Char → Char) (ti : TextInput τ) (m : Model τ) (k : KeyMsg)
    (hm : m.mode = ModeNormal) (hk : k.name = keyDel ∨ k.name = keyKill) :
    Update lo ti m (Msg.KeyMsg k) =
      if m.visibleProc.length > 0 then
        match index m.visibleProc m.cursor with
        | some target =>
          ({ m with statusMsg := "", killTarget := some target, mode := ModeConfirmKill },
            Cmd.nil)
        | none => ({ m with statusMsg := "" }, Cmd.indexOutOfRange)
      else ({ m with statusMsg := "" }, Cmd.nil) := by
  have hU : Update lo ti m (Msg.KeyMsg k) = handleNormalKey lo ti m k := by
    simp [Update, hm]
  rw [hU]
  unfold handleNormalKey
  dsimp only
  have e0 : ¬ (k.name = keyQuit ∨ k.name = "ctrl+c") := by
    rcases hk with hk | hk <;> rw [hk] <;> decide
  have e1 : ¬ (k.name = keyUp ∨ k.name = keyVimUp) := by
    rcases hk with hk | hk <;> rw [hk] <;> decide
  have e2 : ¬ (k.name = keyDown ∨ k.name = keyVimDown) := by
    rcases hk with hk | hk <;> rw [hk] <;> decide
  have e3 : ¬ (k.name = keyFilter) := by
    rcases hk with hk | hk <;> rw [hk] <;> decide
  have e4 : ¬ (k.name = keyEsc) := by
    rcases hk with hk | hk <;> rw [hk] <;> decide
  have e5 : ¬ (k.name = keyTab) := by
    rcases hk with hk | hk <;> rw [hk] <;> decide
  have e6 : ¬ (k.name = keySortPID) := by
    rcases hk with hk | hk <;> rw [hk] <;> decide
  have e7 : ¬ (k.name = keySortName) := by
    rcases hk with hk | hk <;> rw [hk] <;> decide
  have e8 : ¬ (k.name = keySortCPU) := by
    rcases hk with hk | hk <;> rw [hk] <;> decide
  have e9 : ¬ (k.name = keySortMem) := by
    rcases hk with hk | hk <;> rw [hk] <;> decide
  have e10 : ¬ (k.name = keySortStatus) := by
    rcases hk with hk | hk <;> rw [hk] <;> decide
  have e11 : ¬ (k.name = keySortUser) := by
    rcases hk with hk | hk <;> rw [hk] <;> decide
  rw [if_neg e0, if_neg e1, if_neg e2, if_neg e3, if_neg e4, if_neg e5, if_neg e6, if_neg e7, if_neg e8, if_neg e9, if_neg e10, if_neg e11, if_pos hk]

/-- C11: in a reachable state in Normal mode, the delete/kill key ("delete" or
"K") on a non-empty visible list finds the cursor in range, stores the row
`visibleProc[cursor]` as kill target, switches to ConfirmKill and issues no
command; on an empty visible list it leaves mode (Normal) and kill target
(absent) as they were. -/
theorem kill_key_captures_target (lo : Char → Char) (ti : TextInput τ) (m : Model τ)
    (k : KeyMsg) (hr : Reachable lo ti m) (hm : m.mode = ModeNormal)
    (hk : k.name = keyDel ∨ k.name = keyKill) :
    (m.visibleProc ≠ [] →
      0 ≤ m.cursor ∧ m.cursor < (m.visibleProc.length : Int) ∧
      ∃ t, index m.visibleProc m.cursor = some t ∧
        m.visibleProc[m.cursor.toNat]? = some t ∧
        (Update lo ti m (Msg.KeyMsg k)).1.killTarget = some t ∧
        (Update lo ti m (Msg.KeyMsg k)).1.mode = ModeConfirmKill ∧
        (Update lo ti m (Msg.KeyMsg k)).2 = Cmd.nil) ∧
    (m.visibleProc = [] →
      (Update lo ti m (Msg.KeyMsg k)).1.mode = m.mode ∧
      (Update lo ti m (Msg.KeyMsg k)).1.killTarget = m.killTarget ∧
      (Update lo ti m (Msg.KeyMsg k)).1.mode = ModeNormal ∧
      (Update lo ti m (Msg.KeyMsg k)).1.killTarget = none ∧
      (Update lo ti m (Msg.KeyMsg k)).2 = Cmd.nil) := by
  have hU := Update_key_kill lo ti m k hm hk
  have hinv := Reachable.modeInv lo ti m hr
  have hrange := Reachable.inRange lo ti m hr
  constructor
  · intro hne
    obtain ⟨h0, h1⟩ := hrange.1 hne
    obtain ⟨t, ht, hg⟩ := index_of_inRange m.visibleProc m.cursor h0 h1
    have hlen : m.visibleProc.length > 0 := List.length_pos.mpr hne
    rw [if_pos hlen, ht] at hU
    rw [hU]
    exact ⟨h0, h1, t, ht, hg, rfl, rfl, rfl⟩
  · intro he
    have hlen : ¬ m.visibleProc.length > 0 := by rw [he]; simp
    rw [if_neg hlen] at hU
    rw [hU]
    have hnone : m.killTarget = none := by
      cases hkt : m.killTarget with
      | none => rfl
      | some t =>
        have := hinv.1.mp (by rw [hkt]; rfl)
        rw [hm] at this
        exact absurd this (by decide)
    exact ⟨rfl, rfl, hm, hnone, rfl⟩

theorem kill_key_captures_target_witness :
    (Update Char.toLower lineInput
      (Update Char.toLower lineInput (NewModel lineInput)
        (Msg.processesMsg [row 1 "a" 10, row 2 "b" 90] none)).1 (key "K")).1.killTarget =
      some (row 2 "b" 90) ∧
    (Update Char.toLower lineInput
      (Update Char.toLower lineInput (NewModel lineInput)
        (Msg.processesMsg [row 1 "a" 10, row 2 "b" 90] none)).1 (key "K")).1.mode =
      ModeConfirmKill := by
  obtain ⟨_, _, t, ht, _, h1, h2, _⟩ :=
    (kill_key_captures_target Char.toLower lineInput
      (Update Char.toLower lineInput (NewModel lineInput)
        (Msg.processesMsg [row 1 "a" 10, row 2 "b" 90] none)).1
      { name := "K", code := 0 } (Reachable.step _ _ Reachable.init) rfl
      (Or.inr rfl)).1 (by decide)
  have e : t = row 2 "b" 90 := by
    have h3 : index (Update Char.toLower lineInput (NewModel lineInput)
        (Msg.processesMsg [row 1 "a" 10, row 2 "b" 90] none)).1.visibleProc
        (Update Char.toLower lineInput (NewModel lineInput)
        (Msg.processesMsg [row 1 "a" 10, row 2 "b" 90] none)).1.cursor =
        some (row 2 "b" 90) := by decide
    exact Option.some.inj (ht.symm.trans h3)
  rw [e] at h1
  exact ⟨h1, h2⟩

theorem handleConfirmKey_statusMsg (m : Model τ) (k : KeyMsg) :
    (handleConfirmKey m k).1.statusMsg = m.statusMsg := by
  unfold handleConfirmKey
  by_cases h0 : k.name = keyConfirmY ∨ k.name = keyEnter
  · rw [if_pos h0]
    split <;> rfl
  rw [if_neg h0]
  by_cases h1 : k.name = keyConfirmN ∨ k.name = keyEsc
  · rw [if_pos h1]
  · rw [if_neg h1]

theorem handleHelpKey_statusMsg (m : Model τ) (k : KeyMsg) :
    (handleHelpKey m k).1.statusMsg = m.statusMsg := by
  unfold handleHelpKey
  by_cases h0 : k.name = keyHelp ∨ k.name = keyEsc ∨ k.name = keyQuit
  · rw [if_pos h0]
  · rw [if_neg h0]

/-- C12: in a reachable state in ConfirmKill mode with kill target `t`, a
confirm key ("y" or "enter") returns the termination command for `t.PID` and
leaves the state, so mode and kill target, as it was; a cancel key ("n" or
"esc") returns no command, sets the mode to Normal, clears the kill target and
leaves the status message empty. -/
theorem confirm_key_dispatches_or_cancels (lo : Char → Char) (ti : TextInput τ)
    (m : Model τ) (k : KeyMsg) (t : ProcessRow) (hr : Reachable lo ti m)
    (hm : m.mode = ModeConfirmKill) (ht : m.killTarget = some t) :
    (k.name = keyConfirmY ∨ k.name = keyEnter →
      (Update lo ti m (Msg.KeyMsg k)).2 = Cmd.killProcess t.PID ∧
      (Update lo ti m (Msg.KeyMsg k)).1 = m ∧
      (Update lo ti m (Msg.KeyMsg k)).1.mode = ModeConfirmKill ∧
      (Update lo ti m (Msg.KeyMsg k)).1.killTarget = some t) ∧
    (k.name = keyConfirmN ∨ k.name = keyEsc →
      (Update lo ti m (Msg.KeyMsg k)).2 = Cmd.nil ∧
      (Update lo ti m (Msg.KeyMsg k)).1.mode = ModeNormal ∧
      (Update lo ti m (Msg.KeyMsg k)).1.killTarget = none ∧
      (Update lo ti m (Msg.KeyMsg k)).1.statusMsg = "") := by
  have hs : m.statusMsg = "" := (Reachable.modeInv lo ti m hr).2 (by rw [hm]; decide)
  have hU : Update lo ti m (Msg.KeyMsg k) = handleConfirmKey m k := by
    simp [Update, hm]
  rw [hU]
  constructor
  · intro hk
    unfold handleConfirmKey
    rw [if_pos hk, ht]
    exact ⟨rfl, rfl, hm, ht⟩
  · intro hk
    have hny : ¬ (k.name = keyConfirmY ∨ k.name = keyEnter) := by
      rcases hk with hk | hk <;> rw [hk] <;> decide
    unfold handleConfirmKey
    rw [if_neg hny, if_pos hk]
    exact ⟨rfl, rfl, rfl, hs⟩

theorem confirm_key_dispatches_or_cancels_witness :
    (Update Char.toLower lineInput
      (run Char.toLower lineInput (NewModel lineInput)
        [Msg.processesMsg [row 1 "a" 10, row 2 "b" 90] none, key "K"]) (key "y")).2 =
      Cmd.killProcess 2 :=
  ((confirm_key_dispatches_or_cancels Char.toLower lineInput
    (run Char.toLower lineInput (NewModel lineInput)
      [Msg.processesMsg [row 1 "a" 10, row 2 "b" 90] none, key "K"])
    { name := "y", code := 0 } (row 2 "b" 90)
    (Reachable.step _ _ (Reachable.step _ _ Reachable.init)) (by decide) (by decide)).1
    (Or.inl rfl)).1

theorem Contains_of_parts (a b c : String) : Contains (a ++ b ++ c) b = true := by
  unfold Contains
  simp only [String.data_append, decide_eq_true_eq]
  exact ⟨a.data, c.data, rfl⟩

theorem Contains_of_suffix (a b : String) : Contains (a ++ b) b = true := by
  unfold Contains
  simp only [String.data_append, decide_eq_true_eq]
  exact ⟨a.data, [], by simp⟩

/-- C13: in every state and mode, a termination result for identifier `p`
sets the mode to Normal, clears the kill target, issues no command and sets a
non-empty status message that contains the decimal representation of `p`, and
the error text too when the result carries an error. -/
theorem kill_result_reports (lo : Char → Char) (ti : TextInput τ) (m : Model τ) (p : Int)
    (err : Option String) :
    (Update lo ti m (Msg.killResultMsg p err)).1.mode = ModeNormal ∧
    (Update lo ti m (Msg.killResultMsg p err)).1.killTarget = none ∧
    (Update lo ti m (Msg.killResultMsg p err)).2 = Cmd.nil ∧
    (Update lo ti m (Msg.killResultMsg p err)).1.statusMsg ≠ "" ∧
    Contains (Update lo ti m (Msg.killResultMsg p err)).1.statusMsg (fmtD p) = true ∧
    (∀ e, err = some e →
      Contains (Update lo ti m (Msg.killResultMsg p err)).1.statusMsg e = true) := by
  have hne : ∀ (pre rest : String), pre.data ≠ [] → pre ++ rest ≠ "" := by
    intro pre rest h he
    have h1 : (pre ++ rest).data = ("" : String).data := by rw [he]
    rw [String.data_append] at h1
    have h2 : pre.data = [] := (List.append_eq_nil.mp h1).1
    exact h h2
  cases err with
  | none =>
    refine ⟨rfl, rfl, rfl, ?_, ?_, fun e he => by cases he⟩
    · exact hne "killed PID " (fmtD p) (by decide)
    · exact Contains_of_suffix "killed PID " (fmtD p)
  | some e =>
    refine ⟨rfl, rfl, rfl, ?_, ?_, fun e1 he => ?_⟩
    · show "kill PID " ++ fmtD p ++ " failed: " ++ e ≠ ""
      rw [String.append_assoc, String.append_assoc]
      exact hne "kill PID " _ (by decide)
    · show Contains ("kill PID " ++ fmtD p ++ " failed: " ++ e) (fmtD p) = true
      rw [String.append_assoc ("kill PID " ++ fmtD p)]
      exact Contains_of_parts "kill PID " (fmtD p) (" failed: " ++ e)
    · have : e1 = e := (Option.some.inj he).symm
      rw [this]
      exact Contains_of_suffix ("kill PID " ++ fmtD p ++ " failed: ") e

/-- C14: in a reachable state, after any key press that leaves the mode Normal
the ephemeral status message is empty. -/
theorem status_empty_after_key (lo : Char → Char) (ti : TextInput τ) (m : Model τ)
    (k : KeyMsg) (hr : Reachable lo ti m) :
    (Update lo ti m (Msg.KeyMsg k)).1.mode = ModeNormal →
      (Update lo ti m (Msg.KeyMsg k)).1.statusMsg = "" := by
  intro _
  have hinv := Reachable.modeInv lo ti m hr
  cases hmode : m.mode with
  | ModeNormal =>
    have hU : Update lo ti m (Msg.KeyMsg k) = handleNormalKey lo ti m k := by
      simp [Update, hmode]
    rw [hU]
    exact (handleNormalKey_modeFields lo ti m k).1
  | ModeFilter =>
    have hU : Update lo ti m (Msg.KeyMsg k) = handleFilterKey lo ti m k := by
      simp [Update, hmode]
    rw [hU, (handleFilterKey_modeFields lo ti m k).1]
    exact hinv.2 (by rw [hmode]; decide)
  | ModeConfirmKill =>
    have hU : Update lo ti m (Msg.KeyMsg k) = handleConfirmKey m k := by
      simp [Update, hmode]
    rw [hU, handleConfirmKey_statusMsg]
    exact hinv.2 (by rw [hmode]; decide)
  | ModeHelp =>
    have hU : Update lo ti m (Msg.KeyMsg k) = handleHelpKey m k := by
      simp [Update, hmode]
    rw [hU, handleHelpKey_statusMsg]
    exact hinv.2 (by rw [hmode]; decide)

theorem status_empty_after_key_witness :
    (Update Char.toLower lineInput
      (run Char.toLower lineInput (NewModel lineInput)
        [Msg.killResultMsg 7 (some "denied"), key "?"]) (key "q")).1.statusMsg = "" :=
  status_empty_after_key Char.toLower lineInput
    (run Char.toLower lineInput (NewModel lineInput)
      [Msg.killResultMsg 7 (some "denied"), key "?"])
    { name := "q", code := 0 }
    (Reachable.step _ _ (Reachable.step _ _ Reachable.init)) (by decide)

end KillFlow

/-! ## Failed arrivals, the help screen and quitting -/

section Arrivals

variable {τ : Type}

/-- C15: a process snapshot that carries a failure sets `err` to that failure
and changes nothing else: rows, visible list, cursor, scroll offset, mode,
filter text, sort selection, kill target and status message stay as they were,
and no command is issued. -/
theorem failed_snapshot_keeps_rows (lo : Char → Char) (ti : TextInput τ) (m : Model τ)
    (procs : List ProcessRow) (e : String) :
    Update lo ti m (Msg.processesMsg procs (some e)) = ({ m with err := some e }, Cmd.nil) ∧
    (Update lo ti m (Msg.processesMsg procs (some e))).1.err = some e ∧
    (Update lo ti m (Msg.processesMsg procs (some e))).1.allProcs = m.allProcs ∧
    (Update lo ti m (Msg.processesMsg procs (some e))).1.visibleProc = m.visibleProc ∧
    (Update lo ti m (Msg.processesMsg procs (some e))).1.cursor = m.cursor ∧
    (Update lo ti m (Msg.processesMsg procs (some e))).1.scrollOff = m.scrollOff ∧
    (Update lo ti m (Msg.processesMsg procs (some e))).1.mode = m.mode ∧
    (Update lo ti m (Msg.processesMsg procs (some e))).1.filterText = m.filterText ∧
    (Update lo ti m (Msg.processesMsg procs (some e))).1.sortCol = m.sortCol ∧
    (Update lo ti m (Msg.processesMsg procs (some e))).1.sortAsc = m.sortAsc ∧
    (Update lo ti m (Msg.processesMsg procs (some e))).1.killTarget = m.killTarget ∧
    (Update lo ti m (Msg.processesMsg procs (some e))).1.statusMsg = m.statusMsg :=
  ⟨rfl, rfl, rfl, rfl, rfl, rfl, rfl, rfl, rfl, rfl, rfl, rfl⟩

/-- C16: after host statistics for host "box" have arrived, a host-stats
arrival that carries a failure (and so no data) replaces them: the host name,
the uptime and the memory figures held in `sysStats` are the empty ones of the
failed message, while `err` is set to the failure. -/
theorem failed_stats_replace_header :
    (run Char.toLower lineInput (NewModel lineInput)
      [Msg.sysStatsMsg { Hostname := "box", Uptime := "1h 2m", MemUsed := F64.fin 4,
                         MemTotal := F64.fin 8, Err := none }]).sysStats.Hostname = "box" ∧
    (run Char.toLower lineInput (NewModel lineInput)
      [Msg.sysStatsMsg { Hostname := "box", Uptime := "1h 2m", MemUsed := F64.fin 4,
                         MemTotal := F64.fin 8, Err := none },
       Msg.sysStatsMsg { Hostname := "", Uptime := "", MemUsed := F64.fin 0,
                         MemTotal := F64.fin 0, Err := some "host query failed" }]).sysStats =
      { Hostname := "", Uptime := "", MemUsed := F64.fin 0, MemTotal := F64.fin 0,
        Err := some "host query failed" } ∧
    (run Char.toLower lineInput (NewModel lineInput)
      [Msg.sysStatsMsg { Hostname := "box", Uptime := "1h 2m", MemUsed := F64.fin 4,
                         MemTotal := F64.fin 8, Err := none },
       Msg.sysStatsMsg { Hostname := "", Uptime := "", MemUsed := F64.fin 0,
                         MemTotal := F64.fin 0, Err := some "host query failed" }]).err =
      some "host query failed" := by
  decide

/-- C17: in Help mode the help key ("?"), escape and the quit key ("q") set
the mode to Normal, change no other field and issue no command; every other
key leaves the whole state unchanged and issues no command. -/
theorem help_key_closes_or_ignores (lo : Char → Char) (ti : TextInput τ) (m : Model τ)
    (k : KeyMsg) (hm : m.mode = ModeHelp) :
    (k.name = keyHelp ∨ k.name = keyEsc ∨ k.name = keyQuit →
      Update lo ti m (Msg.KeyMsg k) = ({ m with mode := ModeNormal }, Cmd.nil)) ∧
    (¬ (k.name = keyHelp ∨ k.name = keyEsc ∨ k.name = keyQuit) →
      Update lo ti m (Msg.KeyMsg k) = (m, Cmd.nil)) := by
  have hU : Update lo ti m (Msg.KeyMsg k) = handleHelpKey m k := by
    simp [Update, hm]
  rw [hU]
  unfold handleHelpKey
  exact ⟨fun h => by rw [if_pos h], fun h => by rw [if_neg h]⟩

theorem help_key_closes_or_ignores_witness :
    Update Char.toLower lineInput
      (Update Char.toLower lineInput (NewModel lineInput) (key "?")).1 (key "q") =
    ({ (Update Char.toLower lineInput (NewModel lineInput) (key "?")).1 with
        mode := ModeNormal }, Cmd.nil) :=
  (help_key_closes_or_ignores Char.toLower lineInput
    (Update Char.toLower lineInput (NewModel lineInput) (key "?")).1
    { name := "q", code := 0 } (by decide)).1 (Or.inr (Or.inr rfl))

theorem handleNormalKey_quit (lo : Char → Char) (ti : TextInput τ) (m : Model τ)
    (k : KeyMsg) :
    (handleNormalKey lo ti m k).2 = Cmd.Quit ↔ (k.name = keyQuit ∨ k.name = "ctrl+c") := by
  unfold handleNormalKey
  dsimp only
  by_cases h0 : k.name = keyQuit ∨ k.name = "ctrl+c"
  · rw [if_pos h0]
    exact ⟨fun _ => h0, fun _ => rfl⟩
  rw [if_neg h0]
  refine ⟨fun h => ?_, fun h => absurd h h0⟩
  exfalso
  revert h
  by_cases h1 : k.name = keyUp ∨ k.name = keyVimUp
  · rw [if_pos h1]
    exact fun h => by cases h
  rw [if_neg h1]
  by_cases h2 : k.name = keyDown ∨ k.name = keyVimDown
  · rw [if_pos h2]
    exact fun h => by cases h
  rw [if_neg h2]
  by_cases h3 : k.name = keyFilter
  · rw [if_pos h3]
    exact fun h => by cases h
  rw [if_neg h3]
  by_cases h4 : k.name = keyEsc
  · rw [if_pos h4]
    by_cases he : m.filterText ≠ ""
    · rw [if_pos he]
      exact fun h => by cases h
    · rw [if_neg he]
      exact fun h => by cases h
  rw [if_neg h4]
  by_cases h5 : k.name = keyTab
  · rw [if_pos h5]
    exact fun h => by cases h
  rw [if_neg h5]
  by_cases h6 : k.name = keySortPID
  · rw [if_pos h6]
    exact fun h => by cases h
  rw [if_neg h6]
  by_cases h7 : k.name = keySortName
  · rw [if_pos h7]
    exact fun h => by cases h
  rw [if_neg h7]
  by_cases h8 : k.name = keySortCPU
  · rw [if_pos h8]
    exact fun h => by cases h
  rw [if_neg h8]
  by_cases h9 : k.name = keySortMem
  · rw [if_pos h9]
    exact fun h => by cases h
  rw [if_neg h9]
  by_cases h10 : k.name = keySortStatus
  · rw [if_pos h10]
    exact fun h => by cases h
  rw [if_neg h10]
  by_cases h11 : k.name = keySortUser
  · rw [if_pos h11]
    exact fun h => by cases h
  rw [if_neg h11]
  by_cases h12 : k.name = keyDel ∨ k.name = keyKill
  · rw [if_pos h12]
    by_cases hl : m.visibleProc.length > 0
    · rw [if_pos hl]
      split <;> exact fun h => by cases h
    · rw [if_neg hl]
      exact fun h => by cases h
  rw [if_neg h12]
  by_cases h13 : k.name = keyHelp
  · rw [if_pos h13]
    exact fun h => by cases h
  rw [if_neg h13]
  exact fun h => by cases h

theorem handleFilterKey_not_quit (lo : Char → Char) (ti : TextInput τ) (m : Model τ)
    (k : KeyMsg) : (handleFilterKey lo ti m k).2 ≠ Cmd.Quit := by
  unfold handleFilterKey
  dsimp only
  by_cases h0 : k.name = keyEsc
  · rw [if_pos h0]
    exact fun h => by cases h
  rw [if_neg h0]
  by_cases h1 : k.name = keyEnter
  · rw [if_pos h1]
    exact fun h => by cases h
  rw [if_neg h1]
  cases (ti.Update m.filterInput k).2 <;> exact fun h => by cases h

theorem handleConfirmKey_not_quit (m : Model τ) (k : KeyMsg) :
    (handleConfirmKey m k).2 ≠ Cmd.Quit := by
  unfold handleConfirmKey
  by_cases h0 : k.name = keyConfirmY ∨ k.name = keyEnter
  · rw [if_pos h0]
    split <;> exact fun h => by cases h
  rw [if_neg h0]
  by_cases h1 : k.name = keyConfirmN ∨ k.name = keyEsc
  · rw [if_pos h1]
    exact fun h => by cases h
  rw [if_neg h1]
  exact fun h => by cases h

theorem handleHelpKey_not_quit (m : Model τ) (k : KeyMsg) :
    (handleHelpKey m k).2 ≠ Cmd.Quit := by
  unfold handleHelpKey
  by_cases h0 : k.name = keyHelp ∨ k.name = keyEsc ∨ k.name = keyQuit
  · rw [if_pos h0]
    exact fun h => by cases h
  rw [if_neg h0]
  exact fun h => by cases h

/-- C18: `Update` returns the quit command exactly when the event is a key
press, the mode is Normal and the key is "q" or "ctrl+c"; hence no key press in
Filter, ConfirmKill or Help mode and no other event produces it. -/
theorem quit_only_from_normal_mode (lo : Char → Char) (ti : TextInput τ) (m : Model τ)
    (msg : Msg) :
    ((Update lo ti m msg).2 = Cmd.Quit ↔
      ∃ k, msg = Msg.KeyMsg k ∧ m.mode = ModeNormal ∧
        (k.name = keyQuit ∨ k.name = "ctrl+c")) ∧
    (m.mode ≠ ModeNormal → (Update lo ti m msg).2 ≠ Cmd.Quit) ∧
    ((∀ k, msg ≠ Msg.KeyMsg k) → (Update lo ti m msg).2 ≠ Cmd.Quit) := by
  have main : (Update lo ti m msg).2 = Cmd.Quit ↔
      ∃ k, msg = Msg.KeyMsg k ∧ m.mode = ModeNormal ∧
        (k.name = keyQuit ∨ k.name = "ctrl+c") := by
    cases msg with
    | WindowSizeMsg w ht =>
      exact ⟨fun h => (by cases h), fun ⟨k, h, _⟩ => (by cases h)⟩
    | tickMsg => exact ⟨fun h => (by cases h), fun ⟨k, h, _⟩ => (by cases h)⟩
    | sysStatsMsg s =>
      refine ⟨fun h => ?_, fun ⟨k, h, _⟩ => by cases h⟩
      exfalso
      revert h
      unfold Update
      dsimp only
      split <;> exact fun h => by cases h
    | processesMsg procs err =>
      refine ⟨fun h => ?_, fun ⟨k, h, _⟩ => by cases h⟩
      exfalso
      revert h
      unfold Update
      dsimp only
      split <;> exact fun h => by cases h
    | killResultMsg pid err =>
      refine ⟨fun h => ?_, fun ⟨k, h, _⟩ => by cases h⟩
      exfalso
      revert h
      unfold Update
      dsimp only
      split <;> exact fun h => by cases h
    | KeyMsg k =>
      cases hmode : m.mode with
      | ModeNormal =>
        have hU : Update lo ti m (Msg.KeyMsg k) = handleNormalKey lo ti m k := by
          simp [Update, hmode]
        rw [hU, handleNormalKey_quit]
        exact ⟨fun h => ⟨k, rfl, rfl, h⟩, fun ⟨k1, h1, _, h3⟩ => by cases h1; exact h3⟩
      | ModeFilter =>
        have hU : Update lo ti m (Msg.KeyMsg k) = handleFilterKey lo ti m k := by
          simp [Update, hmode]
        rw [hU]
        exact ⟨fun h => absurd h (handleFilterKey_not_quit lo ti m k),
          fun ⟨_, _, h2, _⟩ => by cases h2⟩
      | ModeConfirmKill =>
        have hU : Update lo ti m (Msg.KeyMsg k) = handleConfirmKey m k := by
          simp [Update, hmode]
        rw [hU]
        exact ⟨fun h => absurd h (handleConfirmKey_not_quit m k),
          fun ⟨_, _, h2, _⟩ => by cases h2⟩
      | ModeHelp =>
        have hU : Update lo ti m (Msg.KeyMsg k) = handleHelpKey m k := by
          simp [Update, hmode]
        rw [hU]
        exact ⟨fun h => absurd h (handleHelpKey_not_quit m k),
          fun ⟨_, _, h2, _⟩ => by cases h2⟩
    | other => exact ⟨fun h => (by cases h), fun ⟨k, h, _⟩ => (by cases h)⟩
  refine ⟨main, fun hne h => ?_, fun hk h => ?_⟩
  · obtain ⟨_, _, h2, _⟩ := main.mp h
    exact hne h2
  · obtain ⟨k, h1, _⟩ := main.mp h
    exact hk k h1

end Arrivals

/-! ## Name truncation -/

section Truncate

/-- C19: for a width `W ≥ 0` and a name of `L` runes, `truncate` returns the
name unchanged when `L ≤ W`; when `L > W` and `W > 3` it returns `W` runes, the
first `W - 3` runes of the name followed by "..."; when `L > W` and `W ≤ 3` it
returns the first `W` runes and nothing else. The result never has more than
`W` runes. -/
theorem truncate_spec (s : String) (W : Int) (hW : 0 ≤ W) :
    ((s.data.length : Int) ≤ W → truncate s W = some s) ∧
    ((s.data.length : Int) > W → W > 3 →
      truncate s W = some (String.mk (s.data.take (W - 3).toNat) ++ "...") ∧
      ((String.mk (s.data.take (W - 3).toNat) ++ "...").data.length : Int) = W) ∧
    ((s.data.length : Int) > W → W ≤ 3 →
      truncate s W = some (String.mk (s.data.take W.toNat)) ∧
      ((String.mk (s.data.take W.toNat)).data.length : Int) = W) ∧
    (∃ r, truncate s W = some r ∧ (r.data.length : Int) ≤ W) := by
  have h3 : ("..." : String).data.length = 3 := by decide
  have c1 : (s.data.length : Int) ≤ W → truncate s W = some s := by
    intro h
    unfold truncate
    dsimp only
    rw [if_pos h]
  have c2 : (s.data.length : Int) > W → W > 3 →
      truncate s W = some (String.mk (s.data.take (W - 3).toNat) ++ "...") ∧
      ((String.mk (s.data.take (W - 3).toNat) ++ "...").data.length : Int) = W := by
    intro h1 h2
    constructor
    · unfold truncate
      dsimp only
      rw [if_neg (by omega), if_neg (by omega)]
    · rw [String.data_append, List.length_append, h3]
      simp only [List.length_take]
      omega
  have c3 : (s.data.length : Int) > W → W ≤ 3 →
      truncate s W = some (String.mk (s.data.take W.toNat)) ∧
      ((String.mk (s.data.take W.toNat)).data.length : Int) = W := by
    intro h1 h2
    constructor
    · unfold truncate
      dsimp only
      rw [if_neg (by omega), if_pos h2, if_pos hW]
    · simp only [List.length_take]
      omega
  refine ⟨c1, c2, c3, ?_⟩
  by_cases hL : (s.data.length : Int) ≤ W
  · exact ⟨s, c1 hL, hL⟩
  · by_cases hw : W > 3
    · have := c2 (by omega) hw
      exact ⟨_, this.1, le_of_eq this.2⟩
    · have := c3 (by omega) (by omega)
      exact ⟨_, this.1, le_of_eq this.2⟩

theorem truncate_spec_witness :
    truncate "processname" 8 = some "proce..." ∧
    truncate "日本語のプロセス" 3 = some "日本語" :=
  ⟨((truncate_spec "processname" 8 (by decide)).2.1 (by decide) (by decide)).1,
   ((truncate_spec "日本語のプロセス" 3 (by decide)).2.2.1 (by decide) (by decide)).1⟩

end Truncate

/-! ## The table body has one line per viewport position -/

section TableLines

variable {τ : Type}

theorem NoLineBreak_append {a b : String} (ha : NoLineBreak a) (hb : NoLineBreak b) :
    NoLineBreak (a ++ b) := by
  unfold NoLineBreak at *
  rw [String.data_append, List.mem_append]
  exact fun h => h.elim ha hb

theorem NoLineBreak_Repeat_space (n : Int) : NoLineBreak (Repeat " " n) := by
  unfold NoLineBreak Repeat
  intro h
  obtain ⟨l, hl, hc⟩ := List.mem_flatten.mp h
  rw [List.eq_of_mem_replicate hl] at hc
  revert hc
  decide

theorem NoLineBreak_padLeft {s : String} (w : Int) (hs : NoLineBreak s) :
    NoLineBreak (padLeft s w) := by
  unfold padLeft
  dsimp only
  split_ifs
  · exact hs
  · exact NoLineBreak_append (NoLineBreak_Repeat_space _) hs

theorem NoLineBreak_padRight {s : String} (w : Int) (hs : NoLineBreak s) :
    NoLineBreak (padRight s w) := by
  unfold padRight
  dsimp only
  split_ifs
  · exact hs
  · exact NoLineBreak_append hs (NoLineBreak_Repeat_space _)

theorem NoLineBreak_take {s : String} (n : Nat) (hs : NoLineBreak s) :
    NoLineBreak (String.mk (s.data.take n)) :=
  fun h => hs (List.mem_of_mem_take h)

theorem truncate_noLineBreak {s r : String} {w : Int} (hs : NoLineBreak s)
    (h : truncate s w = some r) : NoLineBreak r := by
  unfold truncate at h
  dsimp only at h
  split_ifs at h
  · cases h
    exact hs
  · cases h
    exact NoLineBreak_take _ hs
  · cases h
    exact NoLineBreak_append (NoLineBreak_take _ hs) (by unfold NoLineBreak; decide)

theorem truncate_isSome (s : String) {w : Int} (hw : 0 ≤ w) :
    ∃ r, truncate s w = some r := by
  unfold truncate
  dsimp only
  split_ifs
  · exact ⟨_, rfl⟩
  · exact ⟨_, rfl⟩
  · exact ⟨_, rfl⟩

theorem ite_ne_newline {c : Prop} [Decidable c] {a b : Char} (ha : a ≠ '\n')
    (hb : b ≠ '\n') : (if c then a else b) ≠ '\n' := by
  split_ifs <;> assumption

theorem digitChar_ne_newline (d : Nat) : Nat.digitChar d ≠ '\n' := by
  unfold Nat.digitChar
  iterate 16 refine ite_ne_newline (by decide) ?_
  decide

theorem toDigitsCore_noNewline (b : Nat) :
    ∀ (fuel n : Nat) (ds : List Char), '\n' ∉ ds → '\n' ∉ Nat.toDigitsCore b fuel n ds := by
  intro fuel
  induction fuel with
  | zero =>
    intro n ds h
    simpa [Nat.toDigitsCore] using h
  | succ f ih =>
    intro n ds h
    have hc : '\n' ∉ Nat.digitChar (n % b) :: ds := by
      intro hm
      rcases List.mem_cons.mp hm with e | e
      · exact digitChar_ne_newline _ e.symm
      · exact h e
    unfold Nat.toDigitsCore
    dsimp only
    split_ifs
    · exact hc
    · exact ih _ _ hc

theorem NoLineBreak_natRepr (n : Nat) : NoLineBreak (toString n) := by
  show '\n' ∉ (Nat.repr n).data
  unfold Nat.repr Nat.toDigits
  exact toDigitsCore_noNewline _ _ _ _ (by simp)

theorem NoLineBreak_fmtD (n : Int) : NoLineBreak (fmtD n) := by
  unfold fmtD
  cases n with
  | ofNat k => exact NoLineBreak_natRepr k
  | negSucc k =>
    show NoLineBreak ("-" ++ toString (Nat.succ k))
    exact NoLineBreak_append (by unfold NoLineBreak; decide) (NoLineBreak_natRepr _)

theorem wrapInt_of_inRange (x : Int) (h1 : minInt ≤ x) (h2 : x ≤ maxInt) :
    wrapInt x = x := by
  unfold wrapInt
  unfold minInt at h1
  unfold maxInt at h2
  omega

theorem nameColWidth_nonneg (m : Model τ) : 0 ≤ nameColWidth m := by
  unfold nameColWidth colNameMin colNameMax
  dsimp only
  generalize wrapInt (wrapInt (m.termWidth - colFixed) - 2) = w
  split_ifs <;> omega

/-- One iteration of the loop: past the end of the list it writes a bare line
break, otherwise a line without a line break followed by one. -/
theorem tableLine_spec (render : Style → String → String) (fmtF : Nat → F64 → String)
    (m : Model τ) (nameW idx : Int)
    (hrender : ∀ st s, render st s = s)
    (hfmt : ∀ p x, NoLineBreak (fmtF p x))
    (hrows : ∀ r ∈ m.visibleProc, NoLineBreak r.Name ∧ NoLineBreak r.User)
    (hw : 0 ≤ nameW) (hidx : 0 ≤ idx) :
    ∃ c, tableLine render fmtF m nameW idx = some (c ++ "\n") ∧ NoLineBreak c ∧
      ((m.visibleProc.length : Int) ≤ idx → c = "") := by
  by_cases hlen : idx ≥ (m.visibleProc.length : Int)
  · refine ⟨"", ?_, by unfold NoLineBreak; decide, fun _ => rfl⟩
    unfold tableLine
    rw [if_pos hlen]
    rfl
  · have hlt : idx.toNat < m.visibleProc.length := by omega
    have hix : index m.visibleProc idx = some (m.visibleProc[idx.toNat]) := by
      unfold index
      rw [if_pos hidx, List.getElem?_eq_getElem hlt]
    obtain ⟨hN, hU⟩ := hrows _ (List.getElem_mem hlt)
    obtain ⟨name0, hname⟩ := truncate_isSome (m.visibleProc[idx.toNat]).Name hw
    have hname0 := truncate_noLineBreak hN hname
    have hsp : NoLineBreak " " := by unfold NoLineBreak; decide
    have hcur : NoLineBreak "▶" := by unfold NoLineBreak; decide
    have hsep : NoLineBreak " │ " := by unfold NoLineBreak; decide
    unfold tableLine
    rw [if_neg hlen, hix]
    dsimp only
    rw [hname]
    dsimp only
    simp only [hrender]
    refine ⟨_, rfl, ?_, fun h => absurd h hlen⟩
    · have hline : ∀ c0, NoLineBreak c0 →
          NoLineBreak (c0 ++ padLeft (fmtD (m.visibleProc[idx.toNat]).PID) colPID ++ " │ " ++
            padRight name0 nameW ++ " │ " ++
            padLeft (fmtF 2 (m.visibleProc[idx.toNat]).CPU) colCPU ++ " │ " ++
            padLeft (fmtF 1 (m.visibleProc[idx.toNat]).MemMB) colMem ++ " │ " ++
            padLeft (fmtD (m.visibleProc[idx.toNat]).Threads) colStatus ++ " │ " ++
            padRight (m.visibleProc[idx.toNat]).User colUser) := by
        intro c0 hc0
        exact NoLineBreak_append (NoLineBreak_append (NoLineBreak_append (NoLineBreak_append
          (NoLineBreak_append (NoLineBreak_append (NoLineBreak_append (NoLineBreak_append
          (NoLineBreak_append (NoLineBreak_append (NoLineBreak_append hc0
          (NoLineBreak_padLeft _ (NoLineBreak_fmtD _))) hsep)
          (NoLineBreak_padRight _ hname0)) hsep)
          (NoLineBreak_padLeft _ (hfmt _ _))) hsep)
          (NoLineBreak_padLeft _ (hfmt _ _))) hsep)
          (NoLineBreak_padLeft _ (NoLineBreak_fmtD _))) hsep)
          (NoLineBreak_padRight _ hU)
      split_ifs <;> first | exact hline _ hcur | exact hline _ hsp

theorem foldl_lines (f : Nat → Option String) (g : Nat → String) :
    ∀ (is : List Nat) (acc : String), (∀ i ∈ is, f i = some (g i)) →
      is.foldl (fun b i =>
        match b, f i with
        | some b, some l => some (b ++ l)
        | _, _ => none) (some acc) = some ((is.map g).foldl (fun r s => r ++ s) acc) := by
  intro is
  induction is with
  | nil => intro acc _; rfl
  | cons i is ih =>
    intro acc hf
    rw [List.foldl_cons, hf i (List.mem_cons_self _ _)]
    exact ih _ (fun j hj => hf j (List.mem_cons_of_mem _ hj))

/-- C20, as stated, fails at the ends of the `int` range. For the terminal
height `math.MinInt64` the subtraction in `tableHeight` wraps and the table
height is 9223372036854775800, not `max (termHeight - 8) 1 = 1`. For
`scrollOff = math.MaxInt64` and a table height of 2 the second row index wraps
to a negative value, the index expression fails and `renderTable` produces no
output. -/
theorem renderTable_fails_at_int_extremes :
    tableHeight { NewModel lineInput with termHeight := minInt } = 9223372036854775800 ∧
    tableHeight { NewModel lineInput with termHeight := minInt } ≠ max (minInt - 8) 1 ∧
    0 ≤ ({ NewModel lineInput with termHeight := 10, scrollOff := maxInt } :
      Model (String × Bool)).scrollOff ∧
    tableHeight { NewModel lineInput with termHeight := 10, scrollOff := maxInt } = 2 ∧
    renderTable plainRender zeroFmtF
      { NewModel lineInput with termHeight := 10, scrollOff := maxInt } = none := by
  decide

/-- C20, amended: with styling the identity and no line break in the row fields
or the printed numbers, for a terminal height from `math.MinInt64 + 8` up, a
`scrollOff ≥ 0` whose last row index `scrollOff + tableHeight - 1` is at most
`math.MaxInt64`, and any list of visible rows, `renderTable` writes exactly
`tableHeight` lines, each ended by a line break and holding none, where
`tableHeight = max (termHeight - 8) 1`; the lines at positions past the end of
the visible list are empty. -/
theorem renderTable_line_count (render : Style → String → String)
    (fmtF : Nat → F64 → String) (m : Model τ)
    (hrender : ∀ st s, render st s = s)
    (hfmt : ∀ p x, NoLineBreak (fmtF p x))
    (hrows : ∀ r ∈ m.visibleProc, NoLineBreak r.Name ∧ NoLineBreak r.User)
    (hscroll : 0 ≤ m.scrollOff)
    (hlow : minInt + 8 ≤ m.termHeight) (hhigh : m.termHeight ≤ maxInt)
    (hidx : m.scrollOff + tableHeight m - 1 ≤ maxInt) :
    tableHeight m = max (m.termHeight - 8) 1 ∧
    ∃ lines : List String,
      (lines.length : Int) = tableHeight m ∧
      renderTable render fmtF m = some (String.join (lines.map (fun l => l ++ "\n"))) ∧
      (∀ l ∈ lines, NoLineBreak l) ∧
      (∀ (i : Nat) (l : String), lines[i]? = some l →
        (m.visibleProc.length : Int) ≤ m.scrollOff + (i : Int) → l = "") := by
  have hH : tableHeight m = max (m.termHeight - 8) 1 := by
    unfold tableHeight
    dsimp only
    rw [wrapInt_of_inRange _ (by unfold minInt at *; omega) (by unfold maxInt at *; omega)]
    split_ifs with h
    · rw [max_eq_right (by omega)]
    · rw [max_eq_left (by omega)]
  refine ⟨hH, ?_⟩
  have hspec : ∀ i : Nat, ∃ c, (i < (tableHeight m).toNat →
      tableLine render fmtF m (nameColWidth m) (wrapInt (m.scrollOff + (i : Int))) =
        some (c ++ "\n") ∧
      NoLineBreak c ∧ ((m.visibleProc.length : Int) ≤ m.scrollOff + (i : Int) → c = "")) := by
    intro i
    by_cases hi : i < (tableHeight m).toNat
    · have hw : wrapInt (m.scrollOff + (i : Int)) = m.scrollOff + (i : Int) :=
        wrapInt_of_inRange _ (by unfold minInt; omega) (by omega)
      obtain ⟨c, h1, h2, h3⟩ := tableLine_spec render fmtF m (nameColWidth m)
        (m.scrollOff + (i : Int)) hrender hfmt hrows (nameColWidth_nonneg m) (by omega)
      exact ⟨c, fun _ => ⟨by rw [hw]; exact h1, h2, h3⟩⟩
    · exact ⟨"", fun h => absurd h hi⟩
  choose c hc using hspec
  refine ⟨(List.range (tableHeight m).toNat).map c, ?_, ?_, ?_, ?_⟩
  · rw [List.length_map, List.length_range]
    have : 1 ≤ tableHeight m := by rw [hH]; exact le_max_right _ _
    omega
  · unfold renderTable
    rw [foldl_lines _ (fun i => c i ++ "\n") _ _
      (fun i hi => (hc i (List.mem_range.mp hi)).1), List.map_map]
    rfl
  · intro l hl
    obtain ⟨i, hi, rfl⟩ := List.mem_map.mp hl
    exact (hc i (List.mem_range.mp hi)).2.1
  · intro i l hl hpast
    rw [List.getElem?_map] at hl
    cases hr : (List.range (tableHeight m).toNat)[i]? with
    | none => rw [hr] at hl; cases hl
    | some j =>
      rw [hr] at hl
      obtain ⟨hi, hj⟩ := List.getElem?_eq_some.mp hr
      rw [List.getElem_range] at hj
      subst hj
      cases hl
      rw [List.length_range] at hi
      exact (hc i hi).2.2 hpast

theorem renderTable_line_count_witness :
    ∃ lines : List String,
      (lines.length : Int) =
        tableHeight { NewModel lineInput with
          termHeight := 11, visibleProc := [row 7 "init" 0] } ∧
      renderTable plainRender zeroFmtF { NewModel lineInput with
          termHeight := 11, visibleProc := [row 7 "init" 0] } =
        some (String.join (lines.map (fun l => l ++ "\n"))) ∧
      (∀ l ∈ lines, NoLineBreak l) ∧
      (∀ (i : Nat) (l : String), lines[i]? = some l →
        (([row 7 "init" 0] : List ProcessRow).length : Int) ≤ 0 + (i : Int) → l = "") :=
  (renderTable_line_count plainRender zeroFmtF
    { NewModel lineInput with termHeight := 11, visibleProc := [row 7 "init" 0] }
    (fun _ _ => rfl) (fun _ _ => by unfold NoLineBreak zeroFmtF; decide)
    (by
      intro r hr
      rw [List.mem_singleton] at hr
      subst hr
      constructor <;> (unfold NoLineBreak; decide))
    (by decide) (by decide) (by decide) (by decide)).2

end TableLines

/-! ## The width of the Name column -/

section NameColumn

variable {τ : Type}

/-- C21, as stated, fails at the low end of the `int` range: for the terminal
width `math.MinInt64`, which is at most 72, the subtraction wraps and
`nameColWidth` is 40, not `clamp (w - colFixed - 2) 10 40 = 10`; the value is
larger than the one for the larger width 0. -/
theorem nameColWidth_wraps_at_minInt :
    minInt ≤ 72 ∧
    nameColWidth { NewModel lineInput with termWidth := minInt } = 40 ∧
    nameColWidth { NewModel lineInput with termWidth := minInt } ≠
      specClamp (minInt - colFixed - 2) 10 40 ∧
    minInt ≤ 0 ∧
    ¬ nameColWidth { NewModel lineInput with termWidth := minInt } ≤
      nameColWidth { NewModel lineInput with termWidth := 0 } := by
  decide

/-- C21, amended: `colFixed = 7 + 8 + 10 + 8 + 12 + 15 = 60`, and for every
terminal width `nameColWidth` lies between 10 and 40. For every width `w` from
`math.MinInt64 + 62` up to `math.MaxInt64`, zero and negative ones included,
`nameColWidth` is `clamp (w - colFixed - 2) 10 40`, does not decrease when `w`
grows, is 10 for `w ≤ 72` and 40 for `w ≥ 102`. For the 62 widths below
`math.MinInt64 + 62` the subtraction wraps and `nameColWidth` is 40. -/
theorem nameColWidth_is_clamp (m : Model τ) :
    colFixed = 7 + 8 + 10 + 8 + 12 + 15 ∧ colFixed = 60 ∧
    10 ≤ nameColWidth m ∧ nameColWidth m ≤ 40 ∧
    (minInt + 62 ≤ m.termWidth → m.termWidth ≤ maxInt →
      nameColWidth m = specClamp (m.termWidth - colFixed - 2) 10 40 ∧
      (∀ m2 : Model τ, m.termWidth ≤ m2.termWidth → m2.termWidth ≤ maxInt →
        nameColWidth m ≤ nameColWidth m2) ∧
      (m.termWidth ≤ 72 → nameColWidth m = 10) ∧
      (m.termWidth ≥ 102 → nameColWidth m = 40)) ∧
    (minInt ≤ m.termWidth → m.termWidth < minInt + 62 → nameColWidth m = 40) := by
  have hF : colFixed = 60 := by decide
  have key : ∀ x : Model τ, minInt + 62 ≤ x.termWidth → x.termWidth ≤ maxInt →
      nameColWidth x = max 10 (min 40 (x.termWidth - 62)) := by
    intro x hlo hhi
    unfold minInt at hlo
    unfold maxInt at hhi
    unfold nameColWidth colNameMin colNameMax
    rw [hF]
    dsimp only
    rw [wrapInt_of_inRange (x.termWidth - 60) (by unfold minInt; omega)
      (by unfold maxInt; omega),
      wrapInt_of_inRange (x.termWidth - 60 - 2) (by unfold minInt; omega)
      (by unfold maxInt; omega),
      show x.termWidth - 60 - 2 = x.termWidth - 62 by omega]
    rcases le_total (x.termWidth - 62) 40 with h | h
    · rw [min_eq_right h]
      rcases le_total (x.termWidth - 62) 10 with h2 | h2
      · rw [max_eq_left h2]
        split_ifs <;> omega
      · rw [max_eq_right h2]
        split_ifs <;> omega
    · rw [min_eq_left h, max_eq_right (by omega)]
      split_ifs <;> omega
  have hrange : 10 ≤ nameColWidth m ∧ nameColWidth m ≤ 40 := by
    unfold nameColWidth colNameMin colNameMax
    dsimp only
    generalize wrapInt (wrapInt (m.termWidth - colFixed) - 2) = w
    constructor <;> split_ifs <;> omega
  refine ⟨by decide, hF, hrange.1, hrange.2, ?_, ?_⟩
  · intro hlo hhi
    refine ⟨?_, ?_, ?_, ?_⟩
    · rw [key m hlo hhi, hF]
      unfold specClamp
      rw [show m.termWidth - 60 - 2 = m.termWidth - 62 by omega]
    · intro m2 h h2
      rw [key m hlo hhi, key m2 (by omega) h2]
      exact max_le_max le_rfl (min_le_min le_rfl (by omega))
    · intro h
      rw [key m hlo hhi, min_eq_right (by omega), max_eq_left (by omega)]
    · intro h
      rw [key m hlo hhi, min_eq_left (by omega), max_eq_right (by omega)]
  · intro hlo hhi
    unfold minInt at hlo hhi
    unfold nameColWidth colNameMin colNameMax wrapInt
    rw [hF]
    dsimp only
    split_ifs <;> omega

theorem nameColWidth_is_clamp_witness :
    nameColWidth { NewModel lineInput with termWidth := 80 } = 18 ∧
    nameColWidth { NewModel lineInput with termWidth := -5 } = 10 ∧
    nameColWidth { NewModel lineInput with termWidth := 72 } = 10 ∧
    nameColWidth { NewModel lineInput with termWidth := 102 } = 40 ∧
    nameColWidth { NewModel lineInput with termWidth := minInt + 61 } = 40 :=
  ⟨(((nameColWidth_is_clamp { NewModel lineInput with termWidth := 80 }).2.2.2.2.1
      (by decide) (by decide)).1).trans (by decide),
   ((nameColWidth_is_clamp { NewModel lineInput with termWidth := -5 }).2.2.2.2.1
      (by decide) (by decide)).2.2.1 (by decide),
   ((nameColWidth_is_clamp { NewModel lineInput with termWidth := 72 }).2.2.2.2.1
      (by decide) (by decide)).2.2.1 (by decide),
   ((nameColWidth_is_clamp { NewModel lineInput with termWidth := 102 }).2.2.2.2.1
      (by decide) (by decide)).2.2.2 (by decide),
   (nameColWidth_is_clamp { NewModel lineInput with termWidth := minInt + 61 }).2.2.2.2.2
      (by decide) (by decide)⟩

end NameColumn

/-! ## The uptime string -/

section Uptime

/-- C24: with `d = n / 86400`, `h = (n mod 86400) / 3600` and
`m = (n mod 3600) / 60`, `formatUptime n` is "<d>d <h>h <m>m" when `d > 0`,
"<h>h <m>m" when `d = 0` and `h > 0`, and "<m>m" otherwise; `h < 24`, `m < 60`
and `86400 d + 3600 h + 60 m ≤ n < 86400 d + 3600 h + 60 m + 60`. -/
theorem formatUptime_spec (n : Nat) :
    (n / 86400 > 0 →
      formatUptime n = fmtD ((n / 86400 : Nat) : Int) ++ "d " ++
        fmtD ((n % 86400 / 3600 : Nat) : Int) ++ "h " ++
        fmtD ((n % 3600 / 60 : Nat) : Int) ++ "m") ∧
    (n / 86400 = 0 → n % 86400 / 3600 > 0 →
      formatUptime n = fmtD ((n % 86400 / 3600 : Nat) : Int) ++ "h " ++
        fmtD ((n % 3600 / 60 : Nat) : Int) ++ "m") ∧
    (n / 86400 = 0 → n % 86400 / 3600 = 0 →
      formatUptime n = fmtD ((n % 3600 / 60 : Nat) : Int) ++ "m") ∧
    n % 86400 / 3600 < 24 ∧ n % 3600 / 60 < 60 ∧
    86400 * (n / 86400) + 3600 * (n % 86400 / 3600) + 60 * (n % 3600 / 60) ≤ n ∧
    n < 86400 * (n / 86400) + 3600 * (n % 86400 / 3600) + 60 * (n % 3600 / 60) + 60 := by
  have hmod : n % 86400 % 3600 = n % 3600 := Nat.mod_mod_of_dvd n (by decide)
  refine ⟨?_, ?_, ?_, by omega, by omega, by omega, by omega⟩
  · intro hd
    unfold formatUptime
    dsimp only
    rw [if_pos hd, hmod]
  · intro hd hh
    unfold formatUptime
    dsimp only
    rw [if_neg (by omega), if_pos hh, hmod]
  · intro hd hh
    unfold formatUptime
    dsimp only
    rw [if_neg (by omega), if_neg (by omega), hmod]

theorem formatUptime_spec_witness :
    formatUptime 90061 = "1d 1h 1m" ∧ formatUptime 3725 = "1h 2m" ∧
    formatUptime 59 = "0m" :=
  ⟨((formatUptime_spec 90061).1 (by decide)).trans (by decide),
   ((formatUptime_spec 3725).2.1 (by decide) (by decide)).trans (by decide),
   ((formatUptime_spec 59).2.2.1 (by decide) (by decide)).trans (by decide)⟩

end Uptime

/-! ## The CPU baseline cache -/

section CacheFacts

variable {H : Type}

theorem ProcCache.get_delete (c : ProcCache H) (q pid : Int) :
    ProcCache.get (ProcCache.delete c q) pid =
      if pid = q then none else ProcCache.get c pid := by
  induction c with
  | nil =>
    unfold ProcCache.delete
    simp [ProcCache.get]
  | cons e rest ih =>
    obtain ⟨k, p⟩ := e
    unfold ProcCache.delete at ih ⊢
    by_cases hk : k = q
    · have hf : List.filter (fun e : Int × H => decide (e.1 ≠ q)) ((k, p) :: rest) =
          List.filter (fun e : Int × H => decide (e.1 ≠ q)) rest := by
        rw [List.filter_cons_of_neg]
        simp [hk]
      rw [hf, ih]
      by_cases hp : pid = q
      · rw [if_pos hp, if_pos hp]
      · rw [if_neg hp, if_neg hp]
        show ProcCache.get rest pid = if k = pid then some p else ProcCache.get rest pid
        rw [if_neg (fun h => hp (h.symm.trans hk))]
    · have hf : List.filter (fun e : Int × H => decide (e.1 ≠ q)) ((k, p) :: rest) =
          (k, p) :: List.filter (fun e : Int × H => decide (e.1 ≠ q)) rest := by
        rw [List.filter_cons_of_pos]
        simp [hk]
      rw [hf]
      show (if k = pid then some p
          else ProcCache.get (List.filter (fun e : Int × H => decide (e.1 ≠ q)) rest) pid) =
        if pid = q then none else if k = pid then some p else ProcCache.get rest pid
      rw [ih]
      by_cases hkp : k = pid
      · rw [if_pos hkp, if_pos hkp, if_neg (fun h => hk (hkp.trans h))]
      · rw [if_neg hkp, if_neg hkp]

theorem ProcCache.mem_keys_delete (c : ProcCache H) (q k : Int) :
    k ∈ ProcCache.keys (ProcCache.delete c q) ↔ k ∈ ProcCache.keys c ∧ k ≠ q := by
  unfold ProcCache.keys ProcCache.delete
  simp only [List.mem_map, List.mem_filter, decide_eq_true_eq]
  constructor
  · rintro ⟨e, ⟨he, hne⟩, rfl⟩
    exact ⟨⟨e, he, rfl⟩, hne⟩
  · rintro ⟨⟨e, he, rfl⟩, hne⟩
    exact ⟨e, ⟨he, hne⟩, rfl⟩

theorem ProcCache.get_set (c : ProcCache H) (q : Int) (p : H) (pid : Int) :
    ProcCache.get (ProcCache.set c q p) pid =
      if q = pid then some p else ProcCache.get c pid := by
  show (if q = pid then some p else ProcCache.get (ProcCache.delete c q) pid) = _
  by_cases h : q = pid
  · rw [if_pos h, if_pos h]
  · rw [if_neg h, if_neg h, ProcCache.get_delete, if_neg (fun e => h e.symm)]

theorem ProcCache.mem_keys_set (c : ProcCache H) (q : Int) (p : H) (k : Int) :
    k ∈ ProcCache.keys (ProcCache.set c q p) → k = q ∨ k ∈ ProcCache.keys c := by
  intro h
  have h2 : k ∈ q :: ProcCache.keys (ProcCache.delete c q) := h
  rcases List.mem_cons.mp h2 with e | e
  · exact Or.inl e
  · exact Or.inr ((ProcCache.mem_keys_delete c q k).mp e).1

theorem ProcCache.get_eq_none (c : ProcCache H) (pid : Int)
    (h : pid ∉ ProcCache.keys c) : ProcCache.get c pid = none := by
  induction c with
  | nil => rfl
  | cons e rest ih =>
    obtain ⟨k, p⟩ := e
    have hk : k ≠ pid := fun e => h (by rw [← e]; exact List.mem_cons_self _ _)
    have hr : pid ∉ ProcCache.keys rest := fun e => h (List.mem_cons_of_mem _ e)
    show (if k = pid then some p else ProcCache.get rest pid) = none
    rw [if_neg hk]
    exact ih hr

/-- The eviction loop removes every key it visits that is not live, adds no
key and leaves the entries of live identifiers as they are. -/
theorem evict_fold_spec (pids : List Int) :
    ∀ (ks : List Int) (acc : ProcCache H),
      (∀ k ∈ ProcCache.keys (ks.foldl
          (fun acc pid => if pid ∈ pids then acc else ProcCache.delete acc pid) acc),
        k ∈ ProcCache.keys acc ∧ (k ∈ ks → k ∈ pids)) ∧
      (∀ pid ∈ pids, ProcCache.get (ks.foldl
          (fun acc pid => if pid ∈ pids then acc else ProcCache.delete acc pid) acc) pid =
        ProcCache.get acc pid) := by
  intro ks
  induction ks with
  | nil =>
    intro acc
    exact ⟨fun k hk => ⟨hk, fun h => absurd h (List.not_mem_nil _)⟩, fun _ _ => rfl⟩
  | cons k0 ks ih =>
    intro acc
    rw [List.foldl_cons]
    by_cases hk0 : k0 ∈ pids
    · rw [if_pos hk0]
      obtain ⟨h1, h2⟩ := ih acc
      refine ⟨fun k hk => ⟨(h1 k hk).1, fun hm => ?_⟩, h2⟩
      rcases List.mem_cons.mp hm with e | e
      · rw [e]
        exact hk0
      · exact (h1 k hk).2 e
    · rw [if_neg hk0]
      obtain ⟨h1, h2⟩ := ih (ProcCache.delete acc k0)
      refine ⟨fun k hk => ?_, fun pid hp => ?_⟩
      · obtain ⟨ha, hb⟩ := h1 k hk
        obtain ⟨hc, hd⟩ := (ProcCache.mem_keys_delete acc k0 k).mp ha
        refine ⟨hc, fun hm => ?_⟩
        rcases List.mem_cons.mp hm with e | e
        · exact absurd e hd
        · exact hb e
      · rw [h2 pid hp, ProcCache.get_delete, if_neg]
        intro e
        exact hk0 (e ▸ hp)

theorem evictStale_spec (pids : List Int) (c : ProcCache H) :
    (∀ k ∈ ProcCache.keys (evictStale pids c), k ∈ ProcCache.keys c ∧ k ∈ pids) ∧
    (∀ pid ∈ pids, ProcCache.get (evictStale pids c) pid = ProcCache.get c pid) := by
  obtain ⟨h1, h2⟩ := evict_fold_spec pids (ProcCache.keys c) c
  exact ⟨fun k hk => ⟨(h1 k hk).1, (h1 k hk).2 (h1 k hk).1⟩, h2⟩

/-- One iteration of the row loop: the cache is unchanged or gains an entry for
an identifier it did not hold, and at most one row is appended, whose `User` is
computed from the owner query of this iteration. -/
theorem collectLoop_cons (api : ProcessAPI H) (selfPID : Int) (i : Nat) (pid : Int)
    (rest : List Int) (cache : ProcCache H) (rows : List ProcessRow) :
    ∃ cache1 rows1,
      collectLoop api selfPID i (pid :: rest) cache rows =
        collectLoop api selfPID (i + 1) rest cache1 rows1 ∧
      (cache1 = cache ∨
        (ProcCache.get cache pid = none ∧ ∃ p, cache1 = ProcCache.set cache pid p)) ∧
      (rows1 = rows ∨
        ∃ r p, rows1 = rows ++ [r] ∧ r.User = userField (api.Username i p)) := by
  rw [collectLoop]
  by_cases hs : pid = selfPID
  · rw [if_pos hs]
    exact ⟨_, _, rfl, Or.inl rfl, Or.inl rfl⟩
  rw [if_neg hs]
  cases hg : ProcCache.get cache pid with
  | some p =>
    dsimp only
    cases hn : api.Name i p with
    | none => exact ⟨_, _, rfl, Or.inl rfl, Or.inl rfl⟩
    | some name =>
      dsimp only
      by_cases he : name = ""
      · rw [if_pos he]
        exact ⟨_, _, rfl, Or.inl rfl, Or.inl rfl⟩
      · rw [if_neg he]
        exact ⟨_, _, rfl, Or.inl rfl, Or.inr ⟨_, p, rfl, rfl⟩⟩
  | none =>
    dsimp only
    cases hp : api.NewProcess i pid with
    | none => exact ⟨_, _, rfl, Or.inl rfl, Or.inl rfl⟩
    | some p =>
      dsimp only
      cases hn : api.Name i p with
      | none => exact ⟨_, _, rfl, Or.inr ⟨rfl, p, rfl⟩, Or.inl rfl⟩
      | some name =>
        dsimp only
        by_cases he : name = ""
        · rw [if_pos he]
          exact ⟨_, _, rfl, Or.inr ⟨rfl, p, rfl⟩, Or.inl rfl⟩
        · rw [if_neg he]
          exact ⟨_, _, rfl, Or.inr ⟨rfl, p, rfl⟩, Or.inr ⟨_, p, rfl, rfl⟩⟩

theorem collectLoop_cache (api : ProcessAPI H) (selfPID : Int) (L : List Int) :
    ∀ (ps : List Int) (i : Nat) (cache : ProcCache H) (rows : List ProcessRow),
      (∀ pid ∈ ps, pid ∈ L) → (∀ k ∈ ProcCache.keys cache, k ∈ L) →
      (∀ k ∈ ProcCache.keys (collectLoop api selfPID i ps cache rows).1, k ∈ L) ∧
      (∀ pid h, ProcCache.get cache pid = some h →
        ProcCache.get (collectLoop api selfPID i ps cache rows).1 pid = some h) := by
  intro ps
  induction ps with
  | nil =>
    intro i cache rows _ hc
    exact ⟨hc, fun _ _ h => h⟩
  | cons pid rest ih =>
    intro i cache rows hps hc
    obtain ⟨cache1, rows1, heq, hcache, _⟩ := collectLoop_cons api selfPID i pid rest cache rows
    rw [heq]
    have hrest : ∀ q ∈ rest, q ∈ L := fun q hq => hps q (List.mem_cons_of_mem _ hq)
    rcases hcache with e | ⟨hnone, p, e⟩
    · rw [e]
      exact ih (i + 1) cache rows1 hrest hc
    · have hc1 : ∀ k ∈ ProcCache.keys cache1, k ∈ L := by
        intro k hk
        rw [e] at hk
        rcases ProcCache.mem_keys_set cache pid p k hk with e2 | e2
        · rw [e2]
          exact hps pid (List.mem_cons_self _ _)
        · exact hc k e2
      obtain ⟨h1, h2⟩ := ih (i + 1) cache1 rows1 hrest hc1
      refine ⟨h1, fun q h hq => h2 q h ?_⟩
      rw [e, ProcCache.get_set]
      by_cases hpq : pid = q
      · rw [hpq, hq] at hnone
        cases hnone
      · rw [if_neg hpq]
        exact hq

theorem collectLoop_rows (api : ProcessAPI H) (selfPID : Int) :
    ∀ (ps : List Int) (i : Nat) (cache : ProcCache H) (rows : List ProcessRow),
      ∀ r ∈ (collectLoop api selfPID i ps cache rows).2,
        r ∈ rows ∨ ∃ j p, r.User = userField (api.Username j p) := by
  intro ps
  induction ps with
  | nil =>
    intro i cache rows r hr
    exact Or.inl hr
  | cons pid rest ih =>
    intro i cache rows r hr
    obtain ⟨cache1, rows1, heq, _, hrows⟩ := collectLoop_cons api selfPID i pid rest cache rows
    rw [heq] at hr
    rcases ih (i + 1) cache1 rows1 r hr with h | h
    · rcases hrows with e | ⟨r0, p, e, hu⟩
      · rw [e] at h
        exact Or.inl h
      · rw [e] at h
        rcases List.mem_append.mp h with h2 | h2
        · exact Or.inl h2
        · rw [List.mem_singleton] at h2
          rw [h2]
          exact Or.inr ⟨i, p, hu⟩
    · exact Or.inr h

/-- C22: when the identifier enumeration succeeds with live set `L`, after
`CollectProcesses` every key of the cache is in `L`, an identifier cached
before and absent from `L` is no key any more, and an identifier of `L` that
was cached keeps the handle it had. -/
theorem cache_holds_live_handles (api : ProcessAPI H) (procCache : ProcCache H)
    (L : List Int) (hL : api.Pids = Except.ok L) :
    (∀ pid ∈ ProcCache.keys (CollectProcesses api procCache).1, pid ∈ L) ∧
    (∀ pid ∈ ProcCache.keys procCache, pid ∉ L →
      pid ∉ ProcCache.keys (CollectProcesses api procCache).1 ∧
      ProcCache.get (CollectProcesses api procCache).1 pid = none) ∧
    (∀ pid h, pid ∈ L → ProcCache.get procCache pid = some h →
      ProcCache.get (CollectProcesses api procCache).1 pid = some h) := by
  have hC : (CollectProcesses api procCache).1 =
      (collectLoop api api.Getpid 0 L (evictStale L procCache) []).1 := by
    unfold CollectProcesses
    rw [hL]
  obtain ⟨e1, e2⟩ := evictStale_spec L procCache
  obtain ⟨h1, h2⟩ := collectLoop_cache api api.Getpid L L 0 (evictStale L procCache) []
    (fun _ h => h) (fun k hk => (e1 k hk).2)
  rw [hC]
  refine ⟨h1, fun pid _ hn => ?_, fun pid h hp hg => ?_⟩
  · have hnot : pid ∉ ProcCache.keys
        (collectLoop api api.Getpid 0 L (evictStale L procCache) []).1 :=
      fun hk => hn (h1 pid hk)
    exact ⟨hnot, ProcCache.get_eq_none _ _ hnot⟩
  · exact h2 pid h (by rw [e2 pid hp]; exact hg)

theorem cache_holds_live_handles_witness :
    (∀ pid ∈ ProcCache.keys (CollectProcesses demoAPI [(5, 7), (3, 8)]).1, pid ∈ [1, 5, 9]) ∧
    ProcCache.get (CollectProcesses demoAPI [(5, 7), (3, 8)]).1 3 = none ∧
    ProcCache.get (CollectProcesses demoAPI [(5, 7), (3, 8)]).1 5 = some 7 :=
  ⟨(cache_holds_live_handles demoAPI [(5, 7), (3, 8)] [1, 5, 9] rfl).1,
   ((cache_holds_live_handles demoAPI [(5, 7), (3, 8)] [1, 5, 9] rfl).2.1 3
      (by decide) (by decide)).2,
   (cache_holds_live_handles demoAPI [(5, 7), (3, 8)] [1, 5, 9] rfl).2.2 5 7
      (by decide) rfl⟩

end CacheFacts

/-! ## The owner name of a row -/

section OwnerName

theorem not_mem_drop_of_ne (u : List Char) (i : Nat) (h : u[i]? ≠ some '\\')
    (hd : '\\' ∉ u.drop (i + 1)) : '\\' ∉ u.drop i := by
  by_cases hi : i < u.length
  · rw [List.drop_eq_getElem_cons hi]
    intro hm
    rcases List.mem_cons.mp hm with e | e
    · exact h (by rw [List.getElem?_eq_getElem hi, ← e])
    · exact hd e
  · rw [List.drop_eq_nil_of_le (by omega)]
    exact List.not_mem_nil _

/-- The stripping loop, started at a position behind which there is no
backslash: the result holds no backslash, and it is the whole name when the
name holds none, else what follows a backslash of the name. -/
theorem stripDomainLoop_spec (u : List Char) :
    ∀ n : Nat, '\\' ∉ u.drop n →
      '\\' ∉ stripDomainLoop u n ∧
      (('\\' ∉ u ∧ stripDomainLoop u n = u) ∨
        ∃ pre, u = pre ++ '\\' :: stripDomainLoop u n) := by
  intro n
  induction n with
  | zero =>
    intro h
    rw [List.drop_zero] at h
    exact ⟨h, Or.inl ⟨h, rfl⟩⟩
  | succ i ih =>
    intro h
    unfold stripDomainLoop
    by_cases hc : u[i]? = some '\\'
    · rw [if_pos hc]
      refine ⟨h, Or.inr ⟨u.take i, ?_⟩⟩
      obtain ⟨hi, hv⟩ := List.getElem?_eq_some.mp hc
      rw [← hv, ← List.drop_eq_getElem_cons hi, List.take_append_drop]
    · rw [if_neg hc]
      exact ih (not_mem_drop_of_ne u i hc h)

theorem stripDomain_full (u : List Char) :
    '\\' ∉ stripDomainLoop u u.length ∧
    (('\\' ∉ u ∧ stripDomainLoop u u.length = u) ∨
      ∃ pre, u = pre ++ '\\' :: stripDomainLoop u u.length) :=
  stripDomainLoop_spec u u.length (by rw [List.drop_length]; exact List.not_mem_nil _)

theorem userField_some {u : String} (h : u ≠ "") :
    userField (some u) = String.mk (stripDomainLoop u.data u.data.length) := by
  unfold userField
  dsimp only
  rw [if_neg h]

theorem userField_noBackslash (a : Option String) : '\\' ∉ (userField a).data := by
  unfold userField
  exact (stripDomain_full _).1

/-- C23: the field `User` of every row `CollectProcesses` builds is computed
from the owner query: it is "N/A" when the query fails or returns the empty
string; for a name with a backslash it is the part behind the last backslash
(the name is some text, a backslash, and the result, which holds no
backslash); a name without a backslash is kept. It never holds a backslash. -/
theorem user_field_is_stripped_owner :
    userField none = "N/A" ∧ userField (some "") = "N/A" ∧
    (∀ u : String, u ≠ "" → '\\' ∈ u.data →
      (∃ pre, u.data = pre ++ '\\' :: (userField (some u)).data) ∧
      '\\' ∉ (userField (some u)).data) ∧
    (∀ u : String, u ≠ "" → '\\' ∉ u.data → userField (some u) = u) ∧
    (∀ a : Option String, '\\' ∉ (userField a).data) ∧
    (∀ (H : Type) (api : ProcessAPI H) (procCache : ProcCache H),
      ∀ r ∈ (CollectProcesses api procCache).2.procs,
        (∃ i p, r.User = userField (api.Username i p)) ∧ '\\' ∉ r.User.data) := by
  refine ⟨by decide, by decide, ?_, ?_, userField_noBackslash, ?_⟩
  · intro u hu hb
    rw [userField_some hu]
    obtain ⟨h1, h2⟩ := stripDomain_full u.data
    refine ⟨?_, h1⟩
    rcases h2 with ⟨hn, _⟩ | h2
    · exact absurd hb hn
    · exact h2
  · intro u hu hb
    rw [userField_some hu]
    rcases (stripDomain_full u.data).2 with ⟨_, he⟩ | ⟨pre, he⟩
    · rw [he]
    · exact absurd (by rw [he]; simp) hb
  · intro H api procCache r hr
    have hex : ∃ i p, r.User = userField (api.Username i p) := by
      unfold CollectProcesses at hr
      dsimp only at hr
      cases hp : api.Pids with
      | error e =>
        rw [hp] at hr
        exact absurd hr (List.not_mem_nil _)
      | ok pids =>
        rw [hp] at hr
        rcases collectLoop_rows api api.Getpid pids 0 (evictStale pids procCache) [] r hr
          with h | h
        · exact absurd h (List.not_mem_nil _)
        · exact h
    refine ⟨hex, ?_⟩
    obtain ⟨i, p, e⟩ := hex
    rw [e]
    exact userField_noBackslash _

theorem user_field_is_stripped_owner_witness :
    userField (some "CORP\\alice") = "alice" ∧ userField (some "bob") = "bob" ∧
    (CollectProcesses demoAPI [(5, 7), (3, 8)]).2.procs.map (fun r => r.User) =
      ["alice", "N/A"] ∧
    ∀ r ∈ (CollectProcesses demoAPI [(5, 7), (3, 8)]).2.procs, '\\' ∉ r.User.data :=
  ⟨by decide, (user_field_is_stripped_owner.2.2.2.1 "bob" (by decide) (by decide)),
   by decide,
   fun r hr => (user_field_is_stripped_owner.2.2.2.2.2 Nat demoAPI [(5, 7), (3, 8)] r hr).2⟩

end OwnerName

/-! ## The kill target is present exactly in ConfirmKill mode -/

section KillTargetPresence

variable {τ : Type}

/-- C25: in every reachable state the kill target is present exactly when the
mode is ConfirmKill; so the overlay condition of `View` holds exactly in
ConfirmKill mode, a confirm key in ConfirmKill mode always finds a target and
dispatches its termination, and the state "ConfirmKill without a target", which
the remaining branch of `handleConfirmKey` handles, does not occur. -/
theorem kill_target_iff_confirm_mode (lo : Char → Char) (ti : TextInput τ) (m : Model τ)
    (hr : Reachable lo ti m) :
    (m.killTarget.isSome = true ↔ m.mode = ModeConfirmKill) ∧
    (showsKillOverlay m = true ↔ m.mode = ModeConfirmKill) ∧
    (m.mode = ModeConfirmKill → ∃ t, m.killTarget = some t ∧
      ∀ k : KeyMsg, k.name = keyConfirmY ∨ k.name = keyEnter →
        handleConfirmKey m k = (m, Cmd.killProcess t.PID)) ∧
    ¬ (m.mode = ModeConfirmKill ∧ m.killTarget = none) := by
  have hinv := (Reachable.modeInv lo ti m hr).1
  refine ⟨hinv, ?_, ?_, ?_⟩
  · unfold showsKillOverlay
    rw [Bool.and_eq_true, decide_eq_true_eq]
    exact ⟨fun h => h.1, fun h => ⟨h, hinv.mpr h⟩⟩
  · intro hm
    cases ht : m.killTarget with
    | none =>
      have := hinv.mpr hm
      rw [ht] at this
      cases this
    | some t =>
      refine ⟨t, rfl, fun k hk => ?_⟩
      unfold handleConfirmKey
      rw [if_pos hk, ht]
  · rintro ⟨hm, hn⟩
    have := hinv.mpr hm
    rw [hn] at this
    cases this

theorem kill_target_iff_confirm_mode_witness :
    showsKillOverlay (Update Char.toLower lineInput
      (Update Char.toLower lineInput (NewModel lineInput)
        (Msg.processesMsg [row 1 "a" 10, row 2 "b" 90] none)).1 (key "K")).1 = true ∧
    showsKillOverlay (NewModel lineInput) ≠ true :=
  ⟨(kill_target_iff_confirm_mode Char.toLower lineInput _
      (Reachable.step _ (key "K") (Reachable.step _ _ Reachable.init))).2.1.mpr (by decide),
   fun h => absurd ((kill_target_iff_confirm_mode Char.toLower lineInput _
      Reachable.init).2.1.mp h) (by decide)⟩

end KillTargetPresence

/-! ## The persistent error stays -/

section PersistentError

variable {τ : Type}

theorem moveCursor_err (m : Model τ) (d : Int) : (moveCursor m d).err = m.err := by
  obtain ⟨c, s, h⟩ := moveCursor_frame m d
  rw [h]

theorem project_err (lo : Char → Char) (m : Model τ) :
    (clampCursor (applyFilterAndSort lo m)).err = m.err := by
  rw [clampCursor_err]
  rfl

theorem handleNormalKey_err (lo : Char → Char) (ti : TextInput τ) (m : Model τ)
    (k : KeyMsg) : (handleNormalKey lo ti m k).1.err = m.err := by
  have hmove : ∀ d, (moveCursor { m with statusMsg := "" } d).err = m.err :=
    fun d => moveCursor_err { m with statusMsg := "" } d
  have htog : ∀ c, (toggleSort lo { m with statusMsg := "" } c).err = m.err :=
    fun c => (toggleSort_frame lo { m with statusMsg := "" } c).2.2.2.2.2.2
  unfold handleNormalKey
  dsimp only
  by_cases h0 : k.name = keyQuit ∨ k.name = "ctrl+c"
  · rw [if_pos h0]
  rw [if_neg h0]
  by_cases h1 : k.name = keyUp ∨ k.name = keyVimUp
  · rw [if_pos h1]
    exact hmove _
  rw [if_neg h1]
  by_cases h2 : k.name = keyDown ∨ k.name = keyVimDown
  · rw [if_pos h2]
    exact hmove _
  rw [if_neg h2]
  by_cases h3 : k.name = keyFilter
  · rw [if_pos h3]
  rw [if_neg h3]
  by_cases h4 : k.name = keyEsc
  · rw [if_pos h4]
    by_cases he : m.filterText ≠ ""
    · rw [if_pos he]
      exact project_err lo _
    · rw [if_neg he]
  rw [if_neg h4]
  by_cases h5 : k.name = keyTab
  · rw [if_pos h5]
    exact project_err lo _
  rw [if_neg h5]
  by_cases h6 : k.name = keySortPID
  · rw [if_pos h6]
    exact htog _
  rw [if_neg h6]
  by_cases h7 : k.name = keySortName
  · rw [if_pos h7]
    exact htog _
  rw [if_neg h7]
  by_cases h8 : k.name = keySortCPU
  · rw [if_pos h8]
    exact htog _
  rw [if_neg h8]
  by_cases h9 : k.name = keySortMem
  · rw [if_pos h9]
    exact htog _
  rw [if_neg h9]
  by_cases h10 : k.name = keySortStatus
  · rw [if_pos h10]
    exact htog _
  rw [if_neg h10]
  by_cases h11 : k.name = keySortUser
  · rw [if_pos h11]
    exact htog _
  rw [if_neg h11]
  by_cases h12 : k.name = keyDel ∨ k.name = keyKill
  · rw [if_pos h12]
    by_cases hl : m.visibleProc.length > 0
    · rw [if_pos hl]
      split <;> rfl
    · rw [if_neg hl]
  rw [if_neg h12]
  by_cases h13 : k.name = keyHelp
  · rw [if_pos h13]
  rw [if_neg h13]

theorem handleFilterKey_err (lo : Char → Char) (ti : TextInput τ) (m : Model τ)
    (k : KeyMsg) : (handleFilterKey lo ti m k).1.err = m.err := by
  unfold handleFilterKey
  dsimp only
  by_cases h0 : k.name = keyEsc
  · rw [if_pos h0]
    exact project_err lo _
  rw [if_neg h0]
  by_cases h1 : k.name = keyEnter
  · rw [if_pos h1]
    exact project_err lo _
  rw [if_neg h1]
  exact project_err lo _

theorem handleConfirmKey_err (m : Model τ) (k : KeyMsg) :
    (handleConfirmKey m k).1.err = m.err := by
  unfold handleConfirmKey
  split_ifs
  · split <;> rfl
  · rfl
  · rfl

theorem handleHelpKey_err (m : Model τ) (k : KeyMsg) :
    (handleHelpKey m k).1.err = m.err := by
  unfold handleHelpKey
  split_ifs <;> rfl

/-- No transition clears `err`: it keeps its value or is set to a failure. -/
theorem Update_err (lo : Char → Char) (ti : TextInput τ) (m : Model τ) (msg : Msg) :
    (Update lo ti m msg).1.err = m.err ∨ ∃ e, (Update lo ti m msg).1.err = some e := by
  cases msg with
  | WindowSizeMsg w ht => exact Or.inl rfl
  | tickMsg => exact Or.inl rfl
  | sysStatsMsg s =>
    unfold Update
    dsimp only
    split
    · exact Or.inr ⟨_, rfl⟩
    · exact Or.inl rfl
  | processesMsg procs err =>
    unfold Update
    dsimp only
    split
    · exact Or.inr ⟨_, rfl⟩
    · exact Or.inl (project_err lo _)
  | killResultMsg pid err =>
    unfold Update
    dsimp only
    split <;> exact Or.inl rfl
  | KeyMsg k =>
    unfold Update
    dsimp only
    split
    · exact Or.inl (handleNormalKey_err lo ti m k)
    · exact Or.inl (handleFilterKey_err lo ti m k)
    · exact Or.inl (handleConfirmKey_err m k)
    · exact Or.inl (handleHelpKey_err m k)
  | other => exact Or.inl rfl

theorem Update_err_stays (lo : Char → Char) (ti : TextInput τ) (m : Model τ) (msg : Msg)
    (h : m.err ≠ none) : (Update lo ti m msg).1.err ≠ none := by
  rcases Update_err lo ti m msg with e | ⟨e, he⟩
  · rw [e]
    exact h
  · rw [he]
    exact fun h => Option.noConfusion h

theorem run_err_stays (lo : Char → Char) (ti : TextInput τ) (msgs : List Msg) :
    ∀ m : Model τ, m.err ≠ none → (run lo ti m msgs).err ≠ none := by
  induction msgs with
  | nil => exact fun m h => h
  | cons msg rest ih =>
    intro m h
    exact ih _ (Update_err_stays lo ti m msg h)

/-- With an error set, the status bar is rendered in the error style, with
the ephemeral message or the error text. -/
theorem renderStatusBar_of_err (m : Model τ) (h : m.err ≠ none) :
    ∃ text : String,
      (∀ render : Style → String → String,
        renderStatusBar render m = render ⟨StyleName.styleStatusError, none⟩ text) ∧
      ((m.statusMsg ≠ "" ∧ text = "  " ++ m.statusMsg) ∨
        (m.statusMsg = "" ∧ ∃ e, m.err = some e ∧ text = "  Error: " ++ e)) := by
  by_cases hs : m.statusMsg ≠ ""
  · refine ⟨"  " ++ m.statusMsg, fun render => ?_, Or.inl ⟨hs, rfl⟩⟩
    unfold renderStatusBar
    rw [if_pos hs]
  · cases he : m.err with
    | none => exact absurd he h
    | some e =>
      refine ⟨"  Error: " ++ e, fun render => ?_, Or.inr ⟨not_not.mp hs, e, rfl, rfl⟩⟩
      unfold renderStatusBar
      rw [if_neg hs, he]

/-- C26: once `err` is set, it is set after every event and so after every
sequence of events; the status bar then shows, in the error style, the
ephemeral message or the error, and not the help text any more. -/
theorem err_is_never_cleared (lo : Char → Char) (ti : TextInput τ) (m : Model τ)
    (h : m.err ≠ none) :
    (∀ msg : Msg, (Update lo ti m msg).1.err ≠ none) ∧
    (∀ msgs : List Msg,
      (run lo ti m msgs).err ≠ none ∧
      (∃ text : String,
        (∀ render : Style → String → String,
          renderStatusBar render (run lo ti m msgs) =
            render ⟨StyleName.styleStatusError, none⟩ text) ∧
        (((run lo ti m msgs).statusMsg ≠ "" ∧ text = "  " ++ (run lo ti m msgs).statusMsg) ∨
          ((run lo ti m msgs).statusMsg = "" ∧
            ∃ e, (run lo ti m msgs).err = some e ∧ text = "  Error: " ++ e))) ∧
      renderStatusBar tagRender (run lo ti m msgs) ≠
        tagRender ⟨StyleName.styleStatusBar, none⟩ ("  " ++ helpText)) := by
  refine ⟨fun msg => Update_err_stays lo ti m msg h, fun msgs => ?_⟩
  have hrun := run_err_stays lo ti msgs m h
  obtain ⟨text, ht, hcase⟩ := renderStatusBar_of_err (run lo ti m msgs) hrun
  refine ⟨hrun, ⟨text, ht, hcase⟩, ?_⟩
  rw [ht tagRender]
  intro heq
  have hd := congrArg String.data heq
  unfold tagRender at hd
  rw [if_pos rfl, if_neg (by decide), String.data_append, String.data_append] at hd
  exact absurd (List.head_eq_of_cons_eq hd) (by decide)

theorem err_is_never_cleared_witness :
    (run Char.toLower lineInput
      { NewModel lineInput with err := some "enumeration failed" }
      [Msg.processesMsg [row 1 "a" 10] none,
       Msg.sysStatsMsg { Hostname := "box", Uptime := "1h 2m", MemUsed := F64.fin 4,
                         MemTotal := F64.fin 8, Err := none },
       Msg.tickMsg, Msg.WindowSizeMsg 100 30, key "j"]).err ≠ none ∧
    renderStatusBar tagRender (run Char.toLower lineInput
      { NewModel lineInput with err := some "enumeration failed" }
      [Msg.processesMsg [row 1 "a" 10] none,
       Msg.sysStatsMsg { Hostname := "box", Uptime := "1h 2m", MemUsed := F64.fin 4,
                         MemTotal := F64.fin 8, Err := none },
       Msg.tickMsg, Msg.WindowSizeMsg 100 30, key "j"]) ≠
      tagRender ⟨StyleName.styleStatusBar, none⟩ ("  " ++ helpText) :=
  ⟨((err_is_never_cleared Char.toLower lineInput
      { NewModel lineInput with err := some "enumeration failed" } (by simp)).2 _).1,
   ((err_is_never_cleared Char.toLower lineInput
      { NewModel lineInput with err := some "enumeration failed" } (by simp)).2 _).2.2⟩

end PersistentError

end Gomon
